import Mathlib

/-!
Shallow embedding of the travel-route-finder core (graph_module.py,
pathfinder.py, mst.py) together with the networkx library routines those
files invoke (nx.Graph adjacency, single_source_dijkstra,
single_source_bellman_ford, minimum_spanning_tree with Kruskal).
Weights are rationals; Python dicts become association lists; the value
float('inf') becomes the top element of WithTop ℚ; raised exceptions
become an explicit error type.
-/

set_option linter.unusedSectionVars false
set_option linter.unusedVariables false

namespace TravelRoute

/-- Exceptions that the networkx calls used by pathfinder.py can raise. -/
inductive NxError where
  | networkXError
  | nodeNotFound
  | noPath
  | negativeCycle
deriving DecidableEq, Repr

/-- An nx.Graph as used by the repository: an insertion-ordered node list and
an undirected edge list, each edge an ordered-pair record with a weight; for a
well-formed graph the unordered pair determines the record. -/
structure Graph (α : Type) where
  nodes : List α
  adj : List (α × α × ℚ)
deriving DecidableEq

variable {α : Type} [DecidableEq α]

/-- Association-list lookup (Python dict read). -/
def alookup (l : List (α × β)) (k : α) : Option β :=
  (l.find? (fun p => decide (p.1 = k))).map (·.2)

/-- Association-list write (Python dict write: overwrite or append). -/
def aset (l : List (α × β)) (k : α) (v : β) : List (α × β) :=
  if (l.find? (fun p => decide (p.1 = k))).isSome then
    l.map (fun p => if p.1 = k then (k, v) else p)
  else l ++ [(k, v)]

/-- The neighbor/weight pairs of `u` read off the undirected edge list. -/
def Graph.neighborsList (G : Graph α) (u : α) : List (α × ℚ) :=
  G.adj.filterMap (fun e =>
    if e.1 = u then some (e.2.1, e.2.2)
    else if e.2.1 = u then some (e.1, e.2.2) else none)

/-- nx.Graph.neighbors: raises NetworkXError when the node is absent. -/
def Graph.neighbors (G : Graph α) (u : α) : Except NxError (List (α × ℚ)) :=
  if u ∈ G.nodes then .ok (G.neighborsList u) else .error .networkXError

/-- nx.Graph.add_edge: absent endpoints are added as nodes; the weight of an
existing unordered pair is overwritten, otherwise the edge is appended. -/
def Graph.add_edge (G : Graph α) (a b : α) (w : ℚ) : Graph α :=
  let ns := if a ∈ G.nodes then G.nodes else G.nodes ++ [a]
  let ns := if b ∈ ns then ns else ns ++ [b]
  if (G.adj.find? (fun e =>
      decide ((e.1 = a ∧ e.2.1 = b) ∨ (e.1 = b ∧ e.2.1 = a)))).isSome then
    ⟨ns, G.adj.map (fun e =>
      if (e.1 = a ∧ e.2.1 = b) ∨ (e.1 = b ∧ e.2.1 = a) then (e.1, e.2.1, w) else e)⟩
  else ⟨ns, G.adj ++ [(a, b, w)]⟩

/-- Well-formedness guaranteed by nx.Graph: nodes are distinct, every edge
joins two distinct present nodes, and distinct records carry distinct
unordered pairs. -/
def Graph.WF (G : Graph α) : Prop :=
  G.nodes.Nodup ∧
  (∀ e ∈ G.adj, e.1 ∈ G.nodes ∧ e.2.1 ∈ G.nodes ∧ e.1 ≠ e.2.1) ∧
  G.adj.Pairwise (fun e f => ¬ ((e.1 = f.1 ∧ e.2.1 = f.2.1) ∨ (e.1 = f.2.1 ∧ e.2.1 = f.1)))

instance (G : Graph α) : Decidable (G.WF) :=
  inferInstanceAs (Decidable (G.nodes.Nodup ∧
    (∀ e ∈ G.adj, e.1 ∈ G.nodes ∧ e.2.1 ∈ G.nodes ∧ e.1 ≠ e.2.1) ∧
    G.adj.Pairwise (fun e f : α × α × ℚ =>
      ¬ ((e.1 = f.1 ∧ e.2.1 = f.2.1) ∨ (e.1 = f.2.1 ∧ e.2.1 = f.1)))))

/-- The one-step undirected adjacency relation of an edge list. -/
def adjRel (E : List (α × α × ℚ)) (u v : α) : Prop :=
  ∃ w, (u, v, w) ∈ E ∨ (v, u, w) ∈ E

/-- Reachability along an edge list (reflexive-transitive closure). -/
def ReachTo (E : List (α × α × ℚ)) : α → α → Prop :=
  Relation.ReflTransGen (adjRel E)

/-- Reachability inside a graph. -/
def Graph.Reachable (G : Graph α) : α → α → Prop :=
  ReachTo G.adj

/-- Boolean edge test. -/
def isEdgeB (E : List (α × α × ℚ)) (u v : α) : Bool :=
  E.any (fun e => decide ((e.1 = u ∧ e.2.1 = v) ∨ (e.1 = v ∧ e.2.1 = u)))

/-- Weight of the (first) edge record joining an unordered pair. -/
def weightOf (E : List (α × α × ℚ)) (u v : α) : Option ℚ :=
  (E.find? (fun e => decide ((e.1 = u ∧ e.2.1 = v) ∨ (e.1 = v ∧ e.2.1 = u)))).map (·.2.2)

/-- A node sequence is a walk when consecutive nodes are joined by edges. -/
def IsWalk (E : List (α × α × ℚ)) (p : List α) : Prop :=
  p ≠ [] ∧ List.Chain' (fun u v => isEdgeB E u v = true) p

/-- A walk from `s` to `t`. -/
def IsWalkFrom (E : List (α × α × ℚ)) (s t : α) (p : List α) : Prop :=
  IsWalk E p ∧ p.head? = some s ∧ p.getLast? = some t

/-- Sum of the edge weights along a node sequence. -/
def walkCost (E : List (α × α × ℚ)) : List α → ℚ
  | [] => 0
  | [_] => 0
  | u :: v :: rest => (weightOf E u v).getD 0 + walkCost E (v :: rest)

/-- The exact shortest-walk distance from `s` to `t`. -/
def IsShortestDist (E : List (α × α × ℚ)) (s t : α) (d : ℚ) : Prop
:= (∃ p, IsWalkFrom E s t p ∧ walkCost E p = d) ∧
   ∀ p, IsWalkFrom E s t p → d ≤ walkCost E p

/-- All vertices that can occur during a search: declared nodes and
edge endpoints, deduplicated. -/
def Graph.verts (G : Graph α) : List α :=
  (G.nodes ++ G.adj.map (·.1) ++ G.adj.map (·.2.1)).dedup

/-! ## Executable reachability closure (used for decidable reachability) -/

/-- Extend the accumulated set across one edge, in both directions. -/
def growStep (acc : List α) (e : α × α × ℚ) : List α :=
  let acc2 := if e.1 ∈ acc ∧ e.2.1 ∉ acc then acc ++ [e.2.1] else acc
  if e.2.1 ∈ acc2 ∧ e.1 ∉ acc2 then acc2 ++ [e.1] else acc2

/-- One saturation pass: scan all edges, adding any endpoint adjacent to the
accumulated set. -/
def growReach (E : List (α × α × ℚ)) (acc : List α) : List α :=
  E.foldl growStep acc

/-- The set of vertices connected to `s` via edges of `E`. -/
def reachList (E : List (α × α × ℚ)) (s : α) : List α :=
  (growReach E)^[2 * E.length + 1] [s]

/-- Decidable connectivity test. -/
def reachB (E : List (α × α × ℚ)) (s t : α) : Bool :=
  decide (t ∈ reachList E s)

/-! ## pathfinder.bfs_traversal -/

/-- The body of the `while q:` loop of `bfs_traversal`: pop the head of the
FIFO queue, record it as visited, enqueue its unseen neighbors. -/
def bfsAux (G : Graph α) : ℕ → List α → List α → List α → Except NxError (List α)
  | 0, _, _, visited => .ok visited
  | fuel + 1, q, seen, visited =>
    match q with
    | [] => .ok visited
    | u :: q' =>
      match G.neighbors u with
      | .error e => .error e
      | .ok ns =>
        let qs := ns.foldl (fun (acc : List α × List α) vw =>
          if vw.1 ∈ acc.2 then acc else (acc.1 ++ [vw.1], acc.2 ++ [vw.1])) (q', seen)
        bfsAux G fuel qs.1 qs.2 (visited ++ [u])

/-- pathfinder.bfs_traversal: FIFO traversal seeded with `start`; the fuel
bounds the number of queue pops, which never exceeds the vertex count. -/
def bfs_traversal (G : Graph α) (start : α) : Except NxError (List α) :=
  bfsAux G (G.verts.length + 2) [start] [start] []

/-! ## pathfinder.dfs_traversal -/

mutual

/-- One call of the inner recursive `dfs(u)` of `dfs_traversal`: append `u`
to `visited`, then recurse into each neighbor not yet visited. -/
def dfsAux (G : Graph α) : ℕ → α → List α → Except NxError (List α)
  | 0, _, visited => .ok visited
  | fuel + 1, u, visited =>
    match G.neighbors u with
    | .error e => .error e
    | .ok ns => dfsFold G fuel ns (visited ++ [u])
termination_by fuel _ _ => (fuel, 0)

/-- The `for v in G.neighbors(u)` loop of the recursive dfs. -/
def dfsFold (G : Graph α) : ℕ → List (α × ℚ) → List α → Except NxError (List α)
  | _, [], visited => .ok visited
  | fuel, vw :: rest, visited =>
    if vw.1 ∈ visited then dfsFold G fuel rest visited
    else
      match dfsAux G fuel vw.1 visited with
      | .error e => .error e
      | .ok visited' => dfsFold G fuel rest visited'
termination_by fuel l _ => (fuel, l.length + 1)

end

/-- pathfinder.dfs_traversal: a recursive pre-order walk; the fuel bounds the
recursion depth, which never exceeds the vertex count. -/
def dfs_traversal (G : Graph α) (start : α) : Except NxError (List α) :=
  dfsAux G (G.verts.length + 2) start []

/-! ## networkx single_source_dijkstra as invoked by
pathfinder.dijkstra_shortest_path -/

/-- First entry of minimal tentative distance (the heap pop). -/
def pickMin (l : List (α × ℚ)) : Option (α × ℚ) :=
  l.foldl (fun acc p =>
    match acc with
    | none => some p
    | some q => if p.2 < q.2 then some p else acc) none

/-- Relax one neighbor `vw` of the just-finalized node: skip finalized
nodes, otherwise lower the tentative distance and extend the path. -/
def relaxOne (dist : List (α × ℚ)) (d : ℚ) (pu : List α)
    (st : List (α × ℚ) × List (α × List α)) (vw : α × ℚ) :
    List (α × ℚ) × List (α × List α) :=
  if (alookup dist vw.1).isSome then st
  else
    match alookup st.1 vw.1 with
    | none => (aset st.1 vw.1 (d + vw.2), aset st.2 vw.1 (pu ++ [vw.1]))
    | some cur =>
      if d + vw.2 < cur then (aset st.1 vw.1 (d + vw.2), aset st.2 vw.1 (pu ++ [vw.1]))
      else st

/-- The main Dijkstra loop: pop the minimal tentative node, finalize it,
relax its neighbors.  Returns the finalized distance dict and path dict. -/
def dijkstraAux (G : Graph α) :
    ℕ → List (α × ℚ) → List (α × List α) → List (α × ℚ) →
    List (α × ℚ) × List (α × List α)
  | 0, dist, paths, _ => (dist, paths)
  | fuel + 1, dist, paths, tent =>
    match pickMin tent with
    | none => (dist, paths)
    | some ud =>
      let tent' := tent.filter (fun p => decide (p.1 ≠ ud.1))
      let dist' := dist ++ [ud]
      let pu := (alookup paths ud.1).getD []
      let st := (G.neighborsList ud.1).foldl (relaxOne dist' ud.2 pu) (tent', paths)
      dijkstraAux G fuel dist' st.2 st.1

/-- nx.single_source_dijkstra with a target: a target equal to the source is
answered immediately, an absent source raises NodeNotFound, and a target
missing from the computed dicts raises NetworkXNoPath. -/
def single_source_dijkstra (G : Graph α) (s t : α) : Except NxError (ℚ × List α) :=
  if t = s then .ok (0, [t])
  else if s ∈ G.nodes then
    let r := dijkstraAux G (G.verts.length + 1) [] [(s, [s])] [(s, 0)]
    match alookup r.1 t, alookup r.2 t with
    | some d, some p => .ok (d, p)
    | _, _ => .error .noPath
  else .error .nodeNotFound

/-- pathfinder.dijkstra_shortest_path: NetworkXNoPath is caught and turned
into `(float('inf'), [])`; every other exception propagates. -/
def dijkstra_shortest_path (G : Graph α) (s t : α) :
    Except NxError (WithTop ℚ × List α) :=
  match single_source_dijkstra G s t with
  | .ok dp => .ok ((dp.1 : WithTop ℚ), dp.2)
  | .error .noPath => .ok (⊤, [])
  | .error e => .error e

/-! ## networkx single_source_bellman_ford as invoked by
pathfinder.bellman_ford_shortest_path -/

/-- Both directions of every undirected edge. -/
def bfEdges (G : Graph α) : List (α × α × ℚ) :=
  G.adj ++ G.adj.map (fun e => (e.2.1, e.1, e.2.2))

/-- Relax a single directed edge, keeping the path dict in step. -/
def bfRelax (st : List (α × ℚ) × List (α × List α)) (e : α × α × ℚ) :
    List (α × ℚ) × List (α × List α) :=
  match alookup st.1 e.1 with
  | none => st
  | some du =>
    match alookup st.1 e.2.1 with
    | none =>
      (aset st.1 e.2.1 (du + e.2.2),
       aset st.2 e.2.1 (((alookup st.2 e.1).getD []) ++ [e.2.1]))
    | some dv =>
      if du + e.2.2 < dv then
        (aset st.1 e.2.1 (du + e.2.2),
         aset st.2 e.2.1 (((alookup st.2 e.1).getD []) ++ [e.2.1]))
      else st

/-- One full relaxation pass over all directed edges. -/
def bfPass (E : List (α × α × ℚ)) (st : List (α × ℚ) × List (α × List α)) :
    List (α × ℚ) × List (α × List α) :=
  E.foldl bfRelax st

/-- Does some edge still relax?  (The negative-cycle detection pass.) -/
def bfRelaxable (E : List (α × α × ℚ)) (dist : List (α × ℚ)) : Bool :=
  E.any (fun e =>
    match alookup dist e.1, alookup dist e.2.1 with
    | some _, none => true
    | some du, some dv => decide (du + e.2.2 < dv)
    | none, _ => false)

/-- The Bellman-Ford core: `|nodes| - 1` relaxation passes then the
detection pass, raising NetworkXUnbounded on a reachable negative cycle. -/
def bellmanInner (G : Graph α) (s : α) :
    Except NxError (List (α × ℚ) × List (α × List α)) :=
  let E := bfEdges G
  let st := (bfPass E)^[G.nodes.length - 1] ([(s, 0)], [(s, [s])])
  if bfRelaxable E st.1 then .error .negativeCycle else .ok st

/-- nx.single_source_bellman_ford with a target: equal endpoints are
answered immediately after a presence check, an absent source raises
NodeNotFound, and a target missing from the dicts raises NetworkXNoPath. -/
def single_source_bellman_ford (G : Graph α) (s t : α) :
    Except NxError (ℚ × List α) :=
  if s = t then (if s ∈ G.nodes then .ok (0, [s]) else .error .nodeNotFound)
  else if s ∈ G.nodes then
    match bellmanInner G s with
    | .error e => .error e
    | .ok st =>
      match alookup st.1 t, alookup st.2 t with
      | some d, some p => .ok (d, p)
      | _, _ => .error .noPath
  else .error .nodeNotFound

/-- pathfinder.bellman_ford_shortest_path: `except Exception` catches every
failure and returns `(float('inf'), [])`, so the wrapper is total. -/
def bellman_ford_shortest_path (G : Graph α) (s t : α) : WithTop ℚ × List α :=
  match single_source_bellman_ford G s t with
  | .ok dp => ((dp.1 : WithTop ℚ), dp.2)
  | .error _ => (⊤, [])

/-! ## networkx minimum_spanning_tree (kruskal) as invoked by mst.build_mst -/

/-- The union-find block containing `u`, as the partition block list. -/
def findBlock (blocks : List (List α)) (u : α) : Option (List α) :=
  blocks.find? (fun b => decide (u ∈ b))

/-- Kruskal's scan over weight-sorted edges: select an edge iff its
endpoints lie in different blocks, merging the blocks. -/
def kruskalFold : List (α × α × ℚ) → List (List α) → List (α × α × ℚ) →
    List (List α) × List (α × α × ℚ)
  | [], blocks, sel => (blocks, sel)
  | e :: rest, blocks, sel =>
    match findBlock blocks e.1, findBlock blocks e.2.1 with
    | some bu, some bv =>
      if bu = bv then kruskalFold rest blocks sel
      else
        kruskalFold rest
          ((bu ++ bv) :: blocks.filter (fun b => decide (b ≠ bu ∧ b ≠ bv)))
          (sel ++ [e])
    | _, _ => kruskalFold rest blocks sel

/-- Edges sorted by ascending weight (a stable sort, as in networkx). -/
def sortedEdges (G : Graph α) : List (α × α × ℚ) :=
  G.adj.mergeSort (fun e f => decide (e.2.2 ≤ f.2.2))

/-- The edge list selected by nx.minimum_spanning_tree(..., 'kruskal'). -/
def kruskal (G : Graph α) : List (α × α × ℚ) :=
  (kruskalFold (sortedEdges G) (G.nodes.map (fun v => [v])) []).2

/-- mst.build_mst: the spanning forest as a graph on the same nodes,
paired with the sum of the selected weights. -/
def build_mst (G : Graph α) : Graph α × ℚ :=
  let T : Graph α := ⟨G.nodes, kruskal G⟩
  (T, (T.adj.map (·.2.2)).sum)

/-! ## graph_module.build_graph_from_df -/

/-- A pandas DataFrame as read by graph_module.load_csv_to_df: row labels,
column labels, and a numeric cell for each label pair. -/
structure DF (α : Type) where
  index : List α
  columns : List α
  entry : α → α → ℚ

/-- nx.Graph.add_node: a no-op on an already-present label. -/
def Graph.add_node (G : Graph α) (c : α) : Graph α :=
  if c ∈ G.nodes then G else ⟨G.nodes ++ [c], G.adj⟩

/-- graph_module.build_graph_from_df: add every row label as a node, then
walk the strict upper triangle and add an edge exactly when the cell is
positive.  Construction never fails. -/
def build_graph_from_df (df : DF α) : Graph α :=
  let G1 := df.index.foldl (fun G c => G.add_node c) (⟨[], []⟩ : Graph α)
  (df.index.enum).foldl (fun G ia =>
    (df.columns.enum).foldl (fun G jb =>
      if jb.1 ≤ ia.1 then G
      else if 0 < df.entry ia.2 jb.2 then G.add_edge ia.2 jb.2 (df.entry ia.2 jb.2)
      else G) G) G1

/-! ## State-threaded variants: the graph object as left after each call -/

/-- bfs with the graph object threaded through every loop iteration. -/
def bfsAuxSt : ℕ → Graph α → List α → List α → List α →
    Graph α × Except NxError (List α)
  | 0, G, _, _, visited => (G, .ok visited)
  | fuel + 1, G, q, seen, visited =>
    match q with
    | [] => (G, .ok visited)
    | u :: q' =>
      match G.neighbors u with
      | .error e => (G, .error e)
      | .ok ns =>
        let qs := ns.foldl (fun (acc : List α × List α) vw =>
          if vw.1 ∈ acc.2 then acc else (acc.1 ++ [vw.1], acc.2 ++ [vw.1])) (q', seen)
        bfsAuxSt fuel G qs.1 qs.2 (visited ++ [u])

/-- bfs_traversal, returning also the graph as left after the call. -/
def bfs_traversal_st (G : Graph α) (start : α) : Graph α × Except NxError (List α) :=
  bfsAuxSt (G.verts.length + 2) G [start] [start] []

mutual

/-- dfs recursion with the graph object threaded through. -/
def dfsAuxSt : ℕ → Graph α → α → List α → Graph α × Except NxError (List α)
  | 0, G, _, visited => (G, .ok visited)
  | fuel + 1, G, u, visited =>
    match G.neighbors u with
    | .error e => (G, .error e)
    | .ok ns => dfsFoldSt fuel G ns (visited ++ [u])
termination_by fuel _ _ _ => (fuel, 0)

/-- dfs neighbor loop with the graph object threaded through. -/
def dfsFoldSt : ℕ → Graph α → List (α × ℚ) → List α → Graph α × Except NxError (List α)
  | _, G, [], visited => (G, .ok visited)
  | fuel, G, vw :: rest, visited =>
    if vw.1 ∈ visited then dfsFoldSt fuel G rest visited
    else
      match dfsAuxSt fuel G vw.1 visited with
      | (G', .error e) => (G', .error e)
      | (G', .ok visited') => dfsFoldSt fuel G' rest visited'
termination_by fuel _ l _ => (fuel, l.length + 1)

end

/-- dfs_traversal, returning also the graph as left after the call. -/
def dfs_traversal_st (G : Graph α) (start : α) : Graph α × Except NxError (List α) :=
  dfsAuxSt (G.verts.length + 2) G start []

/-- Dijkstra loop with the graph object threaded through. -/
def dijkstraAuxSt : ℕ → Graph α → List (α × ℚ) → List (α × List α) → List (α × ℚ) →
    Graph α × (List (α × ℚ) × List (α × List α))
  | 0, G, dist, paths, _ => (G, dist, paths)
  | fuel + 1, G, dist, paths, tent =>
    match pickMin tent with
    | none => (G, dist, paths)
    | some ud =>
      let tent' := tent.filter (fun p => decide (p.1 ≠ ud.1))
      let dist' := dist ++ [ud]
      let pu := (alookup paths ud.1).getD []
      let st := (G.neighborsList ud.1).foldl (relaxOne dist' ud.2 pu) (tent', paths)
      dijkstraAuxSt fuel G dist' st.2 st.1

/-- dijkstra_shortest_path, returning also the graph as left after the
call; the wrapper body is a single library call that only reads the graph. -/
def dijkstra_shortest_path_st (G : Graph α) (s t : α) :
    Graph α × Except NxError (WithTop ℚ × List α) :=
  if t = s then (G, .ok ((0 : ℚ), [t]))
  else if s ∈ G.nodes then
    match dijkstraAuxSt (G.verts.length + 1) G [] [(s, [s])] [(s, 0)] with
    | (G', r) =>
      match alookup r.1 t, alookup r.2 t with
      | some d, some p => (G', .ok ((d : WithTop ℚ), p))
      | _, _ => (G', .ok (⊤, []))
  else (G, .error .nodeNotFound)

/-- bellman_ford_shortest_path, returning also the graph as left after the
call; the wrapper reads the node list and edge list once and never writes. -/
def bellman_ford_shortest_path_st (G : Graph α) (s t : α) :
    Graph α × (WithTop ℚ × List α) :=
  (G, bellman_ford_shortest_path G s t)

/-- build_mst, returning also the input graph as left after the call; the
library call reads the edges and builds a fresh result graph. -/
def build_mst_st (G : Graph α) : Graph α × (Graph α × ℚ) :=
  (G, build_mst G)

/-! ## Generic fold/iterate invariants -/

theorem foldl_inv {β σ : Type _} (P : σ → Prop) {f : σ → β → σ} {l : List β} {s0 : σ}
    (h0 : P s0) (hstep : ∀ s b, b ∈ l → P s → P (f s b)) : P (l.foldl f s0) := by
  induction l generalizing s0 with
  | nil => exact h0
  | cons b rest ih =>
    exact ih (hstep s0 b (List.mem_cons_self b rest) h0)
      (fun s c hc hP => hstep s c (List.mem_cons_of_mem b hc) hP)

theorem iterate_inv {σ : Type _} (P : σ → Prop) {f : σ → σ} {x : σ}
    (h0 : P x) (hstep : ∀ y, P y → P (f y)) : ∀ n, P (f^[n] x) := by
  intro n
  induction n generalizing x with
  | zero => exact h0
  | succ n ih =>
    rw [Function.iterate_succ_apply]
    exact ih (hstep x h0)

/-! ## Association-list lemmas -/

theorem mem_aset {β : Type _} {l : List (α × β)} {k : α} {v : β} {p : α × β}
    (h : p ∈ aset l k v) : p ∈ l ∨ p = (k, v) := by
  unfold aset at h
  split at h
  · rcases List.mem_map.mp h with ⟨q, hq, hEq⟩
    by_cases hk : q.1 = k
    · right; rw [if_pos hk] at hEq; exact hEq.symm
    · left; rw [if_neg hk] at hEq; exact hEq ▸ hq
  · rcases List.mem_append.mp h with h | h
    · exact Or.inl h
    · right; simpa using h

theorem alookup_eq_some_mem {β : Type _} {l : List (α × β)} {k : α} {v : β}
    (h : alookup l k = some v) : (k, v) ∈ l := by
  unfold alookup at h
  rcases Option.map_eq_some'.mp h with ⟨p, hfind, hv⟩
  have hmem := List.mem_of_find?_eq_some hfind
  have hk := List.find?_some hfind
  simp only [decide_eq_true_eq] at hk
  have : p = (k, v) := by
    cases p; simp_all
  exact this ▸ hmem

theorem find_map_self {β : Type _} (l : List (α × β)) (k : α) (v : β)
    (hf : (l.find? (fun p => decide (p.1 = k))).isSome) :
    (l.map (fun p => if p.1 = k then (k, v) else p)).find? (fun p => decide (p.1 = k))
      = some (k, v) := by
  induction l with
  | nil => simp at hf
  | cons q rest ih =>
    by_cases hq : q.1 = k
    · rw [List.map_cons, if_pos hq, List.find?_cons_of_pos _ (by simp)]
    · rw [List.map_cons, if_neg hq, List.find?_cons_of_neg _ (by simpa using hq)]
      rw [List.find?_cons_of_neg _ (by simpa using hq)] at hf
      exact ih hf

theorem alookup_aset_self {β : Type _} (l : List (α × β)) (k : α) (v : β) :
    alookup (aset l k v) k = some v := by
  unfold aset
  split
  · next hf =>
    unfold alookup
    rw [find_map_self l k v hf]
    rfl
  · next hf =>
    unfold alookup
    rw [List.find?_append, Option.not_isSome_iff_eq_none.mp hf]
    simp

theorem find_map_ne {β : Type _} (l : List (α × β)) (k k' : α) (v : β) (h : k' ≠ k) :
    (l.map (fun p => if p.1 = k then (k, v) else p)).find? (fun p => decide (p.1 = k'))
      = l.find? (fun p => decide (p.1 = k')) := by
  induction l with
  | nil => simp
  | cons q rest ih =>
    by_cases hq : q.1 = k
    · rw [List.map_cons, if_pos hq, List.find?_cons_of_neg _ (by simpa using Ne.symm h),
        List.find?_cons_of_neg _ (by simpa [hq] using Ne.symm h)]
      exact ih
    · by_cases hq' : q.1 = k'
      · rw [List.map_cons, if_neg hq, List.find?_cons_of_pos _ (by simpa using hq'),
          List.find?_cons_of_pos _ (by simpa using hq')]
      · rw [List.map_cons, if_neg hq, List.find?_cons_of_neg _ (by simpa using hq'),
          List.find?_cons_of_neg _ (by simpa using hq')]
        exact ih

theorem alookup_aset_ne {β : Type _} (l : List (α × β)) (k k' : α) (v : β)
    (h : k' ≠ k) : alookup (aset l k v) k' = alookup l k' := by
  unfold aset
  split
  · unfold alookup
    rw [find_map_ne l k k' v h]
  · unfold alookup
    rw [List.find?_append]
    have h2 : List.find? (fun p => decide (p.1 = k')) [(k, v)] = none := by
      simp [Ne.symm h]
    rw [h2]
    cases List.find? (fun p => decide (p.1 = k')) l <;> simp

/-! ## pickMin lemmas -/

theorem pickMinGo_mem : ∀ (l : List (α × ℚ)) (acc : Option (α × ℚ)) (p : α × ℚ),
    l.foldl (fun acc p =>
      match acc with
      | none => some p
      | some q => if p.2 < q.2 then some p else acc) acc = some p →
    acc = some p ∨ p ∈ l := by
  intro l
  induction l with
  | nil => intro acc p h; exact Or.inl h
  | cons b rest ih =>
    intro acc p h
    simp only [List.foldl_cons] at h
    rcases ih _ p h with h'' | h''
    · cases acc with
      | none =>
        simp only [Option.some.injEq] at h''
        exact Or.inr (h'' ▸ List.mem_cons_self b rest)
      | some q =>
        by_cases hlt : b.2 < q.2
        · simp only [if_pos hlt, Option.some.injEq] at h''
          exact Or.inr (h'' ▸ List.mem_cons_self b rest)
        · simp only [if_neg hlt, Option.some.injEq] at h''
          exact Or.inl (by rw [h''])
    · exact Or.inr (List.mem_cons_of_mem b h'')

theorem pickMin_mem {l : List (α × ℚ)} {p : α × ℚ} (h : pickMin l = some p) : p ∈ l := by
  rcases pickMinGo_mem l none p h with h' | h'
  · simp at h'
  · exact h'

theorem pickMin_eq_none {l : List (α × ℚ)} (h : pickMin l = none) : l = [] := by
  cases l with
  | nil => rfl
  | cons b rest =>
    exfalso
    unfold pickMin at h
    have H : ∀ (rest : List (α × ℚ)) (q : α × ℚ),
        (rest.foldl (fun acc p =>
          match acc with
          | none => some p
          | some q => if p.2 < q.2 then some p else acc) (some q)).isSome := by
      intro rest
      induction rest with
      | nil => intro q; rfl
      | cons c cs ih =>
        intro q
        simp only [List.foldl_cons]
        by_cases hlt : c.2 < q.2 <;> simp [hlt, ih]
    simp only [List.foldl_cons] at h
    have := H rest b
    rw [h] at this
    simp at this

/-! ## Reachability basics -/

theorem adjRel_symm {E : List (α × α × ℚ)} {u v : α} (h : adjRel E u v) : adjRel E v u := by
  rcases h with ⟨w, h | h⟩
  · exact ⟨w, Or.inr h⟩
  · exact ⟨w, Or.inl h⟩

theorem ReachTo.refl {E : List (α × α × ℚ)} (u : α) : ReachTo E u u :=
  Relation.ReflTransGen.refl

theorem ReachTo.tail {E : List (α × α × ℚ)} {u v w : α}
    (h : ReachTo E u v) (h' : adjRel E v w) : ReachTo E u w :=
  Relation.ReflTransGen.tail h h'

theorem reach_mem_nodes {G : Graph α} (hWF : G.WF) {s v : α}
    (hs : s ∈ G.nodes) (h : ReachTo G.adj s v) : v ∈ G.nodes := by
  induction h with
  | refl => exact hs
  | tail _ hadj ih =>
    rcases hadj with ⟨w, h' | h'⟩
    · exact (hWF.2.1 _ h').2.1
    · exact (hWF.2.1 _ h').1

theorem neighborsList_adjRel {G : Graph α} {u : α} {vw : α × ℚ}
    (h : vw ∈ G.neighborsList u) : adjRel G.adj u vw.1 := by
  unfold Graph.neighborsList at h
  rcases List.mem_filterMap.mp h with ⟨e, he, heq⟩
  by_cases h1 : e.1 = u
  · rw [if_pos h1] at heq
    refine ⟨e.2.2, Or.inl ?_⟩
    have : vw.1 = e.2.1 := by cases heq.symm; rfl
    rw [this, ← h1]
    exact he
  · rw [if_neg h1] at heq
    by_cases h2 : e.2.1 = u
    · rw [if_pos h2] at heq
      refine ⟨e.2.2, Or.inr ?_⟩
      have : vw.1 = e.1 := by cases heq.symm; rfl
      rw [this, ← h2]
      exact he
    · rw [if_neg h2] at heq; cases heq

theorem adjRel_of_mem {E : List (α × α × ℚ)} {e : α × α × ℚ} (h : e ∈ E) :
    adjRel E e.1 e.2.1 := ⟨e.2.2, Or.inl h⟩

theorem bfEdges_adjRel {G : Graph α} {e : α × α × ℚ} (h : e ∈ bfEdges G) :
    adjRel G.adj e.1 e.2.1 := by
  unfold bfEdges at h
  rcases List.mem_append.mp h with h | h
  · exact adjRel_of_mem h
  · rcases List.mem_map.mp h with ⟨f, hf, heq⟩
    refine ⟨f.2.2, Or.inr ?_⟩
    rw [← heq] at *
    simpa using hf

/-! ## Keys of the Dijkstra / Bellman-Ford dicts are reachable -/

/-- Every key of an association list is reachable from `s`. -/
def PairsReach (E : List (α × α × ℚ)) (s : α) {β : Type _} (l : List (α × β)) : Prop :=
  ∀ p ∈ l, ReachTo E s p.1

theorem relaxOne_pairs {G : Graph α} {s : α} {dist : List (α × ℚ)} {d : ℚ}
    {pu : List α} {st : List (α × ℚ) × List (α × List α)} {vw : α × ℚ}
    (h1 : PairsReach G.adj s st.1) (h2 : PairsReach G.adj s st.2)
    (hv : ReachTo G.adj s vw.1) :
    PairsReach G.adj s (relaxOne dist d pu st vw).1 ∧
    PairsReach G.adj s (relaxOne dist d pu st vw).2 := by
  unfold relaxOne
  split
  · exact ⟨h1, h2⟩
  · split
    · constructor
      · intro p hp
        rcases mem_aset hp with hp | hp
        · exact h1 p hp
        · rw [hp]; exact hv
      · intro p hp
        rcases mem_aset hp with hp | hp
        · exact h2 p hp
        · rw [hp]; exact hv
    · split
      · constructor
        · intro p hp
          rcases mem_aset hp with hp | hp
          · exact h1 p hp
          · rw [hp]; exact hv
        · intro p hp
          rcases mem_aset hp with hp | hp
          · exact h2 p hp
          · rw [hp]; exact hv
      · exact ⟨h1, h2⟩

theorem dijkstraAux_pairs (G : Graph α) (s : α) :
    ∀ (fuel : ℕ) (dist : List (α × ℚ)) (paths : List (α × List α)) (tent : List (α × ℚ)),
    PairsReach G.adj s dist → PairsReach G.adj s paths → PairsReach G.adj s tent →
    PairsReach G.adj s (dijkstraAux G fuel dist paths tent).1 ∧
    PairsReach G.adj s (dijkstraAux G fuel dist paths tent).2 := by
  intro fuel
  induction fuel with
  | zero => intro dist paths tent h1 h2 _; exact ⟨h1, h2⟩
  | succ fuel ih =>
    intro dist paths tent h1 h2 h3
    unfold dijkstraAux
    cases hpick : pickMin tent with
    | none => exact ⟨h1, h2⟩
    | some ud =>
      simp only
      have hu : ReachTo G.adj s ud.1 := h3 ud (pickMin_mem hpick)
      have hdist' : PairsReach G.adj s (dist ++ [ud]) := by
        intro p hp
        rcases List.mem_append.mp hp with hp | hp
        · exact h1 p hp
        · rw [List.mem_singleton.mp hp]; exact hu
      have htent' : PairsReach G.adj s (tent.filter (fun p => decide (p.1 ≠ ud.1))) :=
        fun p hp => h3 p (List.mem_of_mem_filter hp)
      have hfold : PairsReach G.adj s
            ((G.neighborsList ud.1).foldl (relaxOne (dist ++ [ud]) ud.2
              ((alookup paths ud.1).getD [])) (tent.filter (fun p => decide (p.1 ≠ ud.1)), paths)).1 ∧
          PairsReach G.adj s
            ((G.neighborsList ud.1).foldl (relaxOne (dist ++ [ud]) ud.2
              ((alookup paths ud.1).getD [])) (tent.filter (fun p => decide (p.1 ≠ ud.1)), paths)).2 := by
        refine foldl_inv
          (fun st : List (α × ℚ) × List (α × List α) => PairsReach G.adj s st.1 ∧ PairsReach G.adj s st.2) ⟨htent', h2⟩ ?_
        intro st vw hvw hP
        exact relaxOne_pairs hP.1 hP.2 (ReachTo.tail hu (neighborsList_adjRel hvw))
      exact ih _ _ _ hdist' hfold.2 hfold.1

theorem bfRelax_pairs {G : Graph α} {s : α} {st : List (α × ℚ) × List (α × List α)}
    {e : α × α × ℚ} (he : e ∈ bfEdges G)
    (h1 : PairsReach G.adj s st.1) (h2 : PairsReach G.adj s st.2) :
    PairsReach G.adj s (bfRelax st e).1 ∧ PairsReach G.adj s (bfRelax st e).2 := by
  cases hdu : alookup st.1 e.1 with
  | none =>
    have hb : bfRelax st e = st := by unfold bfRelax; rw [hdu]
    rw [hb]
    exact ⟨h1, h2⟩
  | some du =>
    have hu : ReachTo G.adj s e.1 := h1 _ (alookup_eq_some_mem hdu)
    have hv : ReachTo G.adj s e.2.1 := ReachTo.tail hu (bfEdges_adjRel he)
    have hset : PairsReach G.adj s (aset st.1 e.2.1 (du + e.2.2)) ∧
        PairsReach G.adj s (aset st.2 e.2.1 (((alookup st.2 e.1).getD []) ++ [e.2.1])) := by
      constructor
      · intro p hp
        rcases mem_aset hp with hp | hp
        · exact h1 p hp
        · rw [hp]; exact hv
      · intro p hp
        rcases mem_aset hp with hp | hp
        · exact h2 p hp
        · rw [hp]; exact hv
    cases hdv : alookup st.1 e.2.1 with
    | none =>
      have hb : bfRelax st e = (aset st.1 e.2.1 (du + e.2.2),
          aset st.2 e.2.1 (((alookup st.2 e.1).getD []) ++ [e.2.1])) := by
        unfold bfRelax; rw [hdu, hdv]
      rw [hb]
      exact hset
    | some dv =>
      by_cases hlt : du + e.2.2 < dv
      · have hb : bfRelax st e = (aset st.1 e.2.1 (du + e.2.2),
            aset st.2 e.2.1 (((alookup st.2 e.1).getD []) ++ [e.2.1])) := by
          unfold bfRelax; rw [hdu, hdv]; simp only [if_pos hlt]
        rw [hb]
        exact hset
      · have hb : bfRelax st e = st := by
          unfold bfRelax; rw [hdu, hdv]; simp only [if_neg hlt]
        rw [hb]
        exact ⟨h1, h2⟩

theorem bellmanInner_pairs {G : Graph α} {s : α}
    {res : List (α × ℚ) × List (α × List α)} (h : bellmanInner G s = .ok res) :
    PairsReach G.adj s res.1 ∧ PairsReach G.adj s res.2 := by
  simp only [bellmanInner] at h
  split at h
  · cases h
  · have hinv : PairsReach G.adj s ((bfPass (bfEdges G))^[G.nodes.length - 1]
        ([(s, 0)], [(s, [s])])).1 ∧
      PairsReach G.adj s ((bfPass (bfEdges G))^[G.nodes.length - 1]
        ([(s, 0)], [(s, [s])])).2 := by
      refine iterate_inv
        (fun st : List (α × ℚ) × List (α × List α) => PairsReach G.adj s st.1 ∧ PairsReach G.adj s st.2) ?_ ?_ _
      · constructor
        · intro p hp
          rw [List.mem_singleton.mp hp]
          exact ReachTo.refl s
        · intro p hp
          rw [List.mem_singleton.mp hp]
          exact ReachTo.refl s
      · intro st hst
        unfold bfPass
        exact foldl_inv
          (fun st : List (α × ℚ) × List (α × List α) => PairsReach G.adj s st.1 ∧ PairsReach G.adj s st.2) hst
          (fun st' e he hP => bfRelax_pairs he hP.1 hP.2)
    cases h
    exact hinv

/-! ## Correctness of the executable reachability closure -/

theorem growStep_append (acc : List α) (e : α × α × ℚ) :
    ∃ d, growStep acc e = acc ++ d := by
  unfold growStep
  by_cases h1 : e.1 ∈ acc ∧ e.2.1 ∉ acc
  · rw [if_pos h1]
    by_cases h2 : e.2.1 ∈ acc ++ [e.2.1] ∧ e.1 ∉ acc ++ [e.2.1]
    · rw [if_pos h2]
      exact ⟨[e.2.1] ++ [e.1], by simp⟩
    · rw [if_neg h2]
      exact ⟨[e.2.1], rfl⟩
  · rw [if_neg h1]
    by_cases h2 : e.2.1 ∈ acc ∧ e.1 ∉ acc
    · rw [if_pos h2]
      exact ⟨[e.1], rfl⟩
    · rw [if_neg h2]
      exact ⟨[], by simp⟩

theorem growReach_append (E : List (α × α × ℚ)) :
    ∀ acc, ∃ d, growReach E acc = acc ++ d := by
  induction E with
  | nil => exact fun acc => ⟨[], by simp [growReach]⟩
  | cons e rest ih =>
    intro acc
    rcases growStep_append acc e with ⟨d1, hd1⟩
    rcases ih (growStep acc e) with ⟨d2, hd2⟩
    refine ⟨d1 ++ d2, ?_⟩
    show (e :: rest).foldl growStep acc = acc ++ (d1 ++ d2)
    rw [List.foldl_cons]
    show growReach rest (growStep acc e) = acc ++ (d1 ++ d2)
    rw [hd2, hd1, List.append_assoc]

theorem growReach_fix_step {E : List (α × α × ℚ)} {l : List α}
    (h : growReach E l = l) : ∀ e ∈ E, growStep l e = l := by
  induction E with
  | nil => intro e he; cases he
  | cons e rest ih =>
    have hcons : growReach (e :: rest) l = growReach rest (growStep l e) := by
      show (e :: rest).foldl growStep l = _
      rw [List.foldl_cons]
      rfl
    rcases growStep_append l e with ⟨d1, hd1⟩
    rcases growReach_append rest (growStep l e) with ⟨d2, hd2⟩
    have hlen : growStep l e = l := by
      have : l = l ++ (d1 ++ d2) := by
        conv_lhs => rw [← h]
        rw [hcons, hd2, hd1, List.append_assoc]
      have hnil : d1 ++ d2 = [] := by
        have := congrArg List.length this
        simp at this
        rcases this with ⟨h1, h2⟩
        rw [h1, h2]
        rfl
      have hd1nil : d1 = [] := (List.append_eq_nil.mp hnil).1
      rw [hd1, hd1nil]
      simp
    intro f hf
    rcases List.mem_cons.mp hf with hf | hf
    · rw [hf]; exact hlen
    · have hrest : growReach rest l = l := by
        have h2 := hcons.symm.trans h
        rw [hlen] at h2
        exact h2
      exact ih hrest f hf

theorem growStep_fix_closed {l : List α} {e : α × α × ℚ}
    (h : growStep l e = l) :
    (e.1 ∈ l → e.2.1 ∈ l) ∧ (e.2.1 ∈ l → e.1 ∈ l) := by
  constructor
  · intro h1
    by_contra h2
    have hc : e.1 ∈ l ∧ e.2.1 ∉ l := ⟨h1, h2⟩
    have : growStep l e ≠ l := by
      unfold growStep
      rw [if_pos hc]
      intro heq
      by_cases h3 : e.2.1 ∈ l ++ [e.2.1] ∧ e.1 ∉ l ++ [e.2.1]
      · rw [if_pos h3] at heq
        have := congrArg List.length heq
        simp at this
      · rw [if_neg h3] at heq
        have := congrArg List.length heq
        simp at this
    exact this h
  · intro h1
    by_contra h2
    have : growStep l e ≠ l := by
      unfold growStep
      by_cases hc : e.1 ∈ l ∧ e.2.1 ∉ l
      · exact absurd hc.1 h2
      · rw [if_neg hc]
        have hc2 : e.2.1 ∈ l ∧ e.1 ∉ l := ⟨h1, h2⟩
        rw [if_pos hc2]
        intro heq
        have := congrArg List.length heq
        simp at this
    exact this h

theorem reachList_sound {E : List (α × α × ℚ)} {s : α} :
    ∀ t ∈ reachList E s, ReachTo E s t := by
  unfold reachList
  refine iterate_inv (fun l : List α => ∀ t ∈ l, ReachTo E s t) ?_ ?_ _
  · intro t ht
    rw [List.mem_singleton.mp ht]
    exact ReachTo.refl s
  · intro l hl
    unfold growReach
    refine foldl_inv (fun l : List α => ∀ t ∈ l, ReachTo E s t) hl ?_
    intro acc e he hacc
    unfold growStep
    by_cases h1 : e.1 ∈ acc ∧ e.2.1 ∉ acc
    · rw [if_pos h1]
      have hacc2 : ∀ t ∈ acc ++ [e.2.1], ReachTo E s t := by
        intro t ht
        rcases List.mem_append.mp ht with ht | ht
        · exact hacc t ht
        · rw [List.mem_singleton.mp ht]
          exact ReachTo.tail (hacc _ h1.1) (adjRel_of_mem he)
      by_cases h2 : e.2.1 ∈ acc ++ [e.2.1] ∧ e.1 ∉ acc ++ [e.2.1]
      · rw [if_pos h2]
        intro t ht
        rcases List.mem_append.mp ht with ht | ht
        · exact hacc2 t ht
        · rw [List.mem_singleton.mp ht]
          exact ReachTo.tail (hacc2 _ h2.1) (adjRel_symm (adjRel_of_mem he))
      · rw [if_neg h2]
        exact hacc2
    · rw [if_neg h1]
      by_cases h2 : e.2.1 ∈ acc ∧ e.1 ∉ acc
      · rw [if_pos h2]
        intro t ht
        rcases List.mem_append.mp ht with ht | ht
        · exact hacc t ht
        · rw [List.mem_singleton.mp ht]
          exact ReachTo.tail (hacc _ h2.1) (adjRel_symm (adjRel_of_mem he))
      · rw [if_neg h2]
        exact hacc

/-- Endpoint pool of an edge list. -/
def epList (E : List (α × α × ℚ)) : List α :=
  E.map (·.1) ++ E.map (·.2.1)

theorem growStep_nodup_sub {E : List (α × α × ℚ)} {s : α} {acc : List α}
    {e : α × α × ℚ} (he : e ∈ E)
    (h : acc.Nodup ∧ ∀ x ∈ acc, x ∈ s :: epList E) :
    (growStep acc e).Nodup ∧ ∀ x ∈ growStep acc e, x ∈ s :: epList E := by
  have he1 : e.1 ∈ s :: epList E := by
    refine List.mem_cons_of_mem s (List.mem_append.mpr (Or.inl ?_))
    exact List.mem_map.mpr ⟨e, he, rfl⟩
  have he2 : e.2.1 ∈ s :: epList E := by
    refine List.mem_cons_of_mem s (List.mem_append.mpr (Or.inr ?_))
    exact List.mem_map.mpr ⟨e, he, rfl⟩
  unfold growStep
  by_cases h1 : e.1 ∈ acc ∧ e.2.1 ∉ acc
  · rw [if_pos h1]
    have hstep1 : (acc ++ [e.2.1]).Nodup ∧ ∀ x ∈ acc ++ [e.2.1], x ∈ s :: epList E := by
      constructor
      · rw [List.nodup_append]
        exact ⟨h.1, List.nodup_singleton _, by simpa using fun hx => h1.2 hx⟩
      · intro x hx
        rcases List.mem_append.mp hx with hx | hx
        · exact h.2 x hx
        · rw [List.mem_singleton.mp hx]; exact he2
    by_cases h2 : e.2.1 ∈ acc ++ [e.2.1] ∧ e.1 ∉ acc ++ [e.2.1]
    · rw [if_pos h2]
      constructor
      · rw [List.nodup_append]
        exact ⟨hstep1.1, List.nodup_singleton _, by simpa using fun hx => h2.2 hx⟩
      · intro x hx
        rcases List.mem_append.mp hx with hx | hx
        · exact hstep1.2 x hx
        · rw [List.mem_singleton.mp hx]; exact he1
    · rw [if_neg h2]
      exact hstep1
  · rw [if_neg h1]
    by_cases h2 : e.2.1 ∈ acc ∧ e.1 ∉ acc
    · rw [if_pos h2]
      constructor
      · rw [List.nodup_append]
        exact ⟨h.1, List.nodup_singleton _, by simpa using fun hx => h2.2 hx⟩
      · intro x hx
        rcases List.mem_append.mp hx with hx | hx
        · exact h.2 x hx
        · rw [List.mem_singleton.mp hx]; exact he1
    · rw [if_neg h2]
      exact h

theorem reachIter_nodup_sub (E : List (α × α × ℚ)) (s : α) (n : ℕ) :
    ((growReach E)^[n] [s]).Nodup ∧ ∀ x ∈ (growReach E)^[n] [s], x ∈ s :: epList E := by
  refine iterate_inv
    (fun l : List α => l.Nodup ∧ ∀ x ∈ l, x ∈ s :: epList E) ?_ ?_ n
  · constructor
    · exact List.nodup_singleton s
    · intro x hx
      rw [List.mem_singleton.mp hx]
      exact List.mem_cons_self s _
  · intro l hl
    unfold growReach
    exact foldl_inv (fun l : List α => l.Nodup ∧ ∀ x ∈ l, x ∈ s :: epList E) hl
      (fun acc e he h => growStep_nodup_sub he h)

theorem nodup_sub_length {l m : List α} (hn : l.Nodup) (hs : ∀ x ∈ l, x ∈ m) :
    l.length ≤ m.length := by
  calc l.length = l.toFinset.card := (List.toFinset_card_of_nodup hn).symm
  _ ≤ m.toFinset.card := Finset.card_le_card (fun x hx =>
      List.mem_toFinset.mpr (hs x (List.mem_toFinset.mp hx)))
  _ ≤ m.length := m.toFinset_card_le

theorem reachList_fix (E : List (α × α × ℚ)) (s : α) :
    growReach E (reachList E s) = reachList E s := by
  by_contra hne
  have grow : ∀ k, (∀ j < k, growReach E ((growReach E)^[j] [s]) ≠ (growReach E)^[j] [s]) →
      k + 1 ≤ ((growReach E)^[k] [s]).length := by
    intro k
    induction k with
    | zero => intro _; simp
    | succ k ih =>
      intro hall
      have hk := ih (fun j hj => hall j (Nat.lt_succ_of_lt hj))
      have hne' := hall k (Nat.lt_succ_self k)
      rcases growReach_append E ((growReach E)^[k] [s]) with ⟨d, hd⟩
      have hdne : d ≠ [] := by
        intro h0
        rw [h0, List.append_nil] at hd
        exact hne' hd
      rw [Function.iterate_succ_apply', hd, List.length_append]
      have : 1 ≤ d.length := by
        cases d with
        | nil => exact absurd rfl hdne
        | cons a l => simp
      omega
  have hstab : ∀ j k, j ≤ k → growReach E ((growReach E)^[j] [s]) = (growReach E)^[j] [s] →
      (growReach E)^[k] [s] = (growReach E)^[j] [s] := by
    intro j k hjk hfix
    induction k with
    | zero =>
      have : j = 0 := Nat.le_zero.mp hjk
      rw [this]
    | succ k ih =>
      by_cases hj : j = k + 1
      · rw [hj]
      · have hjk' : j ≤ k := by omega
        have := ih hjk'
        rw [Function.iterate_succ_apply', this, hfix]
  have hall : ∀ j < 2 * E.length + 1,
      growReach E ((growReach E)^[j] [s]) ≠ (growReach E)^[j] [s] := by
    intro j hj hfix
    have := hstab j (2 * E.length + 1) (Nat.le_of_lt hj) hfix
    unfold reachList at hne
    rw [this, hfix] at hne
    exact hne rfl
  have hlong := grow (2 * E.length + 1) (fun j hj => hall j hj)
  have hbound := reachIter_nodup_sub E s (2 * E.length + 1)
  have hlen := nodup_sub_length hbound.1 hbound.2
  have : (s :: epList E).length = 2 * E.length + 1 := by
    simp [epList]
    omega
  omega

theorem reachList_complete {E : List (α × α × ℚ)} {s t : α}
    (h : ReachTo E s t) : t ∈ reachList E s := by
  have hs : s ∈ reachList E s := by
    unfold reachList
    rcases growReach_append E [s] with ⟨d, hd⟩
    have : ∀ n, ∃ d, (growReach E)^[n] [s] = [s] ++ d := by
      intro n
      induction n with
      | zero => exact ⟨[], rfl⟩
      | succ n ih =>
        rcases ih with ⟨d1, hd1⟩
        rcases growReach_append E ((growReach E)^[n] [s]) with ⟨d2, hd2⟩
        rw [Function.iterate_succ_apply', hd2, hd1]
        exact ⟨d1 ++ d2, by simp⟩

    rcases this (2 * E.length + 1) with ⟨d', hd'⟩
    rw [hd']
    simp
  have hclosed := growReach_fix_step (reachList_fix E s)
  induction h with
  | refl => exact hs
  | tail hr hadj ih =>
    rcases hadj with ⟨w, hw | hw⟩
    · exact (growStep_fix_closed (hclosed _ hw)).1 ih
    · exact (growStep_fix_closed (hclosed _ hw)).2 ih

/-- The executable connectivity test decides reachability. -/
theorem reach_iff_reachB (E : List (α × α × ℚ)) (s t : α) :
    ReachTo E s t ↔ reachB E s t = true := by
  constructor
  · intro h
    unfold reachB
    simpa using reachList_complete h
  · intro h
    unfold reachB at h
    exact reachList_sound t (by simpa using h)

/-! ## Concrete instances used by witnesses and counterexamples -/

/-- Two nodes joined by one negative undirected edge: traversing the edge
back and forth is a cycle of weight -2. -/
def negCycleGraph : Graph ℕ := ⟨[0, 1], [(0, 1, -1)]⟩

/-- A single-node graph. -/
def oneNodeGraph : Graph String := ⟨["A"], []⟩

/-- A graph in which C is isolated from the A-B component. -/
def discGraph : Graph String := ⟨["A", "B", "C"], [("A", "B", 1)]⟩

/-- The concrete spec scenario: nodes A,B,C,D with A-B=1, B-C=2, A-C=4, C-D=1. -/
def demoGraph : Graph String :=
  ⟨["A", "B", "C", "D"], [("A", "B", 1), ("B", "C", 2), ("A", "C", 4), ("C", "D", 1)]⟩

/-- A disconnected graph with components of sizes 3 (P-Q-R) and 2 (S-T). -/
def discon32 : Graph String :=
  ⟨["P", "Q", "R", "S", "T"], [("P", "Q", 1), ("Q", "R", 1), ("S", "T", 1)]⟩

/-- A symmetric distance matrix whose off-diagonal cells are negative. -/
def negDF : DF String := ⟨["A", "B"], ["A", "B"], fun a b => if a = b then 0 else -5⟩

/-- A symmetric distance matrix whose off-diagonal cells are 7. -/
def posDF : DF String := ⟨["A", "B"], ["A", "B"], fun a b => if a = b then 0 else 7⟩

/-! ## Vertex bookkeeping helpers -/

theorem ReachTo.trans {E : List (α × α × ℚ)} {u v w : α}
    (h1 : ReachTo E u v) (h2 : ReachTo E v w) : ReachTo E u w :=
  Relation.ReflTransGen.trans h1 h2

theorem ReachTo.single {E : List (α × α × ℚ)} {u v : α} (h : adjRel E u v) :
    ReachTo E u v :=
  Relation.ReflTransGen.single h

theorem nodes_sub_verts {G : Graph α} {x : α} (h : x ∈ G.nodes) : x ∈ G.verts := by
  unfold Graph.verts
  rw [List.mem_dedup]
  exact List.mem_append.mpr (Or.inl (List.mem_append.mpr (Or.inl h)))

theorem adjRel_verts {G : Graph α} {u v : α} (h : adjRel G.adj u v) :
    u ∈ G.verts ∧ v ∈ G.verts := by
  unfold Graph.verts
  rcases h with ⟨w, h | h⟩
  · constructor
    · rw [List.mem_dedup]
      refine List.mem_append.mpr (Or.inl (List.mem_append.mpr (Or.inr ?_)))
      exact List.mem_map.mpr ⟨(u, v, w), h, rfl⟩
    · rw [List.mem_dedup]
      refine List.mem_append.mpr (Or.inr ?_)
      exact List.mem_map.mpr ⟨(u, v, w), h, rfl⟩
  · constructor
    · rw [List.mem_dedup]
      refine List.mem_append.mpr (Or.inr ?_)
      exact List.mem_map.mpr ⟨(v, u, w), h, rfl⟩
    · rw [List.mem_dedup]
      refine List.mem_append.mpr (Or.inl (List.mem_append.mpr (Or.inr ?_)))
      exact List.mem_map.mpr ⟨(v, u, w), h, rfl⟩

theorem adjRel_nodes {G : Graph α} (hWF : G.WF) {u v : α} (h : adjRel G.adj u v) :
    u ∈ G.nodes ∧ v ∈ G.nodes := by
  rcases h with ⟨w, h | h⟩
  · exact ⟨(hWF.2.1 _ h).1, (hWF.2.1 _ h).2.1⟩
  · exact ⟨(hWF.2.1 _ h).2.1, (hWF.2.1 _ h).1⟩

theorem adjRel_mem_neighborsList {G : Graph α} {u y : α} (h : adjRel G.adj u y) :
    ∃ w, (y, w) ∈ G.neighborsList u := by
  rcases h with ⟨w, h | h⟩
  · refine ⟨w, ?_⟩
    unfold Graph.neighborsList
    refine List.mem_filterMap.mpr ⟨(u, y, w), h, ?_⟩
    simp
  · refine ⟨w, ?_⟩
    unfold Graph.neighborsList
    refine List.mem_filterMap.mpr ⟨(y, u, w), h, ?_⟩
    by_cases hyu : y = u
    · simp [hyu]
    · simp [hyu]

theorem card_diff_append_one {A : Finset α} {visited : List α} {u : α}
    (hu : u ∈ A) (hnv : u ∉ visited) :
    (A \ (visited ++ [u]).toFinset).card + 1 = (A \ visited.toFinset).card := by
  have h1 : (visited ++ [u]).toFinset = insert u visited.toFinset := by
    rw [List.toFinset_append]
    ext x
    simp [or_comm]
  rw [h1]
  have h2 : A \ insert u visited.toFinset = (A \ visited.toFinset).erase u := by
    ext x
    simp only [Finset.mem_sdiff, Finset.mem_insert, Finset.mem_erase]
    constructor
    · rintro ⟨hx, hni⟩
      exact ⟨fun he => hni (Or.inl he), hx, fun hv => hni (Or.inr hv)⟩
    · rintro ⟨hne, hx, hnv'⟩
      exact ⟨hx, fun h => h.elim hne hnv'⟩
  rw [h2]
  have hmem : u ∈ A \ visited.toFinset := by
    rw [Finset.mem_sdiff]
    exact ⟨hu, fun h => hnv (List.mem_toFinset.mp h)⟩
  rw [Finset.card_erase_of_mem hmem]
  have : 1 ≤ (A \ visited.toFinset).card := Finset.card_pos.mpr ⟨u, hmem⟩
  omega

theorem card_diff_mono {A : Finset α} {l m : List α} (h : ∀ x ∈ l, x ∈ m) :
    (A \ m.toFinset).card ≤ (A \ l.toFinset).card := by
  refine Finset.card_le_card (Finset.sdiff_subset_sdiff (le_refl A) ?_)
  intro x hx
  exact List.mem_toFinset.mpr (h x (List.mem_toFinset.mp hx))

theorem card_diff_append (A : Finset α) :
    ∀ (newly seen : List α), newly.Nodup → (∀ x ∈ newly, x ∉ seen) →
    (∀ x ∈ newly, x ∈ A) →
    (A \ (seen ++ newly).toFinset).card + newly.length = (A \ seen.toFinset).card := by
  intro newly
  induction newly with
  | nil => intro seen _ _ _; simp
  | cons a rest ih =>
    intro seen hnd hfresh hmem
    have h1 : seen ++ a :: rest = (seen ++ [a]) ++ rest := by simp
    rw [h1]
    have hstep := ih (seen ++ [a]) (List.nodup_cons.mp hnd).2
      (fun x hx hm => by
        rcases List.mem_append.mp hm with h' | h'
        · exact hfresh x (List.mem_cons_of_mem a hx) h'
        · rw [List.mem_singleton.mp h'] at hx
          exact (List.nodup_cons.mp hnd).1 hx)
      (fun x hx => hmem x (List.mem_cons_of_mem a hx))
    have hone := card_diff_append_one (hmem a (List.mem_cons_self a rest))
      (hfresh a (List.mem_cons_self a rest))
    simp only [List.length_cons]
    omega

/-! ## BFS: the enqueue fold and the main loop invariant -/

theorem bfsEnq_spec (ns : List (α × ℚ)) : ∀ (q seen : List α),
    ∃ newly,
      ns.foldl (fun (acc : List α × List α) vw =>
        if vw.1 ∈ acc.2 then acc else (acc.1 ++ [vw.1], acc.2 ++ [vw.1])) (q, seen)
        = (q ++ newly, seen ++ newly) ∧
      newly.Nodup ∧ (∀ x ∈ newly, x ∉ seen) ∧
      (∀ x ∈ newly, ∃ w, (x, w) ∈ ns) ∧
      (∀ vw ∈ ns, vw.1 ∈ seen ++ newly) := by
  induction ns with
  | nil =>
    intro q seen
    exact ⟨[], by simp, List.nodup_nil, fun x hx => absurd hx (List.not_mem_nil x),
      fun x hx => absurd hx (List.not_mem_nil x), fun vw hvw => absurd hvw (List.not_mem_nil vw)⟩
  | cons vw rest ih =>
    intro q seen
    rw [List.foldl_cons]
    by_cases hv : vw.1 ∈ seen
    · rw [if_pos hv]
      rcases ih q seen with ⟨newly, heq, hnd, hns, hmem, hall⟩
      refine ⟨newly, heq, hnd, hns, ?_, ?_⟩
      · intro x hx
        rcases hmem x hx with ⟨w, hw⟩
        exact ⟨w, List.mem_cons_of_mem vw hw⟩
      · intro vw' hvw'
        rcases List.mem_cons.mp hvw' with hvw' | hvw'
        · rw [hvw']
          exact List.mem_append.mpr (Or.inl hv)
        · exact hall vw' hvw'
    · rw [if_neg hv]
      rcases ih (q ++ [vw.1]) (seen ++ [vw.1]) with ⟨newly, heq, hnd, hns, hmem, hall⟩
      refine ⟨vw.1 :: newly, ?_, ?_, ?_, ?_, ?_⟩
      · rw [heq]
        simp
      · rw [List.nodup_cons]
        refine ⟨fun hx => ?_, hnd⟩
        exact hns _ hx (List.mem_append.mpr (Or.inr (List.mem_singleton.mpr rfl)))
      · intro x hx
        rcases List.mem_cons.mp hx with hx | hx
        · rw [hx]; exact hv
        · intro hxs
          exact hns x hx (List.mem_append.mpr (Or.inl hxs))
      · intro x hx
        rcases List.mem_cons.mp hx with hx | hx
        · exact ⟨vw.2, by rw [hx]; exact List.mem_cons_self _ _⟩
        · rcases hmem x hx with ⟨w, hw⟩
          exact ⟨w, List.mem_cons_of_mem vw hw⟩
      · intro vw' hvw'
        rcases List.mem_cons.mp hvw' with hvw' | hvw'
        · rw [hvw']
          exact List.mem_append.mpr (Or.inr (List.mem_cons_self _ _))
        · have := hall vw' hvw'
          rcases List.mem_append.mp this with h' | h'
          · rcases List.mem_append.mp h' with h' | h'
            · exact List.mem_append.mpr (Or.inl h')
            · rw [List.mem_singleton.mp h']
              exact List.mem_append.mpr (Or.inr (List.mem_cons_self _ _))
          · exact List.mem_append.mpr (Or.inr (List.mem_cons_of_mem _ h'))

theorem bfsAux_spec (G : Graph α) (start : α) (hWF : G.WF) :
    ∀ (fuel : ℕ) (q seen visited : List α),
    (G.verts.toFinset \ seen.toFinset).card + q.length + 1 ≤ fuel →
    (∀ x ∈ q, x ∈ G.nodes) →
    (∀ x, x ∈ seen ↔ x ∈ visited ∨ x ∈ q) →
    (visited ++ q).Nodup →
    (∀ x ∈ seen, ReachTo G.adj start x) →
    (∀ x ∈ visited, ∀ y, adjRel G.adj x y → y ∈ seen) →
    ∃ res, bfsAux G fuel q seen visited = .ok res ∧
      res.Nodup ∧
      (∃ ext, res = visited ++ ext ∧ ext.head? = q.head?) ∧
      (∀ x ∈ res, ReachTo G.adj start x) ∧
      (∀ x, x ∈ visited ∨ x ∈ q → x ∈ res) ∧
      (∀ x ∈ res, ∀ y, adjRel G.adj x y → y ∈ res) := by
  intro fuel
  induction fuel with
  | zero =>
    intro q seen visited hfuel
    omega
  | succ fuel ih =>
    intro q seen visited hfuel hqn hseen hnd hreach hclosed
    cases q with
    | nil =>
      refine ⟨visited, rfl, by simpa using hnd, ⟨[], by simp⟩, ?_, ?_, ?_⟩
      · intro x hx
        exact hreach x ((hseen x).mpr (Or.inl hx))
      · intro x hx
        rcases hx with hx | hx
        · exact hx
        · cases hx
      · intro x hx y hy
        have := hclosed x hx y hy
        rcases (hseen y).mp this with h' | h'
        · exact h'
        · cases h'
    | cons u q' =>
      have hun : u ∈ G.nodes := hqn u (List.mem_cons_self u q')
      have hnb : G.neighbors u = .ok (G.neighborsList u) := by
        unfold Graph.neighbors
        rw [if_pos hun]
      rw [bfsAux, hnb]
      simp only
      rcases bfsEnq_spec (G.neighborsList u) q' seen with
        ⟨newly, heq, hnewnd, hnewfresh, hnewmem, hnewall⟩
      rw [heq]
      have huseen : u ∈ seen := (hseen u).mpr (Or.inr (List.mem_cons_self u q'))
      have hureach : ReachTo G.adj start u := hreach u huseen
      have hnewreach : ∀ x ∈ newly, ReachTo G.adj start x := by
        intro x hx
        rcases hnewmem x hx with ⟨w, hw⟩
        exact ReachTo.tail hureach (neighborsList_adjRel hw)
      have hnewadj : ∀ x ∈ newly, adjRel G.adj u x := by
        intro x hx
        rcases hnewmem x hx with ⟨w, hw⟩
        exact neighborsList_adjRel hw
      have hnewnodes : ∀ x ∈ newly, x ∈ G.nodes := by
        intro x hx
        exact (adjRel_nodes hWF (hnewadj x hx)).2
      -- fuel for the recursive call
      have hcard := card_diff_append G.verts.toFinset newly seen hnewnd hnewfresh
        (fun x hx => List.mem_toFinset.mpr (nodes_sub_verts (hnewnodes x hx)))
      have hfuel' : (G.verts.toFinset \ (seen ++ newly).toFinset).card
          + (q' ++ newly).length + 1 ≤ fuel := by
        rw [List.length_append]
        simp only [List.length_cons] at hfuel
        omega
      have hqn' : ∀ x ∈ q' ++ newly, x ∈ G.nodes := by
        intro x hx
        rcases List.mem_append.mp hx with hx | hx
        · exact hqn x (List.mem_cons_of_mem u hx)
        · exact hnewnodes x hx
      have hsub_seen : ∀ x, x ∈ visited ∨ x = u ∨ x ∈ q' → x ∈ seen := by
        intro x hx
        rcases hx with hx | hx | hx
        · exact (hseen x).mpr (Or.inl hx)
        · rw [hx]; exact huseen
        · exact (hseen x).mpr (Or.inr (List.mem_cons_of_mem u hx))
      have hseen' : ∀ x, x ∈ seen ++ newly ↔ x ∈ visited ++ [u] ∨ x ∈ q' ++ newly := by
        intro x
        constructor
        · intro hx
          rcases List.mem_append.mp hx with hx | hx
          · rcases (hseen x).mp hx with hx | hx
            · exact Or.inl (List.mem_append.mpr (Or.inl hx))
            · rcases List.mem_cons.mp hx with hx | hx
              · exact Or.inl (List.mem_append.mpr (Or.inr (by simp [hx])))
              · exact Or.inr (List.mem_append.mpr (Or.inl hx))
          · exact Or.inr (List.mem_append.mpr (Or.inr hx))
        · intro hx
          rcases hx with hx | hx
          · rcases List.mem_append.mp hx with hx | hx
            · exact List.mem_append.mpr (Or.inl (hsub_seen x (Or.inl hx)))
            · exact List.mem_append.mpr
                (Or.inl (hsub_seen x (Or.inr (Or.inl (List.mem_singleton.mp hx)))))
          · rcases List.mem_append.mp hx with hx | hx
            · exact List.mem_append.mpr (Or.inl (hsub_seen x (Or.inr (Or.inr hx))))
            · exact List.mem_append.mpr (Or.inr hx)
      have hnd' : ((visited ++ [u]) ++ (q' ++ newly)).Nodup := by
        have hX : ((visited ++ [u]) ++ q').Nodup := by
          have : visited ++ u :: q' = (visited ++ [u]) ++ q' := by simp
          rw [← this]
          exact hnd
        have hXmem : ∀ x ∈ (visited ++ [u]) ++ q', x ∈ seen := by
          intro x hx
          rcases List.mem_append.mp hx with hx | hx
          · rcases List.mem_append.mp hx with hx | hx
            · exact hsub_seen x (Or.inl hx)
            · exact hsub_seen x (Or.inr (Or.inl (List.mem_singleton.mp hx)))
          · exact hsub_seen x (Or.inr (Or.inr hx))
        have : ((visited ++ [u]) ++ q' ++ newly).Nodup := by
          rw [List.nodup_append]
          refine ⟨hX, hnewnd, ?_⟩
          intro x hx hxn
          exact hnewfresh x hxn (hXmem x hx)
        simpa [List.append_assoc] using this
      have hreach' : ∀ x ∈ seen ++ newly, ReachTo G.adj start x := by
        intro x hx
        rcases List.mem_append.mp hx with hx | hx
        · exact hreach x hx
        · exact hnewreach x hx
      have hclosed' : ∀ x ∈ visited ++ [u], ∀ y, adjRel G.adj x y → y ∈ seen ++ newly := by
        intro x hx y hy
        rcases List.mem_append.mp hx with hx | hx
        · exact List.mem_append.mpr (Or.inl ((hseen y).mpr
            ((hseen y).mp (hclosed x hx y hy) |>.imp id id)))
        · rw [List.mem_singleton.mp hx] at hy
          rcases adjRel_mem_neighborsList hy with ⟨w, hw⟩
          exact hnewall (y, w) hw
      rcases ih (q' ++ newly) (seen ++ newly) (visited ++ [u])
        hfuel' hqn' hseen' hnd' hreach' hclosed' with
        ⟨res, hres, hndres, ⟨ext, hext, hhead⟩, hreachres, hmemres, hclosedres⟩
      refine ⟨res, hres, hndres, ⟨u :: ext, ?_, by simp⟩, hreachres, ?_, hclosedres⟩
      · rw [hext]
        simp
      · intro x hx
        rcases hx with hx | hx
        · exact hmemres x (Or.inl (List.mem_append.mpr (Or.inl hx)))
        · rcases List.mem_cons.mp hx with hx | hx
          · exact hmemres x (Or.inl (List.mem_append.mpr (Or.inr (by simp [hx]))))
          · exact hmemres x (Or.inr (List.mem_append.mpr (Or.inl hx)))

/-! ## Walks: edges, weights, and costs -/

theorem isEdgeB_adjRel {E : List (α × α × ℚ)} {u v : α} (h : isEdgeB E u v = true) :
    adjRel E u v := by
  unfold isEdgeB at h
  rcases List.any_eq_true.mp h with ⟨e, he, hp⟩
  rw [decide_eq_true_eq] at hp
  rcases hp with ⟨h1, h2⟩ | ⟨h1, h2⟩
  · exact ⟨e.2.2, Or.inl (by rw [← h1, ← h2]; exact he)⟩
  · exact ⟨e.2.2, Or.inr (by rw [← h1, ← h2]; exact he)⟩

theorem adjRel_isEdgeB {E : List (α × α × ℚ)} {u v : α} (h : adjRel E u v) :
    isEdgeB E u v = true := by
  unfold isEdgeB
  rcases h with ⟨w, h | h⟩
  · exact List.any_eq_true.mpr ⟨(u, v, w), h, by simp⟩
  · exact List.any_eq_true.mpr ⟨(v, u, w), h, by simp⟩

theorem weightOf_isSome {E : List (α × α × ℚ)} {u v : α} (h : isEdgeB E u v = true) :
    (weightOf E u v).isSome := by
  unfold isEdgeB at h
  rcases List.any_eq_true.mp h with ⟨e, he, hp⟩
  unfold weightOf
  cases hfind : List.find?
      (fun e => decide (e.1 = u ∧ e.2.1 = v ∨ e.1 = v ∧ e.2.1 = u)) E with
  | none =>
    exfalso
    exact (List.find?_eq_none.mp hfind) e he hp
  | some f => rfl

theorem weightOf_mem {E : List (α × α × ℚ)} {u v : α} {w : ℚ}
    (h : weightOf E u v = some w) : ∃ e ∈ E, e.2.2 = w := by
  unfold weightOf at h
  rcases Option.map_eq_some'.mp h with ⟨e, hfind, hw⟩
  exact ⟨e, List.mem_of_find?_eq_some hfind, hw⟩

theorem find?_eq_some_of_unique {β : Type _} {p : β → Bool} {l : List β} {e : β}
    (hmem : e ∈ l) (hpe : p e = true)
    (huniq : ∀ f ∈ l, p f = true → f = e) : l.find? p = some e := by
  induction l with
  | nil => cases hmem
  | cons a rest ih =>
    by_cases hpa : p a = true
    · rw [List.find?_cons_of_pos _ hpa, huniq a (List.mem_cons_self a rest) hpa]
    · rw [List.find?_cons_of_neg _ (by simpa using hpa)]
      rcases List.mem_cons.mp hmem with h | h
      · rw [← h] at hpa
        exact absurd hpe hpa
      · exact ih h (fun f hf => huniq f (List.mem_cons_of_mem a hf))

/-- The pair predicate used by weightOf is symmetric in the two records. -/
theorem WF_pair_unique {G : Graph α} (hWF : G.WF) {e f : α × α × ℚ} {u v : α}
    (he : e ∈ G.adj) (hf : f ∈ G.adj)
    (hpe : (e.1 = u ∧ e.2.1 = v) ∨ (e.1 = v ∧ e.2.1 = u))
    (hpf : (f.1 = u ∧ f.2.1 = v) ∨ (f.1 = v ∧ f.2.1 = u)) : f = e := by
  by_contra hne
  have hsymm : Symmetric (fun e f : α × α × ℚ =>
      ¬ ((e.1 = f.1 ∧ e.2.1 = f.2.1) ∨ (e.1 = f.2.1 ∧ e.2.1 = f.1))) := by
    intro a b hab hcon
    refine hab ?_
    rcases hcon with ⟨h1, h2⟩ | ⟨h1, h2⟩
    · exact Or.inl ⟨h1.symm, h2.symm⟩
    · exact Or.inr ⟨h2.symm, h1.symm⟩
  have hp := hWF.2.2.forall hsymm hf he hne
  rcases hpe with ⟨h1, h2⟩ | ⟨h1, h2⟩ <;> rcases hpf with ⟨h3, h4⟩ | ⟨h3, h4⟩
  · exact hp (Or.inl ⟨h3.trans h1.symm, h4.trans h2.symm⟩)
  · exact hp (Or.inr ⟨h3.trans h2.symm, h4.trans h1.symm⟩)
  · exact hp (Or.inr ⟨h3.trans h2.symm, h4.trans h1.symm⟩)
  · exact hp (Or.inl ⟨h3.trans h1.symm, h4.trans h2.symm⟩)

theorem weightOf_neighbor {G : Graph α} (hWF : G.WF) {u v : α} {w : ℚ}
    (h : (v, w) ∈ G.neighborsList u) : weightOf G.adj u v = some w := by
  unfold Graph.neighborsList at h
  rcases List.mem_filterMap.mp h with ⟨e, he, heq⟩
  by_cases h1 : e.1 = u
  · rw [if_pos h1] at heq
    have hv : e.2.1 = v := by cases heq; rfl
    have hw : e.2.2 = w := by cases heq; rfl
    unfold weightOf
    rw [find?_eq_some_of_unique he (by simp [h1, hv])
      (fun f hf hpf => WF_pair_unique hWF he hf (Or.inl ⟨h1, hv⟩)
        (by simpa using hpf))]
    simpa using hw
  · rw [if_neg h1] at heq
    by_cases h2 : e.2.1 = u
    · rw [if_pos h2] at heq
      have hv : e.1 = v := by cases heq; rfl
      have hw : e.2.2 = w := by cases heq; rfl
      unfold weightOf
      rw [find?_eq_some_of_unique he (by simp [h2, hv])
        (fun f hf hpf => WF_pair_unique hWF he hf (Or.inr ⟨hv, h2⟩)
          (by simpa using hpf))]
      simpa using hw
    · rw [if_neg h2] at heq
      cases heq

theorem weightOf_bfEdge {G : Graph α} (hWF : G.WF) {e : α × α × ℚ}
    (he : e ∈ bfEdges G) : weightOf G.adj e.1 e.2.1 = some e.2.2 := by
  unfold bfEdges at he
  rcases List.mem_append.mp he with he | he
  · unfold weightOf
    rw [find?_eq_some_of_unique he (by simp)
      (fun f hf hpf => WF_pair_unique hWF he hf (Or.inl ⟨rfl, rfl⟩)
        (by simpa using hpf))]
    rfl
  · rcases List.mem_map.mp he with ⟨f, hf, heq⟩
    rw [← heq]
    unfold weightOf
    rw [find?_eq_some_of_unique hf (by simp)
      (fun g hg hpg => WF_pair_unique hWF hf hg (Or.inr ⟨rfl, rfl⟩)
        (by simpa using hpg))]
    rfl

/-! ## Cost arithmetic -/

theorem walkCost_append_cons (E : List (α × α × ℚ)) :
    ∀ (l : List α) (x : α) (m : List α),
    walkCost E (l ++ x :: m) = walkCost E (l ++ [x]) + walkCost E (x :: m) := by
  intro l
  induction l with
  | nil =>
    intro x m
    show walkCost E (x :: m) = walkCost E [x] + walkCost E (x :: m)
    show walkCost E (x :: m) = 0 + walkCost E (x :: m)
    ring
  | cons u l' ih =>
    intro x m
    cases l' with
    | nil =>
      show walkCost E (u :: x :: m) = walkCost E [u, x] + walkCost E (x :: m)
      show (weightOf E u x).getD 0 + walkCost E (x :: m)
        = ((weightOf E u x).getD 0 + walkCost E [x]) + walkCost E (x :: m)
      show (weightOf E u x).getD 0 + walkCost E (x :: m)
        = ((weightOf E u x).getD 0 + 0) + walkCost E (x :: m)
      ring
    | cons a l'' =>
      show (weightOf E u a).getD 0 + walkCost E ((a :: l'') ++ x :: m)
        = ((weightOf E u a).getD 0 + walkCost E ((a :: l'') ++ [x])) + walkCost E (x :: m)
      rw [ih x m]
      ring

theorem walkCost_concat (E : List (α × α × ℚ)) (l : List α) (x v : α) :
    walkCost E ((l ++ [x]) ++ [v])
      = walkCost E (l ++ [x]) + (weightOf E x v).getD 0 := by
  rw [List.append_assoc]
  show walkCost E (l ++ x :: [v]) = _
  rw [walkCost_append_cons E l x [v]]
  show walkCost E (l ++ [x]) + ((weightOf E x v).getD 0 + 0) = _
  ring

theorem walkCost_nonneg {E : List (α × α × ℚ)} (hNN : ∀ e ∈ E, 0 ≤ e.2.2) :
    ∀ {p : List α}, List.Chain' (fun u v => isEdgeB E u v = true) p →
    0 ≤ walkCost E p := by
  intro p
  induction p with
  | nil => intro _; exact le_refl 0
  | cons u rest ih =>
    intro hc
    cases rest with
    | nil => exact le_refl 0
    | cons v rest' =>
      have h1 : isEdgeB E u v = true := (List.chain'_cons.mp hc).1
      have h2 := ih (List.chain'_cons.mp hc).2
      show 0 ≤ (weightOf E u v).getD 0 + walkCost E (v :: rest')
      have hw : 0 ≤ (weightOf E u v).getD 0 := by
        rcases Option.isSome_iff_exists.mp (weightOf_isSome h1) with ⟨w, hw⟩
        rw [hw]
        rcases weightOf_mem hw with ⟨e, he, hew⟩
        rw [← hew]
        simpa using hNN e he
      linarith

/-- Extend a walk by one edge. -/
theorem IsWalkFrom_snoc {E : List (α × α × ℚ)} {s u v : α} {p : List α}
    (hp : IsWalkFrom E s u p) (hadj : adjRel E u v) :
    IsWalkFrom E s v (p ++ [v]) := by
  rcases hp with ⟨⟨hne, hchain⟩, hhead, hlast⟩
  refine ⟨⟨by simp, ?_⟩, ?_, ?_⟩
  · rw [List.chain'_append]
    refine ⟨hchain, List.chain'_singleton v, ?_⟩
    intro x hx y hy
    rw [List.head?_cons, Option.mem_some_iff] at hy
    rw [hlast, Option.mem_some_iff] at hx
    rw [← hx, ← hy]
    exact adjRel_isEdgeB hadj
  · rw [List.head?_append_of_ne_nil _ hne]
    exact hhead
  · simp

/-- The trivial walk. -/
theorem IsWalkFrom_refl (E : List (α × α × ℚ)) (s : α) : IsWalkFrom E s s [s] :=
  ⟨⟨by simp, List.chain'_singleton s⟩, rfl, rfl⟩

theorem walkCost_single (E : List (α × α × ℚ)) (s : α) : walkCost E [s] = 0 := rfl

/-- Cost of a one-edge extension when the extending weight is known. -/
theorem walkCost_snoc_weight {E : List (α × α × ℚ)} {u v : α} {w : ℚ} {p : List α}
    (hne : p ≠ []) (hlast : p.getLast? = some u) (hw : weightOf E u v = some w) :
    walkCost E (p ++ [v]) = walkCost E p + w := by
  rcases List.eq_nil_or_concat p with rfl | ⟨l, x, rfl⟩
  · exact absurd rfl hne
  · rw [List.concat_eq_append] at hlast ⊢
    have hx : x = u := by
      rw [List.getLast?_concat] at hlast
      exact Option.some.inj hlast
    rw [hx]
    rw [walkCost_concat, hw]
    rfl

/-! ## Walk shortening: every walk has a duplicate-free walk of no
greater cost (for non-negative weights) -/

theorem exists_split_dup {l : List α} (h : ¬ l.Nodup) :
    ∃ x a b c, l = a ++ x :: b ++ x :: c := by
  induction l with
  | nil => exact absurd List.nodup_nil h
  | cons y rest ih =>
    by_cases hy : y ∈ rest
    · rcases List.append_of_mem hy with ⟨b, c, hbc⟩
      exact ⟨y, [], b, c, by rw [hbc]; simp⟩
    · have hnr : ¬ rest.Nodup := fun hn => h (List.nodup_cons.mpr ⟨hy, hn⟩)
      rcases ih hnr with ⟨x, a, b, c, habc⟩
      exact ⟨x, y :: a, b, c, by rw [habc]; rfl⟩

theorem walk_surgery {E : List (α × α × ℚ)} (hNN : ∀ e ∈ E, 0 ≤ e.2.2)
    {s t x : α} {a b c : List α}
    (hw : IsWalkFrom E s t (a ++ x :: b ++ x :: c)) :
    IsWalkFrom E s t (a ++ x :: c) ∧
    walkCost E (a ++ x :: c) ≤ walkCost E (a ++ x :: b ++ x :: c) := by
  rcases hw with ⟨⟨hne, hchain⟩, hhead, hlast⟩
  have hsplit : a ++ x :: b ++ x :: c = a ++ ((x :: b) ++ (x :: c)) := by simp
  rw [hsplit] at hchain
  rw [List.chain'_append] at hchain
  rcases hchain with ⟨hca, hcbc, hlink⟩
  rw [List.chain'_append] at hcbc
  rcases hcbc with ⟨hcb, hcc, hlink2⟩
  have hchain' : List.Chain' (fun u v => isEdgeB E u v = true) (a ++ x :: c) := by
    rw [List.chain'_append]
    refine ⟨hca, hcc, ?_⟩
    intro p hp q hq
    refine hlink p hp q ?_
    simpa using hq
  have hhead' : (a ++ x :: c).head? = some s := by
    cases a with
    | nil =>
      simp only [List.nil_append, List.head?_cons] at hhead ⊢
      exact hhead
    | cons y a' =>
      simp only [List.cons_append, List.head?_cons] at hhead ⊢
      exact hhead
  have hlast' : (a ++ x :: c).getLast? = some t := by
    have h1 : (a ++ x :: b ++ x :: c).getLast? = (x :: c).getLast? := by
      rw [hsplit, List.getLast?_append_of_ne_nil, List.getLast?_append_of_ne_nil]
      · simp
      · simp
    have h2 : (a ++ x :: c).getLast? = (x :: c).getLast? := by
      rw [List.getLast?_append_of_ne_nil]
      simp
    rw [h2, ← h1, hlast]
  have hcost : walkCost E (a ++ x :: c) ≤ walkCost E (a ++ x :: b ++ x :: c) := by
    have e1 : walkCost E (a ++ x :: b ++ x :: c)
        = walkCost E (a ++ [x]) + walkCost E (x :: b ++ x :: c) := by
      have : a ++ x :: b ++ x :: c = a ++ x :: (b ++ x :: c) := by simp
      rw [this, walkCost_append_cons]
      rfl
    have e2 : walkCost E (x :: b ++ x :: c)
        = walkCost E ((x :: b) ++ [x]) + walkCost E (x :: c) := by
      have : x :: b ++ x :: c = (x :: b) ++ x :: c := by simp
      rw [this, walkCost_append_cons]
    have e3 : walkCost E (a ++ x :: c)
        = walkCost E (a ++ [x]) + walkCost E (x :: c) :=
      walkCost_append_cons E a x c
    have hmid : 0 ≤ walkCost E ((x :: b) ++ [x]) := by
      refine walkCost_nonneg hNN ?_
      rw [List.chain'_append]
      refine ⟨hcb, List.chain'_singleton x, ?_⟩
      intro p hp q hq
      refine hlink2 p hp q ?_
      simpa using hq
    rw [e1, e2, e3]
    linarith
  exact ⟨⟨⟨by simp, hchain'⟩, hhead', hlast'⟩, hcost⟩

theorem walk_shorten {E : List (α × α × ℚ)} (hNN : ∀ e ∈ E, 0 ≤ e.2.2) :
    ∀ (n : ℕ) (p : List α) (s t : α), p.length ≤ n → IsWalkFrom E s t p →
    ∃ q, IsWalkFrom E s t q ∧ q.Nodup ∧ walkCost E q ≤ walkCost E p := by
  intro n
  induction n with
  | zero =>
    intro p s t hlen hw
    rcases hw with ⟨⟨hne, _⟩, _, _⟩
    rw [List.length_eq_zero.mp (Nat.le_zero.mp hlen)] at hne
    exact absurd rfl hne
  | succ n ih =>
    intro p s t hlen hw
    by_cases hnd : p.Nodup
    · exact ⟨p, hw, hnd, le_refl _⟩
    · rcases exists_split_dup hnd with ⟨x, a, b, c, habc⟩
      rw [habc] at hw hlen
      rcases walk_surgery hNN hw with ⟨hw', hcost⟩
      have hlen' : (a ++ x :: c).length ≤ n := by
        simp only [List.length_append, List.length_cons] at hlen ⊢
        omega
      rcases ih (a ++ x :: c) s t hlen' hw' with ⟨q, hq, hqnd, hqcost⟩
      rw [habc]
      exact ⟨q, hq, hqnd, le_trans hqcost hcost⟩

theorem chain_mem_nodes {G : Graph α} (hWF : G.WF) :
    ∀ (p : List α) (s : α), s ∈ G.nodes →
    List.Chain' (fun u v => isEdgeB G.adj u v = true) (s :: p) →
    ∀ x ∈ s :: p, x ∈ G.nodes := by
  intro p
  induction p with
  | nil =>
    intro s hs _ x hx
    rw [List.mem_singleton.mp hx]
    exact hs
  | cons v rest ih =>
    intro s hs hchain x hx
    have h1 : isEdgeB G.adj s v = true := (List.chain'_cons.mp hchain).1
    have hv : v ∈ G.nodes := (adjRel_nodes hWF (isEdgeB_adjRel h1)).2
    rcases List.mem_cons.mp hx with hx | hx
    · rw [hx]; exact hs
    · exact ih v hv (List.chain'_cons.mp hchain).2 x hx

/-- All nodes of a walk lie in the graph's node list. -/
theorem walk_mem_nodes {G : Graph α} (hWF : G.WF) {s t : α} {p : List α}
    (hw : IsWalkFrom G.adj s t p) (hs : s ∈ G.nodes) : ∀ x ∈ p, x ∈ G.nodes := by
  rcases hw with ⟨⟨hne, hchain⟩, hhead, _⟩
  cases p with
  | nil =>
    intro x hx
    cases hx
  | cons u rest =>
    have hu : u = s := Option.some.inj hhead
    rw [hu] at hchain ⊢
    exact chain_mem_nodes hWF rest s hs hchain

/-- Reachability yields a walk. -/
theorem reach_exists_walk {E : List (α × α × ℚ)} {s t : α} (h : ReachTo E s t) :
    ∃ p, IsWalkFrom E s t p := by
  induction h with
  | refl => exact ⟨[s], IsWalkFrom_refl E s⟩
  | tail hr hadj ihr =>
    rcases ihr with ⟨p, hp⟩
    exact ⟨p ++ [_], IsWalkFrom_snoc hp hadj⟩

/-! ## Bellman-Ford: soundness, monotonicity, and exactness -/

/-- The iterated relaxation state inside bellmanInner. -/
def bfState (G : Graph α) (s : α) (k : ℕ) : List (α × ℚ) × List (α × List α) :=
  (bfPass (bfEdges G))^[k] ([(s, 0)], [(s, [s])])

theorem bellmanInner_eq (G : Graph α) (s : α) :
    bellmanInner G s =
      if bfRelaxable (bfEdges G) (bfState G s (G.nodes.length - 1)).1 = true
      then .error .negativeCycle
      else .ok (bfState G s (G.nodes.length - 1)) := rfl

theorem alookup_singleton {β : Type _} (s v : α) (x : β) :
    alookup [(s, x)] v = if s = v then some x else none := by
  unfold alookup
  by_cases h : s = v
  · rw [List.find?_cons_of_pos _ (by simpa using h), if_pos h]
    rfl
  · rw [List.find?_cons_of_neg _ (by simpa using h), if_neg h]
    rfl

theorem bfRelax_mono {st : List (α × ℚ) × List (α × List α)} {e : α × α × ℚ}
    {v : α} {d : ℚ} (h : alookup st.1 v = some d) :
    ∃ d' ≤ d, alookup (bfRelax st e).1 v = some d' := by
  cases hdu : alookup st.1 e.1 with
  | none =>
    have hb : bfRelax st e = st := by unfold bfRelax; rw [hdu]
    exact ⟨d, le_refl d, by rw [hb]; exact h⟩
  | some du =>
    cases hdv : alookup st.1 e.2.1 with
    | none =>
      have hb : (bfRelax st e).1 = aset st.1 e.2.1 (du + e.2.2) := by
        unfold bfRelax; rw [hdu, hdv]
      by_cases hv : v = e.2.1
      · rw [hv] at h
        rw [h] at hdv
        cases hdv
      · exact ⟨d, le_refl d, by rw [hb, alookup_aset_ne _ _ _ _ hv]; exact h⟩
    | some dv =>
      by_cases hlt : du + e.2.2 < dv
      · have hb : (bfRelax st e).1 = aset st.1 e.2.1 (du + e.2.2) := by
          unfold bfRelax; rw [hdu, hdv]; simp only [if_pos hlt]
        by_cases hv : v = e.2.1
        · refine ⟨du + e.2.2, ?_, ?_⟩
          · rw [hv] at h
            rw [h] at hdv
            exact le_of_lt (Option.some.inj hdv ▸ hlt)
          · rw [hb, hv, alookup_aset_self]
        · exact ⟨d, le_refl d, by rw [hb, alookup_aset_ne _ _ _ _ hv]; exact h⟩
      · have hb : bfRelax st e = st := by
          unfold bfRelax; rw [hdu, hdv]; simp only [if_neg hlt]
        exact ⟨d, le_refl d, by rw [hb]; exact h⟩

theorem bfPass_mono {E : List (α × α × ℚ)} :
    ∀ {st : List (α × ℚ) × List (α × List α)} {v : α} {d : ℚ},
    alookup st.1 v = some d → ∃ d' ≤ d, alookup (bfPass E st).1 v = some d' := by
  induction E with
  | nil => intro st v d h; exact ⟨d, le_refl d, h⟩
  | cons e rest ih =>
    intro st v d h
    rcases bfRelax_mono (e := e) h with ⟨d1, hd1, h1⟩
    rcases ih h1 with ⟨d2, hd2, h2⟩
    exact ⟨d2, le_trans hd2 hd1, h2⟩

theorem bfRelax_relax {st : List (α × ℚ) × List (α × List α)} {e : α × α × ℚ}
    {du : ℚ} (h : alookup st.1 e.1 = some du) :
    ∃ dv ≤ du + e.2.2, alookup (bfRelax st e).1 e.2.1 = some dv := by
  cases hdv : alookup st.1 e.2.1 with
  | none =>
    have hb : (bfRelax st e).1 = aset st.1 e.2.1 (du + e.2.2) := by
      unfold bfRelax; rw [h, hdv]
    exact ⟨du + e.2.2, le_refl _, by rw [hb, alookup_aset_self]⟩
  | some dv =>
    by_cases hlt : du + e.2.2 < dv
    · have hb : (bfRelax st e).1 = aset st.1 e.2.1 (du + e.2.2) := by
        unfold bfRelax; rw [h, hdv]; simp only [if_pos hlt]
      exact ⟨du + e.2.2, le_refl _, by rw [hb, alookup_aset_self]⟩
    · have hb : bfRelax st e = st := by
        unfold bfRelax; rw [h, hdv]; simp only [if_neg hlt]
      exact ⟨dv, le_of_not_lt hlt, by rw [hb]; exact hdv⟩

theorem bfPass_relax {E : List (α × α × ℚ)} :
    ∀ {st : List (α × ℚ) × List (α × List α)} {e : α × α × ℚ} {du : ℚ},
    e ∈ E → alookup st.1 e.1 = some du →
    ∃ dv ≤ du + e.2.2, alookup (bfPass E st).1 e.2.1 = some dv := by
  induction E with
  | nil => intro st e du he; cases he
  | cons f rest ih =>
    intro st e du he h
    rcases List.mem_cons.mp he with he | he
    · subst he
      rcases bfRelax_relax h with ⟨dv, hdv, h1⟩
      rcases bfPass_mono h1 with ⟨dv', hdv', h2⟩
      exact ⟨dv', le_trans hdv' hdv, h2⟩
    · rcases bfRelax_mono (e := f) h with ⟨du', hdu', h1⟩
      rcases ih he h1 with ⟨dv, hdv, h2⟩
      exact ⟨dv, le_trans hdv (by linarith), h2⟩

/-- Every recorded distance is witnessed by a recorded walk of that cost. -/
def BFSound (G : Graph α) (s : α) (st : List (α × ℚ) × List (α × List α)) : Prop :=
  ∀ v d, alookup st.1 v = some d →
    ∃ p, alookup st.2 v = some p ∧ IsWalkFrom G.adj s v p ∧ walkCost G.adj p = d

theorem bfRelax_sound {G : Graph α} (hWF : G.WF) {s : α}
    {st : List (α × ℚ) × List (α × List α)} {e : α × α × ℚ}
    (he : e ∈ bfEdges G) (hs : BFSound G s st) : BFSound G s (bfRelax st e) := by
  cases hdu : alookup st.1 e.1 with
  | none =>
    have hb : bfRelax st e = st := by unfold bfRelax; rw [hdu]
    rw [hb]
    exact hs
  | some du =>
    rcases hs e.1 du hdu with ⟨pu, hpu, hwu, hcu⟩
    have hupd : BFSound G s (aset st.1 e.2.1 (du + e.2.2),
        aset st.2 e.2.1 (((alookup st.2 e.1).getD []) ++ [e.2.1])) := by
      intro v d hv
      by_cases hve : v = e.2.1
      · rw [hve] at hv ⊢
        rw [alookup_aset_self] at hv
        have hd : d = du + e.2.2 := (Option.some.inj hv).symm
        refine ⟨pu ++ [e.2.1], ?_, ?_, ?_⟩
        · show alookup (aset st.2 e.2.1 (((alookup st.2 e.1).getD []) ++ [e.2.1])) e.2.1
            = some (pu ++ [e.2.1])
          rw [alookup_aset_self, hpu]
          rfl
        · exact IsWalkFrom_snoc hwu (bfEdges_adjRel he)
        · rw [walkCost_snoc_weight hwu.1.1 hwu.2.2 (weightOf_bfEdge hWF he), hcu, hd]
      · show ∃ p, alookup (aset st.2 e.2.1 _) v = some p ∧ _
        rw [alookup_aset_ne _ _ _ _ hve]
        rw [alookup_aset_ne _ _ _ _ hve] at hv
        exact hs v d hv
    cases hdv : alookup st.1 e.2.1 with
    | none =>
      have hb : bfRelax st e = (aset st.1 e.2.1 (du + e.2.2),
          aset st.2 e.2.1 (((alookup st.2 e.1).getD []) ++ [e.2.1])) := by
        unfold bfRelax; rw [hdu, hdv]
      rw [hb]
      exact hupd
    | some dv =>
      by_cases hlt : du + e.2.2 < dv
      · have hb : bfRelax st e = (aset st.1 e.2.1 (du + e.2.2),
            aset st.2 e.2.1 (((alookup st.2 e.1).getD []) ++ [e.2.1])) := by
          unfold bfRelax; rw [hdu, hdv]; simp only [if_pos hlt]
        rw [hb]
        exact hupd
      · have hb : bfRelax st e = st := by
          unfold bfRelax; rw [hdu, hdv]; simp only [if_neg hlt]
        rw [hb]
        exact hs

theorem bfState_sound {G : Graph α} (hWF : G.WF) (s : α) (k : ℕ) :
    BFSound G s (bfState G s k) := by
  unfold bfState
  refine iterate_inv (BFSound G s) ?_ ?_ k
  · intro v d hv
    rw [alookup_singleton] at hv
    by_cases h : s = v
    · rw [if_pos h] at hv
      refine ⟨[s], ?_, ?_, ?_⟩
      · rw [alookup_singleton, if_pos h]
      · rw [← h]
        exact IsWalkFrom_refl G.adj s
      · rw [walkCost_single]
        exact (Option.some.inj hv)
    · rw [if_neg h] at hv
      cases hv
  · intro st hst
    unfold bfPass
    exact foldl_inv (BFSound G s) hst (fun st' e he h => bfRelax_sound hWF he h)

theorem bfState_pairs (G : Graph α) (s : α) (k : ℕ) :
    PairsReach G.adj s (bfState G s k).1 ∧ PairsReach G.adj s (bfState G s k).2 := by
  unfold bfState
  refine iterate_inv
    (fun st : List (α × ℚ) × List (α × List α) =>
      PairsReach G.adj s st.1 ∧ PairsReach G.adj s st.2) ?_ ?_ k
  · constructor
    · intro p hp
      rw [List.mem_singleton.mp hp]
      exact ReachTo.refl s
    · intro p hp
      rw [List.mem_singleton.mp hp]
      exact ReachTo.refl s
  · intro st hst
    unfold bfPass
    exact foldl_inv
      (fun st : List (α × ℚ) × List (α × List α) =>
        PairsReach G.adj s st.1 ∧ PairsReach G.adj s st.2) hst
      (fun st' e he hP => bfRelax_pairs he hP.1 hP.2)

theorem isEdgeB_bfEdge {G : Graph α} {u v : α} (h : isEdgeB G.adj u v = true) :
    ∃ e ∈ bfEdges G, e.1 = u ∧ e.2.1 = v := by
  unfold isEdgeB at h
  rcases List.any_eq_true.mp h with ⟨e, he, hp⟩
  rw [decide_eq_true_eq] at hp
  rcases hp with ⟨h1, h2⟩ | ⟨h1, h2⟩
  · exact ⟨e, List.mem_append.mpr (Or.inl he), h1, h2⟩
  · refine ⟨(e.2.1, e.1, e.2.2), ?_, h2, h1⟩
    refine List.mem_append.mpr (Or.inr ?_)
    exact List.mem_map.mpr ⟨e, he, rfl⟩

theorem bfIter_upper (G : Graph α) (hWF : G.WF) (s : α) :
    ∀ (k : ℕ) (p : List α) (t : α),
    IsWalkFrom G.adj s t p → p.length ≤ k + 1 →
    ∃ d, alookup (bfState G s k).1 t = some d ∧ d ≤ walkCost G.adj p := by
  intro k
  induction k with
  | zero =>
    intro p t hw hlen
    rcases hw with ⟨⟨hne, hchain⟩, hhead, hlast⟩
    have hp : p = [s] := by
      cases p with
      | nil => exact absurd rfl hne
      | cons u rest =>
        cases rest with
        | nil =>
          have : u = s := Option.some.inj hhead
          rw [this]
        | cons v rest' => simp at hlen
    have ht : t = s := by
      rw [hp] at hlast
      exact (Option.some.inj hlast).symm
    rw [hp, ht]
    refine ⟨0, ?_, by rw [walkCost_single]⟩
    show alookup (bfState G s 0).1 s = some 0
    unfold bfState
    rw [Function.iterate_zero_apply]
    rw [alookup_singleton, if_pos rfl]
  | succ k ih =>
    intro p t hw hlen
    have hstep : bfState G s (k + 1) = bfPass (bfEdges G) (bfState G s k) := by
      unfold bfState
      rw [Function.iterate_succ_apply']
    by_cases hsmall : p.length ≤ k + 1
    · rcases ih p t hw hsmall with ⟨d, hd, hdc⟩
      rcases bfPass_mono hd with ⟨d', hd', hd'mem⟩
      rw [hstep]
      exact ⟨d', hd'mem, le_trans hd' hdc⟩
    · rcases List.eq_nil_or_concat p with rfl | ⟨l, x, rfl⟩
      · exact absurd rfl hw.1.1
      · rw [List.concat_eq_append] at hw hlen hsmall ⊢
        have hlne : l ≠ [] := by
          intro h0
          rw [h0] at hsmall
          simp at hsmall
        have hxt : x = t := by
          have := hw.2.2
          rw [List.getLast?_concat] at this
          exact Option.some.inj this
        rcases hw with ⟨⟨hne, hchain⟩, hhead, hlast⟩
        rw [List.chain'_append] at hchain
        rcases hchain with ⟨hcl, _, hlink⟩
        set u := l.getLast hlne
        have hul : l.getLast? = some u := List.getLast?_eq_getLast l hlne
        have hwl : IsWalkFrom G.adj s u l := by
          refine ⟨⟨hlne, hcl⟩, ?_, hul⟩
          rw [List.head?_append_of_ne_nil _ hlne] at hhead
          exact hhead
        have hllen : l.length ≤ k + 1 := by
          rw [List.length_append] at hlen
          simp at hlen
          omega
        rcases ih l u hwl hllen with ⟨dq, hdq, hdqc⟩
        have hedge : isEdgeB G.adj u x = true := by
          refine hlink u ?_ x ?_
          · rw [hul]
            rfl
          · rfl
        rcases isEdgeB_bfEdge hedge with ⟨e, he, he1, he2⟩
        have hdq1 : alookup (bfState G s k).1 e.1 = some dq := by
          rw [he1]
          exact hdq
        rcases bfPass_relax he hdq1 with ⟨dv, hdv, hdvmem⟩
        have hcost : walkCost G.adj (l ++ [x]) = walkCost G.adj l + e.2.2 := by
          refine walkCost_snoc_weight hlne hul ?_
          have hwo := weightOf_bfEdge hWF he
          rw [he1, he2] at hwo
          exact hwo
        refine ⟨dv, ?_, ?_⟩
        · rw [hstep, ← hxt, ← he2]
          exact hdvmem
        · rw [hcost]
          linarith

theorem bf_dist_shortest {G : Graph α} (hWF : G.WF) (hNN : ∀ e ∈ G.adj, 0 ≤ e.2.2)
    {s t : α} (hs : s ∈ G.nodes) {d : ℚ}
    (h : alookup (bfState G s (G.nodes.length - 1)).1 t = some d) :
    ∀ p, IsWalkFrom G.adj s t p → d ≤ walkCost G.adj p := by
  intro p hp
  rcases walk_shorten hNN p.length p s t (le_refl _) hp with ⟨q, hq, hqnd, hqc⟩
  have hqn : ∀ x ∈ q, x ∈ G.nodes := walk_mem_nodes hWF hq hs
  have hqlen : q.length ≤ G.nodes.length := nodup_sub_length hqnd hqn
  have hpos : 1 ≤ G.nodes.length := List.length_pos.mpr (List.ne_nil_of_mem hs)
  have hn1 : q.length ≤ (G.nodes.length - 1) + 1 := by omega
  rcases bfIter_upper G hWF s (G.nodes.length - 1) q t hq hn1 with ⟨d', hd', hd'c⟩
  have hdd : d' = d := by
    rw [h] at hd'
    exact (Option.some.inj hd').symm
  rw [← hdd]
  linarith

theorem bf_complete {G : Graph α} (hWF : G.WF) (hNN : ∀ e ∈ G.adj, 0 ≤ e.2.2)
    {s t : α} (hs : s ∈ G.nodes) (hr : ReachTo G.adj s t) :
    ∃ d p, alookup (bfState G s (G.nodes.length - 1)).1 t = some d ∧
      alookup (bfState G s (G.nodes.length - 1)).2 t = some p ∧
      IsWalkFrom G.adj s t p ∧ walkCost G.adj p = d ∧
      IsShortestDist G.adj s t d := by
  rcases reach_exists_walk hr with ⟨p0, hp0⟩
  rcases walk_shorten hNN p0.length p0 s t (le_refl _) hp0 with ⟨q, hq, hqnd, _⟩
  have hqn : ∀ x ∈ q, x ∈ G.nodes := walk_mem_nodes hWF hq hs
  have hqlen : q.length ≤ G.nodes.length := nodup_sub_length hqnd hqn
  have hpos : 1 ≤ G.nodes.length := List.length_pos.mpr (List.ne_nil_of_mem hs)
  have hn1 : q.length ≤ (G.nodes.length - 1) + 1 := by omega
  rcases bfIter_upper G hWF s (G.nodes.length - 1) q t hq hn1 with ⟨d, hd, _⟩
  rcases bfState_sound hWF s (G.nodes.length - 1) t d hd with ⟨p, hp, hpw, hpc⟩
  exact ⟨d, p, hd, hp, hpw, hpc,
    ⟨⟨p, hpw, hpc⟩, bf_dist_shortest hWF hNN hs hd⟩⟩

theorem bf_no_cycle {G : Graph α} (hWF : G.WF) (hNN : ∀ e ∈ G.adj, 0 ≤ e.2.2)
    {s : α} (hs : s ∈ G.nodes) :
    bfRelaxable (bfEdges G) (bfState G s (G.nodes.length - 1)).1 = false := by
  unfold bfRelaxable
  rw [List.any_eq_false]
  intro e he
  cases h1 : alookup (bfState G s (G.nodes.length - 1)).1 e.1 with
  | none => simp [h1]
  | some du =>
    cases h2 : alookup (bfState G s (G.nodes.length - 1)).1 e.2.1 with
    | none =>
      exfalso
      have hr1 : ReachTo G.adj s e.1 :=
        (bfState_pairs G s (G.nodes.length - 1)).1 _ (alookup_eq_some_mem h1)
      have hr2 : ReachTo G.adj s e.2.1 := ReachTo.tail hr1 (bfEdges_adjRel he)
      rcases bf_complete hWF hNN hs hr2 with ⟨d, p, hd, _, _, _, _⟩
      rw [h2] at hd
      cases hd
    | some dv =>
      simp only [h1, h2]
      simp only [decide_eq_true_eq]
      rw [not_lt]
      rcases bfState_sound hWF s (G.nodes.length - 1) e.1 du h1 with ⟨pu, _, hpw, hpc⟩
      have hwalk : IsWalkFrom G.adj s e.2.1 (pu ++ [e.2.1]) :=
        IsWalkFrom_snoc hpw (bfEdges_adjRel he)
      have hcost : walkCost G.adj (pu ++ [e.2.1]) = du + e.2.2 := by
        rw [walkCost_snoc_weight hpw.1.1 hpw.2.2 (weightOf_bfEdge hWF he), hpc]
      have := bf_dist_shortest hWF hNN hs h2 (pu ++ [e.2.1]) hwalk
      rw [hcost] at this
      exact this

/-- Full correctness of the Bellman-Ford call for a reachable target. -/
theorem bellman_correct {G : Graph α} (hWF : G.WF) (hNN : ∀ e ∈ G.adj, 0 ≤ e.2.2)
    {s t : α} (hs : s ∈ G.nodes) (hr : ReachTo G.adj s t) :
    ∃ d q, single_source_bellman_ford G s t = .ok (d, q) ∧
      IsShortestDist G.adj s t d ∧ IsWalkFrom G.adj s t q ∧ walkCost G.adj q = d := by
  by_cases hst : s = t
  · subst hst
    refine ⟨0, [s], ?_, ?_, IsWalkFrom_refl G.adj s, walkCost_single G.adj s⟩
    · unfold single_source_bellman_ford
      rw [if_pos rfl, if_pos hs]
    · refine ⟨⟨[s], IsWalkFrom_refl _ _, walkCost_single _ _⟩, ?_⟩
      intro p hp
      exact walkCost_nonneg hNN hp.1.2
  · rcases bf_complete hWF hNN hs hr with ⟨d, p, hd, hp, hpw, hpc, hshort⟩
    refine ⟨d, p, ?_, hshort, hpw, hpc⟩
    have hbi : bellmanInner G s = .ok (bfState G s (G.nodes.length - 1)) := by
      rw [bellmanInner_eq, bf_no_cycle hWF hNN hs]
      simp
    unfold single_source_bellman_ford
    rw [if_neg hst, if_pos hs, hbi]
    simp only [hd, hp]

/-! ## More association-list lemmas -/

theorem alookup_none_iff {β : Type _} {l : List (α × β)} {k : α} :
    alookup l k = none ↔ ∀ p ∈ l, p.1 ≠ k := by
  unfold alookup
  rw [Option.map_eq_none', List.find?_eq_none]
  constructor
  · intro h p hp
    simpa using h p hp
  · intro h p hp
    simpa using h p hp

theorem alookup_of_mem_nodup {β : Type _} {l : List (α × β)} {p : α × β}
    (hnd : (l.map Prod.fst).Nodup) (hp : p ∈ l) : alookup l p.1 = some p.2 := by
  induction l with
  | nil => cases hp
  | cons q rest ih =>
    rw [List.map_cons, List.nodup_cons] at hnd
    rcases List.mem_cons.mp hp with hp | hp
    · rw [hp]
      unfold alookup
      rw [List.find?_cons_of_pos _ (by simp)]
      rfl
    · have hq : ¬ q.1 = p.1 := by
        intro he
        exact hnd.1 (he ▸ List.mem_map.mpr ⟨p, hp, rfl⟩)
      unfold alookup
      rw [List.find?_cons_of_neg _ (by simpa using hq)]
      exact ih hnd.2 hp

theorem mem_aset' {β : Type _} {l : List (α × β)} {k : α} {v : β} {p : α × β}
    (h : p ∈ aset l k v) : (p ∈ l ∧ p.1 ≠ k) ∨ p = (k, v) := by
  unfold aset at h
  split at h
  · rcases List.mem_map.mp h with ⟨q, hq, hEq⟩
    by_cases hk : q.1 = k
    · right; rw [if_pos hk] at hEq; exact hEq.symm
    · left
      rw [if_neg hk] at hEq
      exact ⟨hEq ▸ hq, hEq ▸ hk⟩
  · next hfind =>
    have hnone : alookup l k = none := by
      unfold alookup
      rw [Option.not_isSome_iff_eq_none.mp hfind]
      rfl
    rcases List.mem_append.mp h with h | h
    · exact Or.inl ⟨h, alookup_none_iff.mp hnone p h⟩
    · right; simpa using h

theorem aset_mem_self {β : Type _} (l : List (α × β)) (k : α) (v : β) :
    (k, v) ∈ aset l k v := by
  unfold aset
  split
  · next hfind =>
    rcases Option.isSome_iff_exists.mp hfind with ⟨q, hq⟩
    have hqk : q.1 = k := by simpa using List.find?_some hq
    have hqm : q ∈ l := List.mem_of_find?_eq_some hq
    refine List.mem_map.mpr ⟨q, hqm, ?_⟩
    rw [if_pos hqk]
  · exact List.mem_append.mpr (Or.inr (List.mem_singleton.mpr rfl))

theorem aset_mem_of_ne {β : Type _} {l : List (α × β)} {k : α} {v : β} {p : α × β}
    (hp : p ∈ l) (hne : p.1 ≠ k) : p ∈ aset l k v := by
  unfold aset
  split
  · refine List.mem_map.mpr ⟨p, hp, ?_⟩
    rw [if_neg hne]
  · exact List.mem_append.mpr (Or.inl hp)

theorem aset_keys {β : Type _} (l : List (α × β)) (k : α) (v : β) :
    ((aset l k v).map Prod.fst = l.map Prod.fst) ∨
    ((aset l k v).map Prod.fst = l.map Prod.fst ++ [k] ∧ ∀ p ∈ l, p.1 ≠ k) := by
  unfold aset
  split
  · left
    rw [List.map_map]
    refine List.map_congr_left ?_
    intro q hq
    by_cases hk : q.1 = k
    · simp [hk]
    · simp [hk]
  · next hfind =>
    have hnone : alookup l k = none := by
      unfold alookup
      rw [Option.not_isSome_iff_eq_none.mp hfind]
      rfl
    right
    exact ⟨by simp, alookup_none_iff.mp hnone⟩

theorem aset_keys_nodup {β : Type _} {l : List (α × β)} {k : α} {v : β}
    (h : (l.map Prod.fst).Nodup) : ((aset l k v).map Prod.fst).Nodup := by
  rcases aset_keys l k v with hk | ⟨hk, hfresh⟩
  · rw [hk]; exact h
  · rw [hk]
    rw [List.nodup_append]
    refine ⟨h, List.nodup_singleton k, ?_⟩
    intro x hx hxk
    rcases List.mem_map.mp hx with ⟨p, hp, hpx⟩
    rw [List.mem_singleton.mp hxk] at hpx
    exact hfresh p hp hpx

theorem pickMinGo_le : ∀ (l : List (α × ℚ)) (acc : Option (α × ℚ)) (p : α × ℚ),
    l.foldl (fun acc p =>
      match acc with
      | none => some p
      | some q => if p.2 < q.2 then some p else acc) acc = some p →
    (∀ a, acc = some a → p.2 ≤ a.2) ∧ (∀ q ∈ l, p.2 ≤ q.2) := by
  intro l
  induction l with
  | nil =>
    intro acc p h
    refine ⟨fun a ha => ?_, fun q hq => absurd hq (List.not_mem_nil q)⟩
    rw [ha] at h
    rw [Option.some.inj h]
  | cons b rest ih =>
    intro acc p h
    simp only [List.foldl_cons] at h
    have hstep := ih _ p h
    have hpb : p.2 ≤ b.2 := by
      cases acc with
      | none => exact hstep.1 b rfl
      | some q =>
        by_cases hlt : b.2 < q.2
        · exact hstep.1 b (by simp [hlt])
        · have := hstep.1 q (by simp [hlt])
          linarith [le_of_not_lt hlt]
    refine ⟨?_, ?_⟩
    · intro a ha
      cases acc with
      | none => cases ha
      | some q =>
        have hq : q = a := Option.some.inj ha
        by_cases hlt : b.2 < q.2
        · have := hstep.1 b (by simp [hlt])
          rw [← hq]
          linarith
        · have := hstep.1 q (by simp [hlt])
          rw [← hq]
          exact this
    · intro q hq
      rcases List.mem_cons.mp hq with hq | hq
      · rw [hq]; exact hpb
      · exact hstep.2 q hq

theorem pickMin_le {l : List (α × ℚ)} {p : α × ℚ} (h : pickMin l = some p) :
    ∀ q ∈ l, p.2 ≤ q.2 :=
  (pickMinGo_le l none p h).2

/-! ## Dijkstra: the loop invariant -/

/-- The invariant of the networkx Dijkstra loop: `dist` is the finalized
dict, `tent` the tentative frontier, `paths` the path dict.  Every recorded
distance is witnessed by a recorded walk; finalized distances are optimal;
every edge out of the finalized region is matched in the frontier. -/
structure DInv (G : Graph α) (s : α) (dist : List (α × ℚ))
    (paths : List (α × List α)) (tent : List (α × ℚ)) : Prop where
  distKeys : (dist.map Prod.fst).Nodup
  tentKeys : (tent.map Prod.fst).Nodup
  disj : ∀ p ∈ dist, ∀ q ∈ tent, p.1 ≠ q.1
  distAch : ∀ p ∈ dist, ∃ w, alookup paths p.1 = some w ∧
    IsWalkFrom G.adj s p.1 w ∧ walkCost G.adj w = p.2
  tentAch : ∀ q ∈ tent, ∃ w, alookup paths q.1 = some w ∧
    IsWalkFrom G.adj s q.1 w ∧ walkCost G.adj w = q.2
  distLB : ∀ p ∈ dist, ∀ w, IsWalkFrom G.adj s p.1 w → p.2 ≤ walkCost G.adj w
  frontier : ∀ p ∈ dist, ∀ y, adjRel G.adj p.1 y →
    (∃ d, (y, d) ∈ dist) ∨
    ∃ dy wy, (y, dy) ∈ tent ∧ weightOf G.adj p.1 y = some wy ∧ dy ≤ p.2 + wy
  start : (∃ d, (s, d) ∈ dist) ∨ (dist = [] ∧ tent = [(s, 0)])

theorem dijkstra_cross {G : Graph α} (hNN : ∀ e ∈ G.adj, 0 ≤ e.2.2)
    {s : α} {dist : List (α × ℚ)} {paths : List (α × List α)} {tent : List (α × ℚ)}
    (inv : DInv G s dist paths tent) :
    ∀ (p : List α) (a z : α) (b da : ℚ),
    List.Chain' (fun x y => isEdgeB G.adj x y = true) (a :: p) →
    (a :: p).getLast? = some z →
    (∀ q ∈ dist, q.1 ≠ z) →
    (a, da) ∈ dist → da ≤ b →
    ∃ y dy, (y, dy) ∈ tent ∧ dy ≤ b + walkCost G.adj (a :: p) := by
  intro p
  induction p with
  | nil =>
    intro a z b da hchain hlast hz ha hab
    have haz : a = z := by simpa using hlast
    exact absurd haz (hz (a, da) ha)
  | cons v rest ihp =>
    intro a z b da hchain hlast hz ha hab
    have hedge : isEdgeB G.adj a v = true := (List.chain'_cons.mp hchain).1
    have hchain' : List.Chain' (fun x y => isEdgeB G.adj x y = true) (v :: rest) :=
      (List.chain'_cons.mp hchain).2
    have hlast' : (v :: rest).getLast? = some z := by
      rw [List.getLast?_cons_cons] at hlast
      exact hlast
    rcases Option.isSome_iff_exists.mp (weightOf_isSome hedge) with ⟨w, hw⟩
    have hw0 : 0 ≤ w := by
      rcases weightOf_mem hw with ⟨e, he, hew⟩
      rw [← hew]
      exact hNN e he
    have hcostp : walkCost G.adj (a :: v :: rest)
        = w + walkCost G.adj (v :: rest) := by
      show (weightOf G.adj a v).getD 0 + _ = _
      rw [hw]
      rfl
    by_cases hv : ∃ dv, (v, dv) ∈ dist
    · rcases hv with ⟨dv, hv⟩
      have hdvle : dv ≤ da + w := by
        rcases inv.distAch (a, da) ha with ⟨wa, _, hwaw, hwac⟩
        have hwalkv : IsWalkFrom G.adj s v (wa ++ [v]) :=
          IsWalkFrom_snoc hwaw (isEdgeB_adjRel hedge)
        have hcv : walkCost G.adj (wa ++ [v]) = da + w := by
          rw [walkCost_snoc_weight hwaw.1.1 hwaw.2.2 hw, hwac]
        have := inv.distLB (v, dv) hv (wa ++ [v]) hwalkv
        rw [hcv] at this
        exact this
      rcases ihp v z (b + w) dv hchain' hlast' hz hv (by linarith) with ⟨y, dy, hy, hyle⟩
      refine ⟨y, dy, hy, ?_⟩
      rw [hcostp]
      linarith
    · push_neg at hv
      rcases inv.frontier (a, da) ha v (isEdgeB_adjRel hedge) with
        ⟨d, hd⟩ | ⟨dy, wy, hy, hwy, hyle⟩
      · exact absurd hd (hv d)
      · have hww : wy = w := by
          rw [hw] at hwy
          exact (Option.some.inj hwy).symm

        refine ⟨v, dy, hy, ?_⟩
        rw [hcostp]
        have hnn2 : 0 ≤ walkCost G.adj (v :: rest) := walkCost_nonneg hNN hchain'
        rw [hww] at hyle
        linarith

theorem dijkstra_crux {G : Graph α} (hNN : ∀ e ∈ G.adj, 0 ≤ e.2.2)
    {s : α} {dist : List (α × ℚ)} {paths : List (α × List α)} {tent : List (α × ℚ)}
    (inv : DInv G s dist paths tent) {u : α} {du : ℚ}
    (hpick : pickMin tent = some (u, du)) :
    ∀ p, IsWalkFrom G.adj s u p → du ≤ walkCost G.adj p := by
  intro p hp
  have humem : (u, du) ∈ tent := pickMin_mem hpick
  have hundist : ∀ q ∈ dist, q.1 ≠ u := fun q hq => inv.disj q hq (u, du) humem
  rcases inv.start with ⟨ds, hds⟩ | ⟨hdist, htent⟩
  · -- s is finalized
    have hds0 : ds ≤ 0 := by
      have := inv.distLB (s, ds) hds [s] (IsWalkFrom_refl G.adj s)
      rw [walkCost_single] at this
      exact this
    rcases hp with ⟨⟨hne, hchain⟩, hhead, hlast⟩
    cases p with
    | nil => exact absurd rfl hne
    | cons a p' =>
      have ha : a = s := Option.some.inj hhead
      rw [ha] at hchain hlast ⊢
      rcases dijkstra_cross hNN inv p' s u 0 ds hchain hlast hundist hds hds0 with
        ⟨y, dy, hy, hyle⟩
      have := pickMin_le hpick (y, dy) hy
      have h0 : (0 : ℚ) + walkCost G.adj (s :: p') = walkCost G.adj (s :: p') := by ring
      rw [h0] at hyle
      exact le_trans this hyle
  · rw [htent] at hpick humem
    have : (u, du) = (s, 0) := by simpa using humem
    have hu : u = s := by cases this; rfl
    have hdu : du = 0 := by cases this; rfl
    rw [hdu]
    exact walkCost_nonneg hNN hp.1.2

/-- What the relaxation fold preserves: frontier keys are distinct and
disjoint from the finalized keys, every frontier entry has a recorded
witnessing walk, and the paths of finalized nodes are untouched. -/
def RelaxQ (G : Graph α) (s : α) (dist' : List (α × ℚ)) (paths : List (α × List α))
    (st : List (α × ℚ) × List (α × List α)) : Prop :=
  (st.1.map Prod.fst).Nodup ∧
  (∀ p ∈ dist', ∀ q ∈ st.1, p.1 ≠ q.1) ∧
  (∀ q ∈ st.1, ∃ w, alookup st.2 q.1 = some w ∧
    IsWalkFrom G.adj s q.1 w ∧ walkCost G.adj w = q.2) ∧
  (∀ p ∈ dist', alookup st.2 p.1 = alookup paths p.1)

theorem relax_aset_Q {G : Graph α} {s u : α} {du : ℚ} {pu : List α}
    {dist' : List (α × ℚ)} {paths : List (α × List α)}
    (hpuw : IsWalkFrom G.adj s u pu) (hpuc : walkCost G.adj pu = du)
    {st : List (α × ℚ) × List (α × List α)} (hQ : RelaxQ G s dist' paths st)
    {k : α} {w : ℚ} (hadj : adjRel G.adj u k) (hw : weightOf G.adj u k = some w)
    (hdnone : alookup dist' k = none) :
    RelaxQ G s dist' paths (aset st.1 k (du + w), aset st.2 k (pu ++ [k])) := by
  obtain ⟨h1, h2, h3, h4⟩ := hQ
  have hkd : ∀ p ∈ dist', p.1 ≠ k := alookup_none_iff.mp hdnone
  refine ⟨aset_keys_nodup h1, ?_, ?_, ?_⟩
  · intro p hp q hq
    rcases mem_aset' hq with ⟨hq, _⟩ | hq
    · exact h2 p hp q hq
    · rw [hq]
      exact hkd p hp
  · intro q hq
    rcases mem_aset' hq with ⟨hq, hqk⟩ | hq
    · rcases h3 q hq with ⟨wq, hwq, hwqw, hwqc⟩
      exact ⟨wq, by rw [alookup_aset_ne _ _ _ _ hqk]; exact hwq, hwqw, hwqc⟩
    · refine ⟨pu ++ [k], ?_, ?_, ?_⟩
      · rw [hq]
        exact alookup_aset_self st.2 k (pu ++ [k])
      · rw [hq]
        exact IsWalkFrom_snoc hpuw hadj
      · rw [hq]
        rw [walkCost_snoc_weight hpuw.1.1 hpuw.2.2 hw, hpuc]
  · intro p hp
    rw [alookup_aset_ne _ _ _ _ (hkd p hp)]
    exact h4 p hp

theorem relaxOne_spec {G : Graph α} {s u : α} {du : ℚ} {pu : List α}
    {dist' : List (α × ℚ)} {paths : List (α × List α)}
    (hpuw : IsWalkFrom G.adj s u pu) (hpuc : walkCost G.adj pu = du)
    {st : List (α × ℚ) × List (α × List α)} (hQ : RelaxQ G s dist' paths st)
    {vw : α × ℚ} (hadj : adjRel G.adj u vw.1)
    (hw : weightOf G.adj u vw.1 = some vw.2) :
    RelaxQ G s dist' paths (relaxOne dist' du pu st vw) ∧
    (∀ q ∈ st.1, ∃ q' ∈ (relaxOne dist' du pu st vw).1, q'.1 = q.1 ∧ q'.2 ≤ q.2) ∧
    (alookup dist' vw.1 = none →
      ∃ dy, (vw.1, dy) ∈ (relaxOne dist' du pu st vw).1 ∧ dy ≤ du + vw.2) := by
  by_cases hd : (alookup dist' vw.1).isSome
  · have hr : relaxOne dist' du pu st vw = st := by
      unfold relaxOne
      rw [if_pos hd]
    rw [hr]
    refine ⟨hQ, fun q hq => ⟨q, hq, rfl, le_refl _⟩, fun hnone => ?_⟩
    rw [hnone] at hd
    cases hd
  · have hdnone : alookup dist' vw.1 = none := Option.not_isSome_iff_eq_none.mp hd
    have hd' : (alookup dist' vw.1).isSome = false := by
      rw [hdnone]
      rfl
    rcases halo : alookup st.1 vw.1 with _ | cur
    · have hr : relaxOne dist' du pu st vw
          = (aset st.1 vw.1 (du + vw.2), aset st.2 vw.1 (pu ++ [vw.1])) := by
        unfold relaxOne
        rw [hd', halo]
        rfl
      rw [hr]
      refine ⟨relax_aset_Q hpuw hpuc hQ hadj hw hdnone, ?_, ?_⟩
      · intro q hq
        by_cases hqk : q.1 = vw.1
        · have := alookup_of_mem_nodup hQ.1 hq
          rw [hqk, halo] at this
          cases this
        · exact ⟨q, aset_mem_of_ne hq hqk, rfl, le_refl _⟩
      · intro _
        exact ⟨du + vw.2, aset_mem_self st.1 vw.1 (du + vw.2), le_refl _⟩
    · by_cases hlt : du + vw.2 < cur
      · have hr : relaxOne dist' du pu st vw
            = (aset st.1 vw.1 (du + vw.2), aset st.2 vw.1 (pu ++ [vw.1])) := by
          unfold relaxOne
          rw [hd', halo]
          exact if_pos hlt
        rw [hr]
        refine ⟨relax_aset_Q hpuw hpuc hQ hadj hw hdnone, ?_, ?_⟩
        · intro q hq
          by_cases hqk : q.1 = vw.1
          · have hcur := alookup_of_mem_nodup hQ.1 hq
            rw [hqk, halo] at hcur
            have hq2 : q.2 = cur := (Option.some.inj hcur).symm
            refine ⟨(vw.1, du + vw.2), aset_mem_self st.1 vw.1 (du + vw.2), hqk.symm, ?_⟩
            rw [hq2]
            exact le_of_lt hlt
          · exact ⟨q, aset_mem_of_ne hq hqk, rfl, le_refl _⟩
        · intro _
          exact ⟨du + vw.2, aset_mem_self st.1 vw.1 (du + vw.2), le_refl _⟩
      · have hr : relaxOne dist' du pu st vw = st := by
          unfold relaxOne
          rw [hd', halo]
          exact if_neg hlt
        rw [hr]
        refine ⟨hQ, fun q hq => ⟨q, hq, rfl, le_refl _⟩, fun _ => ?_⟩
        exact ⟨cur, alookup_eq_some_mem halo, le_of_not_lt hlt⟩

theorem relaxFold_spec {G : Graph α} {s u : α} {du : ℚ} {pu : List α}
    {dist' : List (α × ℚ)} {paths : List (α × List α)}
    (hpuw : IsWalkFrom G.adj s u pu) (hpuc : walkCost G.adj pu = du) :
    ∀ (ns : List (α × ℚ)) (st : List (α × ℚ) × List (α × List α)),
    (∀ vw ∈ ns, adjRel G.adj u vw.1 ∧ weightOf G.adj u vw.1 = some vw.2) →
    RelaxQ G s dist' paths st →
    RelaxQ G s dist' paths (ns.foldl (relaxOne dist' du pu) st) ∧
    (∀ q ∈ st.1, ∃ q' ∈ (ns.foldl (relaxOne dist' du pu) st).1,
      q'.1 = q.1 ∧ q'.2 ≤ q.2) ∧
    (∀ vw ∈ ns, alookup dist' vw.1 = none →
      ∃ dy, (vw.1, dy) ∈ (ns.foldl (relaxOne dist' du pu) st).1 ∧
        dy ≤ du + vw.2) := by
  intro ns
  induction ns with
  | nil =>
    intro st _ hQ
    exact ⟨hQ, fun q hq => ⟨q, hq, rfl, le_refl _⟩,
      fun vw hvw => absurd hvw (List.not_mem_nil vw)⟩
  | cons vw rest ih =>
    intro st hns hQ
    have hstep := relaxOne_spec hpuw hpuc hQ (hns vw (List.mem_cons_self vw rest)).1
      (hns vw (List.mem_cons_self vw rest)).2
    have hrest := ih (relaxOne dist' du pu st vw)
      (fun x hx => hns x (List.mem_cons_of_mem vw hx)) hstep.1
    rw [List.foldl_cons]
    refine ⟨hrest.1, ?_, ?_⟩
    · intro q hq
      rcases hstep.2.1 q hq with ⟨q1, hq1, hq1k, hq1le⟩
      rcases hrest.2.1 q1 hq1 with ⟨q2, hq2, hq2k, hq2le⟩
      exact ⟨q2, hq2, hq2k.trans hq1k, le_trans hq2le hq1le⟩
    · intro x hx hxnone
      rcases List.mem_cons.mp hx with hx | hx
      · subst hx
        rcases hstep.2.2 hxnone with ⟨dy, hdy, hdyle⟩
        rcases hrest.2.1 (x.1, dy) hdy with ⟨q2, hq2, hq2k, hq2le⟩
        have hq2k' : q2.1 = x.1 := hq2k
        have hxq : (x.1, q2.2) = q2 := by
          rw [← hq2k']
        refine ⟨q2.2, ?_, le_trans hq2le hdyle⟩
        rw [hxq]
        exact hq2
      · exact hrest.2.2 x hx hxnone

theorem dijkstra_preserve {G : Graph α} (hWF : G.WF) (hNN : ∀ e ∈ G.adj, 0 ≤ e.2.2)
    {s : α} {dist : List (α × ℚ)} {paths : List (α × List α)} {tent : List (α × ℚ)}
    (inv : DInv G s dist paths tent) {ud : α × ℚ}
    (hpick : pickMin tent = some ud) :
    DInv G s (dist ++ [ud])
      ((G.neighborsList ud.1).foldl (relaxOne (dist ++ [ud]) ud.2
        ((alookup paths ud.1).getD []))
        (tent.filter (fun p => decide (p.1 ≠ ud.1)), paths)).2
      ((G.neighborsList ud.1).foldl (relaxOne (dist ++ [ud]) ud.2
        ((alookup paths ud.1).getD []))
        (tent.filter (fun p => decide (p.1 ≠ ud.1)), paths)).1 := by
  have humem : ud ∈ tent := pickMin_mem hpick
  rcases inv.tentAch ud humem with ⟨w, hwlook, hww, hwc⟩
  have hpu : (alookup paths ud.1).getD [] = w := by
    rw [hwlook]
    rfl
  have hpuw : IsWalkFrom G.adj s ud.1 ((alookup paths ud.1).getD []) := by
    rw [hpu]
    exact hww
  have hpuc : walkCost G.adj ((alookup paths ud.1).getD []) = ud.2 := by
    rw [hpu]
    exact hwc
  have hundist : ∀ q ∈ dist, q.1 ≠ ud.1 := fun q hq => inv.disj q hq ud humem
  have hcrux : ∀ p, IsWalkFrom G.adj s ud.1 p → ud.2 ≤ walkCost G.adj p :=
    dijkstra_crux hNN inv hpick
  have hudfresh : ∀ q ∈ dist ++ [ud], q.1 ≠ ud.1 → q ∈ dist := by
    intro q hq hqne
    rcases List.mem_append.mp hq with hq | hq
    · exact hq
    · rw [List.mem_singleton.mp hq] at hqne
      exact absurd rfl hqne
  -- the initial fold state satisfies the fold invariant
  have hQ0 : RelaxQ G s (dist ++ [ud]) paths
      (tent.filter (fun p => decide (p.1 ≠ ud.1)), paths) := by
    refine ⟨?_, ?_, ?_, fun p _ => rfl⟩
    · exact inv.tentKeys.sublist ((List.filter_sublist tent).map Prod.fst)
    · intro p hp q hq
      have hqt := List.mem_of_mem_filter hq
      have hqne : q.1 ≠ ud.1 := by
        have := (List.mem_filter.mp hq).2
        simpa using this
      rcases List.mem_append.mp hp with hp | hp
      · exact inv.disj p hp q hqt
      · rw [List.mem_singleton.mp hp]
        exact fun he => hqne he.symm
    · intro q hq
      exact inv.tentAch q (List.mem_of_mem_filter hq)
  have hns : ∀ vw ∈ G.neighborsList ud.1,
      adjRel G.adj ud.1 vw.1 ∧ weightOf G.adj ud.1 vw.1 = some vw.2 :=
    fun vw hvw => ⟨neighborsList_adjRel hvw, weightOf_neighbor hWF hvw⟩
  have hfold := relaxFold_spec hpuw hpuc (G.neighborsList ud.1)
    (tent.filter (fun p => decide (p.1 ≠ ud.1)), paths) hns hQ0
  obtain ⟨⟨hk1, hk2, hk3, hk4⟩, hmono, hq6⟩ := hfold
  refine ⟨?_, hk1, hk2, ?_, hk3, ?_, ?_, ?_⟩
  · -- keys of dist ++ [ud] are distinct
    rw [List.map_append]
    refine List.nodup_append.mpr ⟨inv.distKeys, List.nodup_singleton _, ?_⟩
    intro x hx hx'
    rcases List.mem_map.mp hx with ⟨p, hp, hpx⟩
    rw [List.mem_singleton.mp hx'] at hpx
    exact hundist p hp hpx
  · -- achieved walks for all finalized nodes
    intro p hp
    rcases List.mem_append.mp hp with hp' | hp'
    · rcases inv.distAch p hp' with ⟨wp, hwp, hwpw, hwpc⟩
      refine ⟨wp, ?_, hwpw, hwpc⟩
      rw [hk4 p hp]
      exact hwp
    · rw [List.mem_singleton.mp hp']
      refine ⟨w, ?_, hww, hwc⟩
      rw [hk4 ud (List.mem_append.mpr (Or.inr (List.mem_singleton.mpr rfl)))]
      exact hwlook
  · -- lower bounds for all finalized nodes
    intro p hp wp hwp
    rcases List.mem_append.mp hp with hp' | hp'
    · exact inv.distLB p hp' wp hwp
    · rw [List.mem_singleton.mp hp'] at hwp ⊢
      exact hcrux wp hwp
  · -- the frontier condition
    intro p hp y hady
    rcases List.mem_append.mp hp with hp' | hp'
    · rcases inv.frontier p hp' y hady with ⟨d, hd⟩ | ⟨dy, wy, hy, hwy, hyle⟩
      · exact Or.inl ⟨d, List.mem_append.mpr (Or.inl hd)⟩
      · by_cases hyu : y = ud.1
        · refine Or.inl ⟨ud.2, ?_⟩
          rw [hyu]
          exact List.mem_append.mpr (Or.inr (List.mem_singleton.mpr rfl))
        · have hy' : (y, dy) ∈ tent.filter (fun p => decide (p.1 ≠ ud.1)) :=
            List.mem_filter.mpr ⟨hy, by simpa using hyu⟩
          rcases hmono (y, dy) hy' with ⟨q', hq', hq'k, hq'le⟩
          have hq'k' : q'.1 = y := hq'k
          have hq'eq : (y, q'.2) = q' := by
            rw [← hq'k']
          refine Or.inr ⟨q'.2, wy, ?_, hwy, le_trans hq'le hyle⟩
          rw [hq'eq]
          exact hq'
    · rw [List.mem_singleton.mp hp'] at hady ⊢
      by_cases hy : ∃ d, (y, d) ∈ dist ++ [ud]
      · exact Or.inl hy
      · push_neg at hy
        have hnone : alookup (dist ++ [ud]) y = none := by
          rw [alookup_none_iff]
          intro q hq hqy
          have : (y, q.2) = q := by
            rw [← hqy]
          exact hy q.2 (this ▸ hq)
        rcases adjRel_mem_neighborsList hady with ⟨wy, hmemN⟩
        rcases hq6 (y, wy) hmemN hnone with ⟨dy, hdy, hdyle⟩
        exact Or.inr ⟨dy, wy, hdy, weightOf_neighbor hWF hmemN, hdyle⟩
  · -- the source is finalized
    rcases inv.start with ⟨d, hd⟩ | ⟨hdist, htent⟩
    · exact Or.inl ⟨d, List.mem_append.mpr (Or.inl hd)⟩
    · have h2 : pickMin [(s, (0 : ℚ))] = some ud := htent ▸ hpick
      have hud : ud = (s, 0) := (Option.some.inj h2).symm
      refine Or.inl ⟨0, ?_⟩
      rw [← hud]
      exact List.mem_append.mpr (Or.inr (List.mem_singleton.mpr rfl))

theorem dijkstraAux_spec {G : Graph α} (hWF : G.WF) (hNN : ∀ e ∈ G.adj, 0 ≤ e.2.2)
    {s : α} (hs : s ∈ G.nodes) :
    ∀ (fuel : ℕ) (dist : List (α × ℚ)) (paths : List (α × List α))
      (tent : List (α × ℚ)),
    DInv G s dist paths tent →
    (G.verts.toFinset \ (dist.map Prod.fst).toFinset).card + 1 ≤ fuel →
    DInv G s (dijkstraAux G fuel dist paths tent).1
      (dijkstraAux G fuel dist paths tent).2 [] := by
  intro fuel
  induction fuel with
  | zero =>
    intro dist paths tent inv hfuel
    omega
  | succ n ih =>
    intro dist paths tent inv hfuel
    rcases hpick : pickMin tent with _ | ud
    · have htent : tent = [] := pickMin_eq_none hpick
      subst htent
      have hr : dijkstraAux G (n + 1) dist paths [] = (dist, paths) := by
        unfold dijkstraAux
        rw [hpick]
      rw [hr]
      exact inv
    · have hr : dijkstraAux G (n + 1) dist paths tent
          = dijkstraAux G n (dist ++ [ud])
            ((G.neighborsList ud.1).foldl (relaxOne (dist ++ [ud]) ud.2
              ((alookup paths ud.1).getD []))
              (tent.filter (fun p => decide (p.1 ≠ ud.1)), paths)).2
            ((G.neighborsList ud.1).foldl (relaxOne (dist ++ [ud]) ud.2
              ((alookup paths ud.1).getD []))
              (tent.filter (fun p => decide (p.1 ≠ ud.1)), paths)).1 := by
        conv_lhs => rw [dijkstraAux]
        rw [hpick]
      have hinv' := dijkstra_preserve hWF hNN inv hpick
      have humem : ud ∈ tent := pickMin_mem hpick
      rcases inv.tentAch ud humem with ⟨w, _, hww, _⟩
      have hud_nodes : ud.1 ∈ G.nodes :=
        walk_mem_nodes hWF hww hs ud.1 (List.mem_of_getLast?_eq_some hww.2.2)
      have hud_verts : ud.1 ∈ G.verts.toFinset :=
        List.mem_toFinset.mpr (nodes_sub_verts hud_nodes)
      have hud_fresh : ud.1 ∉ dist.map Prod.fst := by
        intro hmem
        rcases List.mem_map.mp hmem with ⟨p, hp, hpx⟩
        exact inv.disj p hp ud humem hpx
      have hcard := card_diff_append_one hud_verts hud_fresh
      have hkeys : (dist ++ [ud]).map Prod.fst = dist.map Prod.fst ++ [ud.1] := by
        rw [List.map_append]
        rfl
      have hfuel' : (G.verts.toFinset \ ((dist ++ [ud]).map Prod.fst).toFinset).card
          + 1 ≤ n := by
        rw [hkeys]
        omega
      rw [hr]
      exact ih _ _ _ hinv' hfuel'

theorem dijkstra_init_inv {G : Graph α} {s : α} :
    DInv G s [] [(s, [s])] [(s, 0)] := by
  have hlook : alookup [(s, [s])] s = some [s] := by
    unfold alookup
    rw [List.find?_cons_of_pos _ (by simp)]
    rfl
  refine ⟨List.nodup_nil, ?_, ?_, ?_, ?_, ?_, ?_, Or.inr ⟨rfl, rfl⟩⟩
  · exact List.nodup_singleton s
  · intro p hp
    cases hp
  · intro p hp
    cases hp
  · intro q hq
    rw [List.mem_singleton.mp hq]
    exact ⟨[s], hlook, IsWalkFrom_refl G.adj s, walkCost_single G.adj s⟩
  · intro p hp
    cases hp
  · intro p hp
    cases hp

theorem dijkstra_correct {G : Graph α} (hWF : G.WF) (hNN : ∀ e ∈ G.adj, 0 ≤ e.2.2)
    {s t : α} (hs : s ∈ G.nodes) (hr : ReachTo G.adj s t) :
    ∃ d p, single_source_dijkstra G s t = .ok (d, p) ∧
      IsShortestDist G.adj s t d ∧ IsWalkFrom G.adj s t p ∧ walkCost G.adj p = d := by
  by_cases hts : t = s
  · subst hts
    refine ⟨0, [t], ?_, ?_, IsWalkFrom_refl G.adj t, walkCost_single G.adj t⟩
    · unfold single_source_dijkstra
      rw [if_pos rfl]
    · refine ⟨⟨[t], IsWalkFrom_refl _ _, walkCost_single _ _⟩, ?_⟩
      intro p hp
      exact walkCost_nonneg hNN hp.1.2
  · have hfuel : (G.verts.toFinset
        \ (([] : List (α × ℚ)).map Prod.fst).toFinset).card + 1
        ≤ G.verts.length + 1 := by
      have : (G.verts.toFinset \ (∅ : Finset α)).card ≤ G.verts.length := by
        rw [Finset.sdiff_empty]
        exact G.verts.toFinset_card_le
      simpa using this
    have hinv := dijkstraAux_spec hWF hNN hs (G.verts.length + 1)
      [] [(s, [s])] [(s, 0)] dijkstra_init_inv hfuel
    have hstart : ∃ d, (s, d) ∈ (dijkstraAux G (G.verts.length + 1)
        [] [(s, [s])] [(s, 0)]).1 := by
      rcases hinv.start with h | ⟨_, h⟩
      · exact h
      · cases h
    have hclosure : ∀ x, ReachTo G.adj s x →
        ∃ d, (x, d) ∈ (dijkstraAux G (G.verts.length + 1)
          [] [(s, [s])] [(s, 0)]).1 := by
      intro x hx
      induction hx with
      | refl => exact hstart
      | tail _ hbc ihb =>
        rcases ihb with ⟨db, hdb⟩
        rcases hinv.frontier _ hdb _ hbc with ⟨d, hd⟩ | ⟨_, _, hmem, _, _⟩
        · exact ⟨d, hd⟩
        · cases hmem
    rcases hclosure t hr with ⟨d, hd⟩
    have hdl : alookup (dijkstraAux G (G.verts.length + 1)
        [] [(s, [s])] [(s, 0)]).1 t = some d := alookup_of_mem_nodup hinv.distKeys hd
    rcases hinv.distAch (t, d) hd with ⟨p, hpl, hpw, hpc⟩
    have hpl' : alookup (dijkstraAux G (G.verts.length + 1)
        [] [(s, [s])] [(s, 0)]).2 t = some p := hpl
    refine ⟨d, p, ?_, ⟨⟨p, hpw, hpc⟩, fun w hw => hinv.distLB (t, d) hd w hw⟩, hpw, hpc⟩
    unfold single_source_dijkstra
    rw [if_neg hts, if_pos hs]
    simp only [hdl, hpl']

/-! ## DFS: the recursive walk invariant -/

theorem dfs_spec (G : Graph α) (hWF : G.WF) : ∀ fuel : ℕ,
    (∀ (u : α) (visited : List α),
      (G.verts.toFinset \ visited.toFinset).card + 1 ≤ fuel →
      u ∈ G.nodes → u ∉ visited → visited.Nodup →
      ∃ res, dfsAux G fuel u visited = .ok res ∧
        (∃ ext, res = visited ++ (u :: ext)) ∧
        res.Nodup ∧
        (∀ x ∈ res, x ∈ visited ∨ ReachTo G.adj u x) ∧
        (∀ x, x ∈ res → x ∉ visited → ∀ y, adjRel G.adj x y → y ∈ res)) ∧
    (∀ (ns : List (α × ℚ)) (visited : List α),
      (G.verts.toFinset \ visited.toFinset).card + 1 ≤ fuel →
      (∀ vw ∈ ns, vw.1 ∈ G.nodes) → visited.Nodup →
      ∃ res, dfsFold G fuel ns visited = .ok res ∧
        (∃ ext, res = visited ++ ext) ∧
        res.Nodup ∧
        (∀ x ∈ res, x ∈ visited ∨ ∃ vw ∈ ns, ReachTo G.adj vw.1 x) ∧
        (∀ vw ∈ ns, vw.1 ∈ res) ∧
        (∀ x, x ∈ res → x ∉ visited → ∀ y, adjRel G.adj x y → y ∈ res)) := by
  intro fuel
  induction fuel with
  | zero =>
    constructor
    · intro u visited hfuel
      omega
    · intro ns visited hfuel
      omega
  | succ fuel ih =>
    have haux : ∀ (u : α) (visited : List α),
        (G.verts.toFinset \ visited.toFinset).card + 1 ≤ fuel + 1 →
        u ∈ G.nodes → u ∉ visited → visited.Nodup →
        ∃ res, dfsAux G (fuel + 1) u visited = .ok res ∧
          (∃ ext, res = visited ++ (u :: ext)) ∧
          res.Nodup ∧
          (∀ x ∈ res, x ∈ visited ∨ ReachTo G.adj u x) ∧
          (∀ x, x ∈ res → x ∉ visited → ∀ y, adjRel G.adj x y → y ∈ res) := by
      intro u visited hfuel hun hnu hnd
      have hnb : G.neighbors u = .ok (G.neighborsList u) := by
        unfold Graph.neighbors
        rw [if_pos hun]
      have hcard : (G.verts.toFinset \ (visited ++ [u]).toFinset).card + 1
          = (G.verts.toFinset \ visited.toFinset).card :=
        card_diff_append_one (List.mem_toFinset.mpr (nodes_sub_verts hun)) hnu
      have hfuel' : (G.verts.toFinset \ (visited ++ [u]).toFinset).card + 1 ≤ fuel := by
        omega
      have hns : ∀ vw ∈ G.neighborsList u, vw.1 ∈ G.nodes :=
        fun vw hvw => (adjRel_nodes hWF (neighborsList_adjRel hvw)).2
      have hnd' : (visited ++ [u]).Nodup := by
        rw [List.nodup_append]
        exact ⟨hnd, List.nodup_singleton u, by simpa using fun hx => hnu hx⟩
      rcases ih.2 (G.neighborsList u) (visited ++ [u]) hfuel' hns hnd' with
        ⟨res, hres, ⟨ext, hext⟩, hndres, hreachres, hallres, hclosedres⟩
      refine ⟨res, ?_, ⟨ext, by rw [hext]; simp⟩, hndres, ?_, ?_⟩
      · rw [dfsAux, hnb]
        exact hres
      · intro x hx
        rcases hreachres x hx with hx' | hx'
        · rcases List.mem_append.mp hx' with hx' | hx'
          · exact Or.inl hx'
          · refine Or.inr ?_
            rw [List.mem_singleton.mp hx']
            exact ReachTo.refl u
        · rcases hx' with ⟨vw, hvw, hr⟩
          exact Or.inr (ReachTo.trans
            (ReachTo.single (neighborsList_adjRel hvw)) hr)
      · intro x hx hxv y hy
        by_cases hxu : x = u
        · rw [hxu] at hy
          rcases adjRel_mem_neighborsList hy with ⟨w, hw⟩
          exact hallres (y, w) hw
        · refine hclosedres x hx ?_ y hy
          intro hmem
          rcases List.mem_append.mp hmem with h' | h'
          · exact hxv h'
          · exact hxu (List.mem_singleton.mp h')
    refine ⟨haux, ?_⟩
    intro ns
    induction ns with
    | nil =>
      intro visited hfuel hns hnd
      refine ⟨visited, by simp [dfsFold], ⟨[], by simp⟩, hnd, ?_, ?_, ?_⟩
      · exact fun x hx => Or.inl hx
      · intro vw hvw; cases hvw
      · intro x hx hxv
        exact absurd hx hxv
    | cons vw rest ihl =>
      intro visited hfuel hns hnd
      by_cases hv : vw.1 ∈ visited
      · rcases ihl visited hfuel
          (fun vw' hvw' => hns vw' (List.mem_cons_of_mem vw hvw')) hnd with
          ⟨res, hres, hexts, hndres, hreachres, hallres, hclosedres⟩
        refine ⟨res, ?_, hexts, hndres, ?_, ?_, hclosedres⟩
        · rw [dfsFold, if_pos hv]
          exact hres
        · intro x hx
          rcases hreachres x hx with h' | h'
          · exact Or.inl h'
          · rcases h' with ⟨vw', hvw', hr⟩
            exact Or.inr ⟨vw', List.mem_cons_of_mem vw hvw', hr⟩
        · intro vw' hvw'
          rcases List.mem_cons.mp hvw' with h' | h'
          · rw [h']
            rcases hexts with ⟨ext, hext⟩
            rw [hext]
            exact List.mem_append.mpr (Or.inl hv)
          · exact hallres vw' h'
      · rcases haux vw.1 visited hfuel (hns vw (List.mem_cons_self vw rest)) hv hnd with
          ⟨res1, hres1, ⟨ext1, hext1⟩, hnd1, hreach1, hclosed1⟩
        have hsub1 : ∀ x ∈ visited, x ∈ res1 := by
          intro x hx
          rw [hext1]
          exact List.mem_append.mpr (Or.inl hx)
        have hcard1 : (G.verts.toFinset \ res1.toFinset).card
            ≤ (G.verts.toFinset \ visited.toFinset).card :=
          card_diff_mono hsub1
        rcases ihl res1 (by omega)
          (fun vw' hvw' => hns vw' (List.mem_cons_of_mem vw hvw')) hnd1 with
          ⟨res, hres, ⟨ext2, hext2⟩, hndres, hreachres, hallres, hclosedres⟩
        have hsub2 : ∀ x ∈ res1, x ∈ res := by
          intro x hx
          rw [hext2]
          exact List.mem_append.mpr (Or.inl hx)
        refine ⟨res, ?_, ?_, hndres, ?_, ?_, ?_⟩
        · rw [dfsFold, if_neg hv, hres1]
          exact hres
        · refine ⟨(vw.1 :: ext1) ++ ext2, ?_⟩
          rw [hext2, hext1]
          simp
        · intro x hx
          rcases hreachres x hx with h' | h'
          · rcases hreach1 x h' with h'' | h''
            · exact Or.inl h''
            · exact Or.inr ⟨vw, List.mem_cons_self vw rest, h''⟩
          · rcases h' with ⟨vw', hvw', hr⟩
            exact Or.inr ⟨vw', List.mem_cons_of_mem vw hvw', hr⟩
        · intro vw' hvw'
          rcases List.mem_cons.mp hvw' with h' | h'
          · rw [h']
            refine hsub2 _ ?_
            rw [hext1]
            exact List.mem_append.mpr (Or.inr (List.mem_cons_self _ _))
          · exact hallres vw' h'
        · intro x hx hxv y hy
          by_cases hx1 : x ∈ res1
          · exact hsub2 _ (hclosed1 x hx1 hxv y hy)
          · exact hclosedres x hx hx1 y hy

/-! ## Kruskal: edge-list weights, spanning subgraphs, block partitions -/

/-- Total weight of an edge list. -/
def listWeight (l : List (α × α × ℚ)) : ℚ := (l.map (·.2.2)).sum

/-- An edge list that connects every pair of declared nodes. -/
def Spans (G : Graph α) (T : List (α × α × ℚ)) : Prop :=
  ∀ u ∈ G.nodes, ∀ v ∈ G.nodes, ReachTo T u v

/-- Executable spanning test. -/
def spansB (G : Graph α) (T : List (α × α × ℚ)) : Bool :=
  G.nodes.all (fun u => G.nodes.all (fun v => reachB T u v))

theorem reach_mono {E E' : List (α × α × ℚ)} (hsub : ∀ e ∈ E, e ∈ E') {u v : α}
    (h : ReachTo E u v) : ReachTo E' u v := by
  induction h with
  | refl => exact ReachTo.refl u
  | tail _ hadj ih =>
    rcases hadj with ⟨w, hw | hw⟩
    · exact ReachTo.tail ih ⟨w, Or.inl (hsub _ hw)⟩
    · exact ReachTo.tail ih ⟨w, Or.inr (hsub _ hw)⟩

theorem ReachTo.symm {E : List (α × α × ℚ)} {u v : α} (h : ReachTo E u v) :
    ReachTo E v u := by
  induction h with
  | refl => exact ReachTo.refl u
  | tail _ hadj ih => exact (ReachTo.single (adjRel_symm hadj)).trans ih

theorem spans_iff_spansB (G : Graph α) (T : List (α × α × ℚ)) :
    Spans G T ↔ spansB G T = true := by
  unfold Spans spansB
  rw [List.all_eq_true]
  constructor
  · intro h u hu
    rw [List.all_eq_true]
    intro v hv
    rw [← reach_iff_reachB]
    exact h u hu v hv
  · intro h u hu v hv
    have := h u hu
    rw [List.all_eq_true] at this
    rw [reach_iff_reachB]
    exact this v hv

theorem listWeight_nonneg {l : List (α × α × ℚ)} (h : ∀ e ∈ l, 0 ≤ e.2.2) :
    0 ≤ listWeight l := by
  unfold listWeight
  induction l with
  | nil => simp
  | cons e rest ih =>
    rw [List.map_cons, List.sum_cons]
    have h1 := h e (List.mem_cons_self e rest)
    have h2 := ih (fun f hf => h f (List.mem_cons_of_mem e hf))
    linarith

theorem listWeight_perm {l m : List (α × α × ℚ)} (h : l.Perm m) :
    listWeight l = listWeight m := by
  unfold listWeight
  exact (h.map (·.2.2)).sum_eq

theorem listWeight_cons (e : α × α × ℚ) (l : List (α × α × ℚ)) :
    listWeight (e :: l) = e.2.2 + listWeight l := by
  unfold listWeight
  rw [List.map_cons, List.sum_cons]

/-- `List.erase` pinned to the decidable-equality test, so that the
Mathlib lemmas about erasure apply uniformly. -/
def eraseE {β : Type _} [DecidableEq β] (l : List β) (e : β) : List β :=
  @List.erase β instBEqOfDecidableEq l e

theorem eraseE_perm_cons {β : Type _} [DecidableEq β] {l : List β} {e : β}
    (he : e ∈ l) : l.Perm (e :: eraseE l e) :=
  List.perm_cons_erase he

theorem mem_eraseE_of_ne {β : Type _} [DecidableEq β] {l : List β} {a e : β}
    (ha : a ∈ l) (hne : a ≠ e) : a ∈ eraseE l e :=
  (List.mem_erase_of_ne hne).mpr ha

theorem mem_of_mem_eraseE {β : Type _} [DecidableEq β] {l : List β} {a e : β}
    (ha : a ∈ eraseE l e) : a ∈ l :=
  List.mem_of_mem_erase ha

theorem nodup_eraseE {β : Type _} [DecidableEq β] {l : List β} (e : β)
    (h : l.Nodup) : (eraseE l e).Nodup :=
  h.erase e

theorem listWeight_erase_add {l : List (α × α × ℚ)} {e : α × α × ℚ} (he : e ∈ l) :
    listWeight l = e.2.2 + listWeight (eraseE l e) := by
  have hp : l.Perm (e :: eraseE l e) := eraseE_perm_cons he
  rw [listWeight_perm hp, listWeight_cons]

theorem listWeight_sublist_le {l m : List (α × α × ℚ)} (h : l.Sublist m)
    (hnn : ∀ e ∈ m, 0 ≤ e.2.2) : listWeight l ≤ listWeight m := by
  induction h with
  | slnil => exact le_refl _
  | cons e _ ih =>
    next m' _ =>
      rw [listWeight_cons]
      have h1 := hnn e (List.mem_cons_self e _)
      have h2 := ih (fun f hf => hnn f (List.mem_cons_of_mem e hf))
      linarith
  | cons₂ e _ ih =>
    rw [listWeight_cons, listWeight_cons]
    have h2 := ih (fun f hf => hnn f (List.mem_cons_of_mem e hf))
    linarith

theorem listWeight_subperm_le {l m : List (α × α × ℚ)} (h : l.Subperm m)
    (hnn : ∀ e ∈ m, 0 ≤ e.2.2) : listWeight l ≤ listWeight m := by
  rcases h with ⟨l', hperm, hsub⟩
  rw [← listWeight_perm hperm]
  exact listWeight_sublist_le hsub hnn

theorem exists_min_by {β : Type _} (f : β → ℚ) :
    ∀ (l : List β), l ≠ [] → ∃ m ∈ l, ∀ t ∈ l, f m ≤ f t := by
  intro l
  induction l with
  | nil => intro h; exact absurd rfl h
  | cons b rest ih =>
    intro _
    rcases List.eq_nil_or_concat rest with hr | _
    · subst hr
      exact ⟨b, List.mem_singleton.mpr rfl, fun t ht => by
        rw [List.mem_singleton.mp ht]⟩
    · by_cases hrest : rest = []
      · subst hrest
        exact ⟨b, List.mem_cons_self b [], fun t ht => by
          rw [List.mem_singleton.mp ht]⟩
      · rcases ih hrest with ⟨m, hm, hmin⟩
        by_cases hbm : f b ≤ f m
        · refine ⟨b, List.mem_cons_self b rest, ?_⟩
          intro t ht
          rcases List.mem_cons.mp ht with ht | ht
          · rw [ht]
          · exact le_trans hbm (hmin t ht)
        · refine ⟨m, List.mem_cons_of_mem b hm, ?_⟩
          intro t ht
          rcases List.mem_cons.mp ht with ht | ht
          · rw [ht]
            exact le_of_not_le hbm
          · exact hmin t ht

theorem adj_nodup_of_WF {G : Graph α} (hWF : G.WF) : G.adj.Nodup := by
  refine hWF.2.2.imp ?_
  intro e f hef heq
  exact hef (Or.inl ⟨by rw [heq], by rw [heq]⟩)

theorem spans_of_perm {G : Graph α} {T T' : List (α × α × ℚ)} (h : T.Perm T')
    (hs : Spans G T) : Spans G T' :=
  fun u hu v hv => reach_mono (fun e he => h.mem_iff.mp he) (hs u hu v hv)

theorem exists_min_spanning {G : Graph α} (hWF : G.WF) (hconn : Spans G G.adj) :
    ∃ M, M ⊆ G.adj ∧ M.Nodup ∧ Spans G M ∧
      ∀ T, T ⊆ G.adj → T.Nodup → Spans G T → listWeight M ≤ listWeight T := by
  have hmem : G.adj ∈ G.adj.sublists.filter (fun T => spansB G T) := by
    rw [List.mem_filter]
    exact ⟨List.mem_sublists.mpr (List.Sublist.refl _),
      (spans_iff_spansB G G.adj).mp hconn⟩
  rcases exists_min_by listWeight _ (List.ne_nil_of_mem hmem) with ⟨M, hM, hmin⟩
  rw [List.mem_filter] at hM
  have hMsl : M.Sublist G.adj := List.mem_sublists.mp hM.1
  refine ⟨M, hMsl.subset, hMsl.nodup (adj_nodup_of_WF hWF),
    (spans_iff_spansB G M).mpr hM.2, ?_⟩
  intro T hTsub hTnd hTsp
  rcases (List.Nodup.subperm hTnd hTsub) with ⟨T', hTperm, hTsl⟩
  have hT' : T' ∈ G.adj.sublists.filter (fun T => spansB G T) := by
    rw [List.mem_filter]
    exact ⟨List.mem_sublists.mpr hTsl,
      (spans_iff_spansB G T').mp (spans_of_perm hTperm.symm hTsp)⟩
  calc listWeight M ≤ listWeight T' := hmin T' hT'
    _ = listWeight T := listWeight_perm hTperm

/-! ## Block partitions for the union-find state -/

/-- The union-find block list is a partition of the node list. -/
structure Partn (blocks : List (List α)) (nodes : List α) : Prop where
  bnodup : blocks.Nodup
  nonempty : ∀ b ∈ blocks, b ≠ []
  inodup : ∀ b ∈ blocks, b.Nodup
  bdisj : blocks.Pairwise List.Disjoint
  cover : ∀ x ∈ nodes, ∃ b ∈ blocks, x ∈ b
  bsub : ∀ b ∈ blocks, ∀ x ∈ b, x ∈ nodes

/-- Two nodes lie in a common block. -/
def SameBlock (blocks : List (List α)) (x y : α) : Prop :=
  ∃ b ∈ blocks, x ∈ b ∧ y ∈ b

theorem block_unique {blocks : List (List α)} {nodes : List α}
    (hP : Partn blocks nodes) {b1 b2 : List α} {x : α} (hb1 : b1 ∈ blocks)
    (hb2 : b2 ∈ blocks) (hx1 : x ∈ b1) (hx2 : x ∈ b2) : b1 = b2 := by
  by_contra hne
  exact hP.bdisj.forall (fun _ _ h => List.Disjoint.symm h) hb1 hb2 hne hx1 hx2

theorem sameBlock_symm {blocks : List (List α)} {x y : α}
    (h : SameBlock blocks x y) : SameBlock blocks y x := by
  rcases h with ⟨b, hb, hx, hy⟩
  exact ⟨b, hb, hy, hx⟩

theorem sameBlock_trans {blocks : List (List α)} {nodes : List α}
    (hP : Partn blocks nodes) {x y z : α} (h1 : SameBlock blocks x y)
    (h2 : SameBlock blocks y z) : SameBlock blocks x z := by
  rcases h1 with ⟨b1, hb1, hx, hy1⟩
  rcases h2 with ⟨b2, hb2, hy2, hz⟩
  have := block_unique hP hb1 hb2 hy1 hy2
  exact ⟨b1, hb1, hx, this ▸ hz⟩

theorem findBlock_some {blocks : List (List α)} {u : α} {b : List α}
    (h : findBlock blocks u = some b) : b ∈ blocks ∧ u ∈ b := by
  unfold findBlock at h
  refine ⟨List.mem_of_find?_eq_some h, ?_⟩
  have := List.find?_some h
  simpa using this

theorem findBlock_isSome {blocks : List (List α)} {u : α}
    (h : ∃ b ∈ blocks, u ∈ b) : ∃ b, findBlock blocks u = some b := by
  unfold findBlock
  rcases h with ⟨b, hb, hu⟩
  have : (blocks.find? (fun b => decide (u ∈ b))).isSome := by
    rw [List.find?_isSome]
    exact ⟨b, hb, by simpa using hu⟩
  exact Option.isSome_iff_exists.mp this

theorem partn_merge {blocks : List (List α)} {nodes : List α}
    (hP : Partn blocks nodes) {bu bv : List α} (hbu : bu ∈ blocks)
    (hbv : bv ∈ blocks) (hne : bu ≠ bv) :
    Partn ((bu ++ bv) :: blocks.filter (fun b => decide (b ≠ bu ∧ b ≠ bv)))
      nodes := by
  have hdisj : List.Disjoint bu bv :=
    hP.bdisj.forall (fun _ _ h => List.Disjoint.symm h) hbu hbv hne
  have hbune : bu ≠ [] := hP.nonempty bu hbu
  refine ⟨?_, ?_, ?_, ?_, ?_, ?_⟩
  · rw [List.nodup_cons]
    refine ⟨?_, hP.bnodup.filter _⟩
    intro hmem
    have hmem' := List.mem_of_mem_filter hmem
    have hcond := (List.mem_filter.mp hmem).2
    simp only [decide_eq_true_eq] at hcond
    have hdisj2 : List.Disjoint (bu ++ bv) bu :=
      hP.bdisj.forall (fun _ _ h => List.Disjoint.symm h) hmem' hbu hcond.1
    rcases List.exists_mem_of_ne_nil bu hbune with ⟨x, hx⟩
    exact hdisj2 (List.mem_append.mpr (Or.inl hx)) hx
  · intro b hb
    rcases List.mem_cons.mp hb with hb | hb
    · rw [hb]
      intro he
      exact hbune (List.append_eq_nil.mp he).1
    · exact hP.nonempty b (List.mem_of_mem_filter hb)
  · intro b hb
    rcases List.mem_cons.mp hb with hb | hb
    · rw [hb]
      exact List.Nodup.append (hP.inodup bu hbu) (hP.inodup bv hbv) hdisj
    · exact hP.inodup b (List.mem_of_mem_filter hb)
  · rw [List.pairwise_cons]
    refine ⟨?_, hP.bdisj.filter _⟩
    intro b hb
    have hb' := List.mem_of_mem_filter hb
    have hcond := (List.mem_filter.mp hb).2
    simp only [decide_eq_true_eq] at hcond
    rw [List.disjoint_append_left]
    exact ⟨hP.bdisj.forall (fun _ _ h => List.Disjoint.symm h) hbu hb'
        (fun h => hcond.1 h.symm),
      hP.bdisj.forall (fun _ _ h => List.Disjoint.symm h) hbv hb'
        (fun h => hcond.2 h.symm)⟩
  · intro x hx
    rcases hP.cover x hx with ⟨b, hb, hxb⟩
    by_cases h1 : b = bu
    · exact ⟨bu ++ bv, List.mem_cons_self _ _,
        List.mem_append.mpr (Or.inl (h1 ▸ hxb))⟩
    · by_cases h2 : b = bv
      · exact ⟨bu ++ bv, List.mem_cons_self _ _,
          List.mem_append.mpr (Or.inr (h2 ▸ hxb))⟩
      · exact ⟨b, List.mem_cons_of_mem _
          (List.mem_filter.mpr ⟨hb, by simp [h1, h2]⟩), hxb⟩
  · intro b hb x hxb
    rcases List.mem_cons.mp hb with hb | hb
    · rw [hb] at hxb
      rcases List.mem_append.mp hxb with h | h
      · exact hP.bsub bu hbu x h
      · exact hP.bsub bv hbv x h
    · exact hP.bsub b (List.mem_of_mem_filter hb) x hxb

theorem sameBlock_merge_mono {blocks : List (List α)} {bu bv : List α} {x y : α}
    (h : SameBlock blocks x y) :
    SameBlock ((bu ++ bv) :: blocks.filter (fun b => decide (b ≠ bu ∧ b ≠ bv)))
      x y := by
  rcases h with ⟨b, hb, hx, hy⟩
  by_cases h1 : b = bu
  · exact ⟨bu ++ bv, List.mem_cons_self _ _,
      List.mem_append.mpr (Or.inl (h1 ▸ hx)),
      List.mem_append.mpr (Or.inl (h1 ▸ hy))⟩
  · by_cases h2 : b = bv
    · exact ⟨bu ++ bv, List.mem_cons_self _ _,
        List.mem_append.mpr (Or.inr (h2 ▸ hx)),
        List.mem_append.mpr (Or.inr (h2 ▸ hy))⟩
    · exact ⟨b, List.mem_cons_of_mem _
        (List.mem_filter.mpr ⟨hb, by simp [h1, h2]⟩), hx, hy⟩

theorem filter_one_length {β : Type _} [DecidableEq β] :
    ∀ (l : List β), l.Nodup → ∀ b ∈ l,
    (l.filter (fun x => decide (x ≠ b))).length + 1 = l.length := by
  intro l
  induction l with
  | nil => intro _ b hb; cases hb
  | cons a rest ih =>
    intro hnd b hb
    rw [List.nodup_cons] at hnd
    by_cases hab : a = b
    · subst hab
      rw [List.filter_cons_of_neg (by simp)]
      have : rest.filter (fun x => decide (x ≠ a)) = rest := by
        rw [List.filter_eq_self]
        intro x hx
        simp only [decide_eq_true_eq]
        intro he
        exact hnd.1 (he ▸ hx)
      rw [this, List.length_cons]
    · have hb' : b ∈ rest := by
        rcases List.mem_cons.mp hb with h | h
        · exact absurd h.symm hab
        · exact h
      rw [List.filter_cons_of_pos (by simpa using hab), List.length_cons,
        List.length_cons]
      rw [← ih hnd.2 b hb']

theorem filter_two_length {β : Type _} [DecidableEq β] :
    ∀ (l : List β), l.Nodup → ∀ (b1 b2 : β), b1 ∈ l → b2 ∈ l → b1 ≠ b2 →
    (l.filter (fun b => decide (b ≠ b1 ∧ b ≠ b2))).length + 2 = l.length := by
  intro l
  induction l with
  | nil => intro _ b1 b2 h1; cases h1
  | cons a rest ih =>
    intro hnd b1 b2 h1 h2 hne
    rw [List.nodup_cons] at hnd
    by_cases ha1 : a = b1
    · subst ha1
      have hb2 : b2 ∈ rest := by
        rcases List.mem_cons.mp h2 with h | h
        · exact absurd h.symm hne
        · exact h
      rw [List.filter_cons_of_neg (by simp)]
      have hcongr : rest.filter (fun b => decide (b ≠ a ∧ b ≠ b2))
          = rest.filter (fun b => decide (b ≠ b2)) := by
        refine List.filter_congr ?_
        intro x hx
        have hxa : x ≠ a := fun he => hnd.1 (he ▸ hx)
        simp [hxa]
      rw [hcongr, List.length_cons, ← filter_one_length rest hnd.2 b2 hb2]
    · by_cases ha2 : a = b2
      · subst ha2
        have hb1 : b1 ∈ rest := by
          rcases List.mem_cons.mp h1 with h | h
          · exact absurd h hne
          · exact h
        rw [List.filter_cons_of_neg (by simp)]
        have hcongr : rest.filter (fun b => decide (b ≠ b1 ∧ b ≠ a))
            = rest.filter (fun b => decide (b ≠ b1)) := by
          refine List.filter_congr ?_
          intro x hx
          have hxa : x ≠ a := fun he => hnd.1 (he ▸ hx)
          simp [hxa]
        rw [hcongr, List.length_cons, ← filter_one_length rest hnd.2 b1 hb1]
      · have hb1 : b1 ∈ rest := by
          rcases List.mem_cons.mp h1 with h | h
          · exact absurd h.symm ha1
          · exact h
        have hb2 : b2 ∈ rest := by
          rcases List.mem_cons.mp h2 with h | h
          · exact absurd h.symm ha2
          · exact h
        rw [List.filter_cons_of_pos (by simp [ha1, ha2]), List.length_cons,
          List.length_cons, ← ih hnd.2 b1 b2 hb1 hb2 hne]

theorem sortedEdges_perm (G : Graph α) : (sortedEdges G).Perm G.adj :=
  List.mergeSort_perm G.adj _

theorem sortedEdges_pairwise (G : Graph α) :
    (sortedEdges G).Pairwise (fun e f => e.2.2 ≤ f.2.2) := by
  have h := @List.sorted_mergeSort (α × α × ℚ)
    (fun e f => decide (e.2.2 ≤ f.2.2))
    (fun a b c h1 h2 => by
      simp only [decide_eq_true_eq] at *
      exact le_trans h1 h2)
    (fun a b => by
      simp only [Bool.or_eq_true, decide_eq_true_eq]
      exact le_total a.2.2 b.2.2)
    G.adj
  refine h.imp ?_
  intro a b hab
  simpa using hab

/-! ## The exchange machinery -/

theorem isEdgeB_eraseE {M : List (α × α × ℚ)} {f : α × α × ℚ} {a b : α}
    (h : isEdgeB M a b = true)
    (hne : ¬((f.1 = a ∧ f.2.1 = b) ∨ (f.1 = b ∧ f.2.1 = a))) :
    isEdgeB (eraseE M f) a b = true := by
  unfold isEdgeB at h ⊢
  rcases List.any_eq_true.mp h with ⟨g, hg, hp⟩
  refine List.any_eq_true.mpr ⟨g, ?_, hp⟩
  refine mem_eraseE_of_ne hg ?_
  intro hgf
  subst hgf
  simp only [decide_eq_true_eq] at hp
  exact hne (by tauto)

theorem chain_reach {E : List (α × α × ℚ)} :
    ∀ (p : List α) (a t : α),
    List.Chain' (fun u v => isEdgeB E u v = true) (a :: p) →
    (a :: p).getLast? = some t → ReachTo E a t := by
  intro p
  induction p with
  | nil =>
    intro a t _ hl
    have ha : a = t := by simpa using hl
    exact ha ▸ ReachTo.refl a
  | cons b q ih =>
    intro a t hchain hl
    have hab := (List.chain'_cons.mp hchain).1
    have hl' : (b :: q).getLast? = some t := by
      rw [List.getLast?_cons_cons] at hl
      exact hl
    exact (ReachTo.single (isEdgeB_adjRel hab)).trans
      (ih b t (List.chain'_cons.mp hchain).2 hl')

theorem exists_crossing {bu : List α} :
    ∀ (p : List α) (u v : α),
    p.head? = some u → p.getLast? = some v → u ∈ bu → v ∉ bu →
    ∃ pre x y suf, p = pre ++ x :: y :: suf ∧ x ∈ bu ∧ y ∉ bu := by
  intro p
  induction p with
  | nil => intro u v hh _ _ _; cases hh
  | cons a q ih =>
    intro u v hh hl hu hv
    have ha : a = u := by simpa using hh
    cases q with
    | nil =>
      have hav : a = v := by simpa using hl
      rw [ha] at hav
      exact absurd (hav ▸ hu) hv
    | cons b q' =>
      by_cases hb : b ∈ bu
      · have hl' : (b :: q').getLast? = some v := by
          rw [List.getLast?_cons_cons] at hl
          exact hl
        rcases ih b v rfl hl' hb hv with ⟨pre, x, y, suf, heq, hx, hy⟩
        exact ⟨a :: pre, x, y, suf, by rw [List.cons_append, ← heq], hx, hy⟩
      · refine ⟨[], a, b, q', rfl, ?_, hb⟩
        rw [ha]
        exact hu

theorem chain_erase {M : List (α × α × ℚ)} {f : α × α × ℚ} :
    ∀ (l : List α), List.Chain' (fun a b => isEdgeB M a b = true) l →
    (∀ a ∈ l, ∀ b ∈ l, ¬((f.1 = a ∧ f.2.1 = b) ∨ (f.1 = b ∧ f.2.1 = a))) →
    List.Chain' (fun a b => isEdgeB (eraseE M f) a b = true) l := by
  intro l
  induction l with
  | nil => intro _ _; exact List.chain'_nil
  | cons a q ih =>
    intro hchain hav
    cases q with
    | nil => exact List.chain'_singleton a
    | cons b q' =>
      rw [List.chain'_cons] at hchain ⊢
      refine ⟨isEdgeB_eraseE hchain.1
        (hav a (List.mem_cons_self _ _) b
          (List.mem_cons_of_mem _ (List.mem_cons_self _ _))), ?_⟩
      exact ih hchain.2
        (fun x hx y hy => hav x (List.mem_cons_of_mem _ hx) y
          (List.mem_cons_of_mem _ hy))

theorem reach_swap {M M' : List (α × α × ℚ)} {f : α × α × ℚ}
    (hsub : ∀ g ∈ M, g ≠ f → g ∈ M')
    (hf : ReachTo M' f.1 f.2.1) :
    ∀ {a b : α}, ReachTo M a b → ReachTo M' a b := by
  intro a b h
  induction h with
  | refl => exact ReachTo.refl a
  | tail h1 hbc ih =>
    rename_i b' c'
    refine ih.trans ?_
    rcases hbc with ⟨w, hg | hg⟩
    · by_cases hgf : (b', c', w) = f
      · rw [← hgf] at hf
        exact hf
      · exact ReachTo.single ⟨w, Or.inl (hsub _ hg hgf)⟩
    · by_cases hgf : (c', b', w) = f
      · rw [← hgf] at hf
        exact hf.symm
      · exact ReachTo.single ⟨w, Or.inr (hsub _ hg hgf)⟩

/-! ## The Kruskal loop invariant -/

/-- Invariant of the Kruskal scan: the remaining edges are weight-sorted,
blocks partition the nodes into exactly the selected-forest components,
every processed edge is selected or intra-block, one block disappears per
selection, and the selection extends to a minimum spanning subgraph. -/
structure KInv (G : Graph α) (rem : List (α × α × ℚ)) (blocks : List (List α))
    (sel : List (α × α × ℚ)) : Prop where
  sorted : rem.Pairwise (fun e f => e.2.2 ≤ f.2.2)
  nodupSR : (sel ++ rem).Nodup
  remSub : ∀ e ∈ rem, e ∈ G.adj
  selSub : ∀ e ∈ sel, e ∈ G.adj
  part : Partn blocks G.nodes
  link : ∀ x ∈ G.nodes, ∀ y ∈ G.nodes, (SameBlock blocks x y ↔ ReachTo sel x y)
  procd : ∀ e ∈ G.adj, e ∈ rem ∨ e ∈ sel ∨ SameBlock blocks e.1 e.2.1
  count : blocks.length + sel.length = G.nodes.length
  opt : ∃ M, M ⊆ G.adj ∧ M.Nodup ∧ Spans G M ∧ (∀ g ∈ sel, g ∈ M) ∧
    ∀ T, T ⊆ G.adj → T.Nodup → Spans G T → listWeight M ≤ listWeight T

theorem kruskal_step {G : Graph α} (hWF : G.WF) (hNN : ∀ e ∈ G.adj, 0 ≤ e.2.2)
    {e : α × α × ℚ} {rest : List (α × α × ℚ)} {blocks : List (List α)}
    {sel : List (α × α × ℚ)} (inv : KInv G (e :: rest) blocks sel)
    {bu bv : List α} (hbu : findBlock blocks e.1 = some bu)
    (hbv : findBlock blocks e.2.1 = some bv) (hne : bu ≠ bv) :
    KInv G rest ((bu ++ bv) :: blocks.filter (fun b => decide (b ≠ bu ∧ b ≠ bv)))
      (sel ++ [e]) := by
  obtain ⟨hbuB, huBu⟩ := findBlock_some hbu
  obtain ⟨hbvB, hvBv⟩ := findBlock_some hbv
  have heG : e ∈ G.adj := inv.remSub e (List.mem_cons_self _ _)
  have hun : e.1 ∈ G.nodes := (hWF.2.1 e heG).1
  have hvn : e.2.1 ∈ G.nodes := (hWF.2.1 e heG).2.1
  have hPnew := partn_merge inv.part hbuB hbvB hne
  have hadjE : adjRel (sel ++ [e]) e.1 e.2.1 :=
    ⟨e.2.2, Or.inl (List.mem_append.mpr (Or.inr (List.mem_singleton.mpr rfl)))⟩
  have hselmono : ∀ g ∈ sel, g ∈ sel ++ [e] :=
    fun g hg => List.mem_append.mpr (Or.inl hg)
  have hanchor : ∀ z ∈ bu ++ bv, ReachTo (sel ++ [e]) z e.1 := by
    intro z hz
    rcases List.mem_append.mp hz with hz | hz
    · have hzN : z ∈ G.nodes := inv.part.bsub bu hbuB z hz
      exact reach_mono hselmono ((inv.link z hzN e.1 hun).mp ⟨bu, hbuB, hz, huBu⟩)
    · have hzN : z ∈ G.nodes := inv.part.bsub bv hbvB z hz
      exact (reach_mono hselmono
          ((inv.link z hzN e.2.1 hvn).mp ⟨bv, hbvB, hz, hvBv⟩)).trans
        (ReachTo.single (adjRel_symm hadjE))
  have hback : ∀ x ∈ G.nodes, ∀ y, ReachTo (sel ++ [e]) x y →
      SameBlock ((bu ++ bv) :: blocks.filter (fun b => decide (b ≠ bu ∧ b ≠ bv)))
        x y := by
    intro x hx y hr
    induction hr with
    | refl =>
      rcases hPnew.cover x hx with ⟨b, hb, hxb⟩
      exact ⟨b, hb, hxb, hxb⟩
    | tail h1 hadj ih =>
      rename_i b' c'
      refine sameBlock_trans hPnew ih ?_
      have hstep : ∀ (g : α × α × ℚ), g ∈ sel ++ [e] →
          SameBlock ((bu ++ bv) ::
            blocks.filter (fun b => decide (b ≠ bu ∧ b ≠ bv))) g.1 g.2.1 := by
        intro g hg
        rcases List.mem_append.mp hg with hg | hg
        · have hgG : g ∈ G.adj := inv.selSub g hg
          exact sameBlock_merge_mono ((inv.link g.1 (hWF.2.1 g hgG).1 g.2.1
            (hWF.2.1 g hgG).2.1).mpr (ReachTo.single (adjRel_of_mem hg)))
        · rw [List.mem_singleton.mp hg]
          exact ⟨bu ++ bv, List.mem_cons_self _ _,
            List.mem_append.mpr (Or.inl huBu), List.mem_append.mpr (Or.inr hvBv)⟩
      rcases hadj with ⟨w, hg | hg⟩
      · exact hstep (b', c', w) hg
      · exact sameBlock_symm (hstep (c', b', w) hg)
  refine ⟨(List.pairwise_cons.mp inv.sorted).2, ?_, ?_, ?_, hPnew, ?_, ?_, ?_, ?_⟩
  · show ((sel ++ [e]) ++ rest).Nodup
    rw [List.append_assoc]
    exact inv.nodupSR
  · exact fun g hg => inv.remSub g (List.mem_cons_of_mem e hg)
  · intro g hg
    rcases List.mem_append.mp hg with hg | hg
    · exact inv.selSub g hg
    · rw [List.mem_singleton.mp hg]
      exact heG
  · intro x hx y hy
    constructor
    · intro hsb
      rcases hsb with ⟨b, hb, hxb, hyb⟩
      rcases List.mem_cons.mp hb with hb | hb
      · rw [hb] at hxb hyb
        exact (hanchor x hxb).trans (hanchor y hyb).symm
      · exact reach_mono hselmono
          ((inv.link x hx y hy).mp ⟨b, List.mem_of_mem_filter hb, hxb, hyb⟩)
    · exact hback x hx y
  · intro g hg
    rcases inv.procd g hg with hg' | hg' | hg'
    · rcases List.mem_cons.mp hg' with hg' | hg'
      · right; left
        rw [hg']
        exact List.mem_append.mpr (Or.inr (List.mem_singleton.mpr rfl))
      · exact Or.inl hg'
    · exact Or.inr (Or.inl (hselmono g hg'))
    · exact Or.inr (Or.inr (sameBlock_merge_mono hg'))
  · have h2 := filter_two_length blocks inv.part.bnodup bu bv hbuB hbvB hne
    have h3 := inv.count
    have h4 : ((bu ++ bv) ::
        blocks.filter (fun b => decide (b ≠ bu ∧ b ≠ bv))).length
        = (blocks.filter (fun b => decide (b ≠ bu ∧ b ≠ bv))).length + 1 :=
      List.length_cons _ _
    have h5 : (sel ++ [e]).length = sel.length + 1 := by
      rw [List.length_append, List.length_singleton]
    rw [h4, h5]
    omega
  · rcases inv.opt with ⟨M, hMsub, hMnd, hMsp, hselM, hMmin⟩
    by_cases heM : e ∈ M
    · refine ⟨M, hMsub, hMnd, hMsp, ?_, hMmin⟩
      intro g hg
      rcases List.mem_append.mp hg with hg | hg
      · exact hselM g hg
      · rw [List.mem_singleton.mp hg]
        exact heM
    · have hMnn : ∀ g ∈ M, 0 ≤ g.2.2 := fun g hg => hNN g (hMsub hg)
      have hreach : ReachTo M e.1 e.2.1 := hMsp e.1 hun e.2.1 hvn
      rcases reach_exists_walk hreach with ⟨p0, hp0⟩
      rcases walk_shorten hMnn p0.length p0 e.1 e.2.1 (le_refl _) hp0 with
        ⟨q, hq, hqnd, _⟩
      have hvnotbu : e.2.1 ∉ bu := by
        intro h
        exact hne (block_unique inv.part hbuB hbvB h hvBv)
      rcases exists_crossing q e.1 e.2.1 hq.2.1 hq.2.2 huBu hvnotbu with
        ⟨pre, x, y, suf, hqeq, hxbu, hynbu⟩
      have hchain : List.Chain' (fun a b => isEdgeB M a b = true) q := hq.1.2
      have hsplit : pre ++ x :: y :: suf = (pre ++ [x]) ++ (y :: suf) := by
        rw [List.append_assoc]
        rfl
      rw [hqeq, hsplit] at hchain hqnd
      rw [List.chain'_append] at hchain
      obtain ⟨hchain1, hchain2, hmid⟩ := hchain
      have hxy : isEdgeB M x y = true := by
        refine hmid x ?_ y rfl
        rw [List.getLast?_concat]
        rfl
      have hfex : ∃ f, f ∈ M ∧
          ((f.1 = x ∧ f.2.1 = y) ∨ (f.1 = y ∧ f.2.1 = x)) := by
        rcases isEdgeB_adjRel hxy with ⟨w0, hm | hm⟩
        · exact ⟨(x, y, w0), hm, Or.inl ⟨rfl, rfl⟩⟩
        · exact ⟨(y, x, w0), hm, Or.inr ⟨rfl, rfl⟩⟩
      rcases hfex with ⟨f, hfM, hfe⟩
      have hfG : f ∈ G.adj := hMsub hfM
      have hf1n : f.1 ∈ G.nodes := (hWF.2.1 f hfG).1
      have hf2n : f.2.1 ∈ G.nodes := (hWF.2.1 f hfG).2.1
      have hnsb : ¬ SameBlock blocks f.1 f.2.1 := by
        intro hsb
        have hsbxy : SameBlock blocks x y := by
          rcases hfe with ⟨h1, h2⟩ | ⟨h1, h2⟩
          · rw [← h1, ← h2]
            exact hsb
          · rw [← h2, ← h1]
            exact sameBlock_symm hsb
        rcases hsbxy with ⟨b, hb, hxb, hyb⟩
        have hbb : b = bu := block_unique inv.part hb hbuB hxb hxbu
        exact hynbu (hbb ▸ hyb)
      have hfsel : f ∉ sel := by
        intro hfs
        exact hnsb ((inv.link f.1 hf1n f.2.1 hf2n).mpr
          (ReachTo.single (adjRel_of_mem hfs)))
      have hfneE : f ≠ e := fun h => heM (h ▸ hfM)
      have hfrest : f ∈ rest := by
        rcases inv.procd f hfG with h | h | h
        · rcases List.mem_cons.mp h with h | h
          · exact absurd h hfneE
          · exact h
        · exact absurd h hfsel
        · exact absurd h hnsb
      have hwef : e.2.2 ≤ f.2.2 := (List.pairwise_cons.mp inv.sorted).1 f hfrest
      have hselM' : ∀ g ∈ sel, g ∈ eraseE M f :=
        fun g hg => mem_eraseE_of_ne (hselM g hg) (fun h => hfsel (h ▸ hg))
      have hselM'' : ∀ g ∈ sel, g ∈ e :: eraseE M f :=
        fun g hg => List.mem_cons_of_mem _ (hselM' g hg)
      have hxu : ReachTo (e :: eraseE M f) x e.1 := by
        have hxN : x ∈ G.nodes := inv.part.bsub bu hbuB x hxbu
        exact reach_mono hselM''
          ((inv.link x hxN e.1 hun).mp ⟨bu, hbuB, hxbu, huBu⟩)
      have huv : ReachTo (e :: eraseE M f) e.1 e.2.1 :=
        ReachTo.single ⟨e.2.2, Or.inl (List.mem_cons_self _ _)⟩
      have hxnot : x ∉ y :: suf := by
        rw [List.nodup_append] at hqnd
        exact fun hx => hqnd.2.2
          (List.mem_append.mpr (Or.inr (List.mem_singleton.mpr rfl))) hx
      have hav : ∀ a ∈ y :: suf, ∀ b ∈ y :: suf,
          ¬((f.1 = a ∧ f.2.1 = b) ∨ (f.1 = b ∧ f.2.1 = a)) := by
        intro a ha b hb hcon
        rcases hfe with ⟨h1, h2⟩ | ⟨h1, h2⟩
        · rcases hcon with ⟨ha', _⟩ | ⟨hb', _⟩
          · rw [h1] at ha'
            exact hxnot (ha' ▸ ha)
          · rw [h1] at hb'
            exact hxnot (hb' ▸ hb)
        · rcases hcon with ⟨_, hb'⟩ | ⟨_, ha'⟩
          · rw [h2] at hb'
            exact hxnot (hb' ▸ hb)
          · rw [h2] at ha'
            exact hxnot (ha' ▸ ha)
      have hchain2' := chain_erase (y :: suf) hchain2 hav
      have hlast2 : (y :: suf).getLast? = some e.2.1 := by
        have hlq := hq.2.2
        rw [hqeq, hsplit, List.getLast?_append] at hlq
        cases hgl : (y :: suf).getLast? with
        | none =>
          rw [List.getLast?_eq_none_iff] at hgl
          cases hgl
        | some z =>
          rw [hgl, Option.or_some] at hlq
          exact hlq
      have hyv : ReachTo (e :: eraseE M f) y e.2.1 := by
        have := chain_reach suf y e.2.1 hchain2' hlast2
        exact reach_mono (fun g hg => List.mem_cons_of_mem _ hg) this
      have hreachf : ReachTo (e :: eraseE M f) f.1 f.2.1 := by
        have hxy' : ReachTo (e :: eraseE M f) x y := (hxu.trans huv).trans hyv.symm
        rcases hfe with ⟨h1, h2⟩ | ⟨h1, h2⟩
        · rw [h1, h2]
          exact hxy'
        · rw [h1, h2]
          exact hxy'.symm
      have hM'sp : Spans G (e :: eraseE M f) := by
        intro a ha b hb
        refine reach_swap ?_ hreachf (hMsp a ha b hb)
        intro g hg hgf
        exact List.mem_cons_of_mem _ (mem_eraseE_of_ne hg hgf)
      have hwM' : listWeight (e :: eraseE M f) ≤ listWeight M := by
        rw [listWeight_cons, listWeight_erase_add hfM]
        linarith
      refine ⟨e :: eraseE M f, ?_, ?_, hM'sp, ?_, ?_⟩
      · intro g hg
        rcases List.mem_cons.mp hg with hg | hg
        · exact hg ▸ heG
        · exact hMsub (mem_of_mem_eraseE hg)
      · rw [List.nodup_cons]
        exact ⟨fun h => heM (mem_of_mem_eraseE h), nodup_eraseE f hMnd⟩
      · intro g hg
        rcases List.mem_append.mp hg with hg | hg
        · exact List.mem_cons_of_mem _ (hselM' g hg)
        · rw [List.mem_singleton.mp hg]
          exact List.mem_cons_self _ _
      · intro T hT1 hT2 hT3
        exact le_trans hwM' (hMmin T hT1 hT2 hT3)

theorem kruskalFold_spec {G : Graph α} (hWF : G.WF)
    (hNN : ∀ e ∈ G.adj, 0 ≤ e.2.2) :
    ∀ (rem : List (α × α × ℚ)) (blocks : List (List α))
      (sel : List (α × α × ℚ)),
    KInv G rem blocks sel →
    KInv G [] (kruskalFold rem blocks sel).1 (kruskalFold rem blocks sel).2 := by
  intro rem
  induction rem with
  | nil =>
    intro blocks sel inv
    exact inv
  | cons e rest ih =>
    intro blocks sel inv
    have heG : e ∈ G.adj := inv.remSub e (List.mem_cons_self _ _)
    have hun : e.1 ∈ G.nodes := (hWF.2.1 e heG).1
    have hvn : e.2.1 ∈ G.nodes := (hWF.2.1 e heG).2.1
    rcases findBlock_isSome (inv.part.cover e.1 hun) with ⟨bu, hbu⟩
    rcases findBlock_isSome (inv.part.cover e.2.1 hvn) with ⟨bv, hbv⟩
    obtain ⟨hbuB, huBu⟩ := findBlock_some hbu
    obtain ⟨hbvB, hvBv⟩ := findBlock_some hbv
    by_cases hbb : bu = bv
    · have hr : kruskalFold (e :: rest) blocks sel
          = kruskalFold rest blocks sel := by
        conv_lhs => rw [kruskalFold]
        rw [hbu, hbv]
        show (if bu = bv then kruskalFold rest blocks sel
          else kruskalFold rest
            ((bu ++ bv) :: blocks.filter (fun b => decide (b ≠ bu ∧ b ≠ bv)))
            (sel ++ [e])) = kruskalFold rest blocks sel
        rw [if_pos hbb]
      have inv' : KInv G rest blocks sel := by
        refine ⟨(List.pairwise_cons.mp inv.sorted).2, ?_,
          fun g hg => inv.remSub g (List.mem_cons_of_mem e hg), inv.selSub,
          inv.part, inv.link, ?_, inv.count, inv.opt⟩
        · exact inv.nodupSR.sublist
            (List.Sublist.append_left (List.sublist_cons_self e rest) sel)
        · intro g hg
          rcases inv.procd g hg with h | h | h
          · rcases List.mem_cons.mp h with h | h
            · right; right
              rw [h]
              refine ⟨bu, hbuB, huBu, ?_⟩
              rw [hbb]
              exact hvBv
            · exact Or.inl h
          · exact Or.inr (Or.inl h)
          · exact Or.inr (Or.inr h)
      rw [hr]
      exact ih blocks sel inv'
    · have hr : kruskalFold (e :: rest) blocks sel
          = kruskalFold rest
            ((bu ++ bv) :: blocks.filter (fun b => decide (b ≠ bu ∧ b ≠ bv)))
            (sel ++ [e]) := by
        conv_lhs => rw [kruskalFold]
        rw [hbu, hbv]
        show (if bu = bv then kruskalFold rest blocks sel
          else kruskalFold rest
            ((bu ++ bv) :: blocks.filter (fun b => decide (b ≠ bu ∧ b ≠ bv)))
            (sel ++ [e])) = _
        rw [if_neg hbb]
      rw [hr]
      exact ih _ _ (kruskal_step hWF hNN inv hbu hbv hbb)

theorem kruskal_init {G : Graph α} (hWF : G.WF) (hconn : Spans G G.adj) :
    KInv G (sortedEdges G) (G.nodes.map (fun v => [v])) [] := by
  refine ⟨sortedEdges_pairwise G, ?_, ?_, ?_,
    ⟨?_, ?_, ?_, ?_, ?_, ?_⟩, ?_, ?_, ?_, ?_⟩
  · show ([] ++ sortedEdges G).Nodup
    rw [List.nil_append]
    exact (sortedEdges_perm G).nodup_iff.mpr (adj_nodup_of_WF hWF)
  · exact fun e he => (sortedEdges_perm G).subset he
  · exact fun e he => absurd he (List.not_mem_nil e)
  · exact hWF.1.map (fun a b h => by simpa using h)
  · intro b hb
    rcases List.mem_map.mp hb with ⟨v, _, hv⟩
    rw [← hv]
    simp
  · intro b hb
    rcases List.mem_map.mp hb with ⟨v, _, hv⟩
    rw [← hv]
    exact List.nodup_singleton v
  · rw [List.pairwise_map]
    refine hWF.1.imp ?_
    intro a b hab x hx1 hx2
    rw [List.mem_singleton.mp hx1] at hx2
    exact hab (List.mem_singleton.mp hx2)
  · intro x hx
    exact ⟨[x], List.mem_map.mpr ⟨x, hx, rfl⟩, List.mem_singleton.mpr rfl⟩
  · intro b hb x hxb
    rcases List.mem_map.mp hb with ⟨v, hv, hbv⟩
    rw [← hbv] at hxb
    rw [List.mem_singleton.mp hxb]
    exact hv
  · intro x hx y hy
    constructor
    · rintro ⟨b, hb, hxb, hyb⟩
      rcases List.mem_map.mp hb with ⟨v, _, hbv⟩
      rw [← hbv] at hxb hyb
      have hxy : x = y := by
        rw [List.mem_singleton.mp hxb, List.mem_singleton.mp hyb]
      exact hxy ▸ ReachTo.refl x
    · intro hr
      have hxy : x = y := by
        induction hr with
        | refl => rfl
        | tail h1 hadj ih =>
          rcases hadj with ⟨w, h | h⟩
          · exact absurd h (List.not_mem_nil _)
          · exact absurd h (List.not_mem_nil _)
      refine ⟨[x], List.mem_map.mpr ⟨x, hx, rfl⟩, List.mem_singleton.mpr rfl, ?_⟩
      rw [← hxy]
      exact List.mem_singleton.mpr rfl
  · intro e he
    exact Or.inl ((sortedEdges_perm G).mem_iff.mpr he)
  · simp
  · rcases exists_min_spanning hWF hconn with ⟨M, h1, h2, h3, h4⟩
    exact ⟨M, h1, h2, h3, fun g hg => absurd hg (List.not_mem_nil g), h4⟩

theorem kruskal_spec {G : Graph α} (hWF : G.WF) (hNN : ∀ e ∈ G.adj, 0 ≤ e.2.2)
    (hconn : Spans G G.adj) :
    (kruskal G).length = G.nodes.length - 1 ∧ Spans G (kruskal G) ∧
    ∀ T, T ⊆ G.adj → T.Nodup → Spans G T →
      listWeight (kruskal G) ≤ listWeight T := by
  have hK0 := kruskalFold_spec hWF hNN (sortedEdges G)
    (G.nodes.map (fun v => [v])) [] (kruskal_init hWF hconn)
  obtain ⟨B, S, hBS⟩ : ∃ B S,
      kruskalFold (sortedEdges G) (G.nodes.map (fun v => [v])) [] = (B, S) :=
    ⟨_, _, rfl⟩
  rw [hBS] at hK0
  have hK : KInv G [] B S := hK0
  have hkr : kruskal G = S := by
    unfold kruskal
    rw [hBS]
  have hsb : ∀ g ∈ G.adj, SameBlock B g.1 g.2.1 := by
    intro g hg
    rcases hK.procd g hg with h | h | h
    · exact absurd h (List.not_mem_nil g)
    · exact (hK.link g.1 (hWF.2.1 g hg).1 g.2.1 (hWF.2.1 g hg).2.1).mpr
        (ReachTo.single (adjRel_of_mem h))
    · exact h
  have hsbG : ∀ u ∈ G.nodes, ∀ v, ReachTo G.adj u v → SameBlock B u v := by
    intro u hu v hr
    induction hr with
    | refl =>
      rcases hK.part.cover u hu with ⟨b, hb, hub⟩
      exact ⟨b, hb, hub, hub⟩
    | tail h1 hadj ih =>
      rename_i b' c'
      refine sameBlock_trans hK.part ih ?_
      rcases hadj with ⟨w, h | h⟩
      · exact hsb (b', c', w) h
      · exact sameBlock_symm (hsb (c', b', w) h)
  have hspansSel : Spans G S :=
    fun u hu v hv => (hK.link u hu v hv).mp (hsbG u hu v (hconn u hu v hv))
  have hSnd : S.Nodup := by
    have h1 := hK.nodupSR
    rwa [List.append_nil] at h1
  have hmin : ∀ T, T ⊆ G.adj → T.Nodup → Spans G T →
      listWeight S ≤ listWeight T := by
    rcases hK.opt with ⟨M, hM1, _, _, hselM, hMmin⟩
    intro T h1 h2 h3
    have hsub : listWeight S ≤ listWeight M :=
      listWeight_subperm_le (hSnd.subperm hselM)
        (fun g hg => hNN g (hM1 hg))
    exact le_trans hsub (hMmin T h1 h2 h3)
  have hlen : S.length = G.nodes.length - 1 := by
    rcases hnodes : G.nodes with _ | ⟨n0, ns⟩
    · have hc := hK.count
      rw [hnodes] at hc
      simp only [List.length_nil] at hc ⊢
      omega
    · have hn0 : n0 ∈ G.nodes := by
        rw [hnodes]
        exact List.mem_cons_self n0 ns
      rcases hK.part.cover n0 hn0 with ⟨b0, hb0, hn0b⟩
      have hall : ∀ b ∈ B, b = b0 := by
        intro b hb
        rcases List.exists_mem_of_ne_nil b (hK.part.nonempty b hb) with ⟨y, hy⟩
        have hyN : y ∈ G.nodes := hK.part.bsub b hb y hy
        rcases hsbG n0 hn0 y (hconn n0 hn0 y hyN) with ⟨b', hb', hn0b', hyb'⟩
        have e1 : b' = b0 := block_unique hK.part hb' hb0 hn0b' hn0b
        have e2 : b = b' := block_unique hK.part hb hb' hy hyb'
        rw [e2, e1]
      have hlen1 : B.length = 1 := by
        rcases hres : B with _ | ⟨c, cs⟩
        · rw [hres] at hb0
          cases hb0
        · rcases hcs : cs with _ | ⟨d, ds⟩
          · rfl
          · have hc : c = b0 := hall c (by
              rw [hres]
              exact List.mem_cons_self c cs)
            have hd : d = b0 := hall d (by
              rw [hres, hcs]
              exact List.mem_cons_of_mem c (List.mem_cons_self d ds))
            have hnd := hK.part.bnodup
            rw [hres, hcs, List.nodup_cons] at hnd
            exact absurd (by
              rw [hc, ← hd]
              exact List.mem_cons_self d ds) hnd.1
      have hc := hK.count
      rw [hlen1, hnodes] at hc
      omega
  rw [hkr]
  exact ⟨hlen, hspansSel, hmin⟩

/-! ## Claim C6 -/

/-- C6: for a start node present in a well-formed graph, bfs_traversal and
dfs_traversal both succeed and return sequences that begin with the start
node, contain no duplicates, and contain exactly the nodes reachable from
the start. -/
theorem C6_thm (G : Graph α) (hWF : G.WF) (s : α) (hs : s ∈ G.nodes) :
    ∃ l m, bfs_traversal G s = .ok l ∧ dfs_traversal G s = .ok m ∧
      l.Nodup ∧ m.Nodup ∧ l.head? = some s ∧ m.head? = some s ∧
      (∀ v, v ∈ l ↔ G.Reachable s v) ∧ (∀ v, v ∈ m ↔ G.Reachable s v) := by
  have hcard : (G.verts.toFinset \ ([s] : List α).toFinset).card
      ≤ G.verts.length := by
    calc (G.verts.toFinset \ ([s] : List α).toFinset).card
        ≤ G.verts.toFinset.card := Finset.card_le_card Finset.sdiff_subset
    _ ≤ G.verts.length := G.verts.toFinset_card_le
  have hcard0 : (G.verts.toFinset \ ([] : List α).toFinset).card
      ≤ G.verts.length := by
    calc (G.verts.toFinset \ ([] : List α).toFinset).card
        ≤ G.verts.toFinset.card := Finset.card_le_card Finset.sdiff_subset
    _ ≤ G.verts.length := G.verts.toFinset_card_le
  rcases bfsAux_spec G s hWF (G.verts.length + 2) [s] [s] []
    (by simp only [List.length_cons, List.length_nil]; omega)
    (fun x hx => by rw [List.mem_singleton.mp hx]; exact hs)
    (fun x => by simp)
    (by simp)
    (fun x hx => by rw [List.mem_singleton.mp hx]; exact ReachTo.refl s)
    (fun x hx => absurd hx (List.not_mem_nil x)) with
    ⟨l, hl, hlnd, ⟨ext, hext, hhead⟩, hlreach, hlmem, hlclosed⟩
  rcases (dfs_spec G hWF (G.verts.length + 2)).1 s []
    (by omega)
    hs (List.not_mem_nil s) List.nodup_nil with
    ⟨m, hm, ⟨ext2, hext2⟩, hmnd, hmreach, hmclosed⟩
  refine ⟨l, m, hl, hm, hlnd, hmnd, ?_, ?_, ?_, ?_⟩
  · rw [hext]
    simpa using hhead
  · rw [hext2]
    simp
  · intro v
    constructor
    · exact fun hv => hlreach v hv
    · intro hv
      induction hv with
      | refl => exact hlmem s (Or.inr (List.mem_singleton.mpr rfl))
      | tail hr hadj ihr => exact hlclosed _ ihr _ hadj
  · intro v
    constructor
    · intro hv
      rcases hmreach v hv with h' | h'
      · cases h'
      · exact h'
    · intro hv
      have hsm : s ∈ m := by
        rw [hext2]
        simp
      induction hv with
      | refl => exact hsm
      | tail hr hadj ihr =>
        exact hmclosed _ ihr (List.not_mem_nil _) _ hadj

/-- C6 witness: the theorem applied to the concrete scenario graph. -/
theorem C6_witness :
    ∃ l m, bfs_traversal demoGraph "A" = .ok l ∧ dfs_traversal demoGraph "A" = .ok m ∧
      l.Nodup ∧ m.Nodup ∧ l.head? = some "A" ∧ m.head? = some "A" ∧
      (∀ v, v ∈ l ↔ demoGraph.Reachable "A" v) ∧
      (∀ v, v ∈ m ↔ demoGraph.Reachable "A" v) :=
  C6_thm demoGraph (by decide) "A" (by decide)

theorem dijkstra_unreachable {G : Graph α} {s t : α} (hs : s ∈ G.nodes)
    (h : ¬ ReachTo G.adj s t) : dijkstra_shortest_path G s t = .ok (⊤, []) := by
  have hts : ¬ t = s := fun h' => h (by rw [h']; exact ReachTo.refl s)
  have hsing : PairsReach G.adj s ([(s, ([s] : List α))]) := by
    intro p hp; rw [List.mem_singleton.mp hp]; exact ReachTo.refl s
  have hsing0 : PairsReach G.adj s ([(s, (0 : ℚ))]) := by
    intro p hp; rw [List.mem_singleton.mp hp]; exact ReachTo.refl s
  have hkeys := (dijkstraAux_pairs G s (G.verts.length + 1) [] [(s, [s])] [(s, 0)]
    (fun p hp => absurd hp (List.not_mem_nil p)) hsing hsing0).1
  have hnone : alookup (dijkstraAux G (G.verts.length + 1) [] [(s, [s])] [(s, 0)]).1 t
      = none := by
    cases heq : alookup (dijkstraAux G (G.verts.length + 1) [] [(s, [s])] [(s, 0)]).1 t with
    | none => rfl
    | some d => exact absurd (hkeys _ (alookup_eq_some_mem heq)) h
  simp only [dijkstra_shortest_path, single_source_dijkstra, if_neg hts, if_pos hs, hnone]

theorem bellman_unreachable {G : Graph α} {s t : α} (h : ¬ ReachTo G.adj s t) :
    bellman_ford_shortest_path G s t = (⊤, []) := by
  have hts : ¬ s = t := fun h' => h (by rw [← h']; exact ReachTo.refl s)
  by_cases hs : s ∈ G.nodes
  · cases hbi : bellmanInner G s with
    | error e =>
      simp only [bellman_ford_shortest_path, single_source_bellman_ford, if_neg hts,
        if_pos hs, hbi]
    | ok st =>
      have hkeys := (bellmanInner_pairs hbi).1
      have hnone : alookup st.1 t = none := by
        cases heq : alookup st.1 t with
        | none => rfl
        | some d => exact absurd (hkeys _ (alookup_eq_some_mem heq)) h
      simp only [bellman_ford_shortest_path, single_source_bellman_ford, if_neg hts,
        if_pos hs, hbi, hnone]
  · simp only [bellman_ford_shortest_path, single_source_bellman_ford, if_neg hts, if_neg hs]

/-! ## Claim C1 -/

/-- C1 counterexample: on a graph with a negative cycle reachable from the
source, the underlying Bellman-Ford raises its negative-cycle failure, yet
bellman_ford_shortest_path swallows it and returns exactly the unreachable
result (infinite distance, empty path), contradicting the claim that this
is never silently degraded to "unreachable". -/
theorem C1_counterexample :
    walkCost negCycleGraph.adj [0, 1, 0] = -2 ∧
    IsWalkFrom negCycleGraph.adj 0 0 [0, 1, 0] ∧
    single_source_bellman_ford negCycleGraph 0 1 = .error .negativeCycle ∧
    bellman_ford_shortest_path negCycleGraph 0 1 = (⊤, []) := by
  refine ⟨?_, ⟨⟨by simp, ?_⟩, by simp, by simp⟩, ?_, ?_⟩
  · with_unfolding_all rfl
  · simp [negCycleGraph, isEdgeB, List.chain'_cons, List.chain'_singleton]
  · with_unfolding_all rfl
  · with_unfolding_all rfl

/-- C1 amended: when Bellman-Ford detects a negative cycle, the detection is
raised internally but bellman_ford_shortest_path catches every exception and
returns the unreachable result (infinite distance, empty path), so the
failure is not distinguishable by the caller. -/
theorem C1_amended (G : Graph α) (s t : α)
    (h : single_source_bellman_ford G s t = .error .negativeCycle) :
    bellman_ford_shortest_path G s t = (⊤, []) := by
  unfold bellman_ford_shortest_path
  rw [h]

/-- C1 witness: the amended theorem applied to the concrete negative-cycle
graph. -/
theorem C1_witness : bellman_ford_shortest_path negCycleGraph 0 1 = (⊤, []) :=
  C1_amended negCycleGraph 0 1 (by with_unfolding_all rfl)

/-! ## Claim C3 -/

/-- C3 counterexample: building a graph from a matrix with negative cells
does not fail at all — build_graph_from_df is total — and the negative edge
is silently skipped: the result has both nodes and no edge. -/
theorem C3_counterexample :
    build_graph_from_df negDF = (⟨["A", "B"], []⟩ : Graph String) := by
  with_unfolding_all rfl

/-- Membership in the edge list after add_edge: an untouched old edge, or
an edge carrying the new weight. -/
theorem add_edge_adj_weight {G : Graph α} {a b : α} {w : ℚ} {e : α × α × ℚ}
    (h : e ∈ (G.add_edge a b w).adj) : e ∈ G.adj ∨ e.2.2 = w := by
  simp only [Graph.add_edge] at h
  split at h
  · simp only at h
    rcases List.mem_map.mp h with ⟨f, hf, heq⟩
    by_cases hc : (f.1 = a ∧ f.2.1 = b) ∨ (f.1 = b ∧ f.2.1 = a)
    · rw [if_pos hc] at heq
      right
      rw [← heq]
    · rw [if_neg hc] at heq
      exact Or.inl (heq ▸ hf)
  · simp only at h
    rcases List.mem_append.mp h with h | h
    · exact Or.inl h
    · right
      rw [List.mem_singleton.mp h]

/-- C3 amended: build_graph_from_df never fails; any cell that is not
strictly positive (negative weights included) is silently skipped, so every
edge of the constructed graph carries a strictly positive weight. -/
theorem C3_amended (df : DF α) :
    ∀ e ∈ (build_graph_from_df df).adj, 0 < e.2.2 := by
  unfold build_graph_from_df
  have hbase : ∀ e ∈ (df.index.foldl (fun G c => G.add_node c)
      (⟨[], []⟩ : Graph α)).adj, (0 : ℚ) < e.2.2 := by
    refine foldl_inv (fun G : Graph α => ∀ e ∈ G.adj, (0 : ℚ) < e.2.2) ?_ ?_
    · intro e he; cases he
    · intro G c _ hP
      unfold Graph.add_node
      split
      · exact hP
      · exact hP
  refine foldl_inv (fun G : Graph α => ∀ e ∈ G.adj, (0 : ℚ) < e.2.2) hbase ?_
  intro G ia _ hP
  refine foldl_inv (fun G : Graph α => ∀ e ∈ G.adj, (0 : ℚ) < e.2.2) hP ?_
  intro G' jb _ hP'
  split
  · exact hP'
  · split
    · next hw =>
      intro e he
      rcases add_edge_adj_weight he with he | he
      · exact hP' e he
      · rw [he]
        exact hw
    · exact hP'

/-- C3 witness: the amended theorem applied to the positive matrix, whose
single constructed edge has the positive weight 7. -/
theorem C3_witness : (0 : ℚ) < 7 :=
  C3_amended posDF ("A", "B", 7) (by
    have h : (build_graph_from_df posDF).adj = [("A", "B", 7)] := by with_unfolding_all rfl
    rw [h]
    exact List.mem_singleton.mpr rfl)

/-! ## Claim C8 -/

/-- C8: on the concrete scenario graph, Dijkstra from A to D returns
distance 4 with path [A,B,C,D], and the minimum spanning forest selects
exactly the edges A-B(1), C-D(1), B-C(2) with total weight 4. -/
theorem C8_thm :
    dijkstra_shortest_path demoGraph "A" "D"
      = .ok (((4 : ℚ) : WithTop ℚ), ["A", "B", "C", "D"]) ∧
    (build_mst demoGraph).1.adj
      = [("A", "B", (1 : ℚ)), ("C", "D", (1 : ℚ)), ("B", "C", (2 : ℚ))] ∧
    (build_mst demoGraph).2 = 4 := by
  refine ⟨by with_unfolding_all rfl, by with_unfolding_all rfl, by with_unfolding_all rfl⟩

/-! ## Claim C10 -/

/-- C10: bellman_ford_shortest_path is total — for every graph and label
pair it returns a (distance, path) pair; an internal success is passed
through, and every internal failure (unknown node, no path, negative
cycle) is mapped to the pair (infinite distance, empty path). -/
theorem C10_thm (G : Graph α) (s t : α) :
    (∃ e, single_source_bellman_ford G s t = .error e ∧
      bellman_ford_shortest_path G s t = (⊤, [])) ∨
    (∃ d p, single_source_bellman_ford G s t = .ok (d, p) ∧
      bellman_ford_shortest_path G s t = ((d : WithTop ℚ), p)) := by
  unfold bellman_ford_shortest_path
  cases h : single_source_bellman_ford G s t with
  | error e => exact Or.inl ⟨e, rfl, rfl⟩
  | ok dp => exact Or.inr ⟨dp.1, dp.2, rfl, rfl⟩

/-! ## Claim C2 -/

/-- C2 counterexample: absent labels do not always surface as UnknownNode
failures.  With the single node A: Bellman-Ford with absent source X
returns the normal unreachable pair; Dijkstra with absent target X returns
the normal unreachable pair; Dijkstra with source and target both the
absent X even returns distance 0 with path [X]. -/
theorem C2_counterexample :
    bellman_ford_shortest_path oneNodeGraph "X" "A" = (⊤, []) ∧
    dijkstra_shortest_path oneNodeGraph "A" "X" = .ok (⊤, []) ∧
    dijkstra_shortest_path oneNodeGraph "X" "X" = .ok (((0 : ℚ) : WithTop ℚ), ["X"]) := by
  refine ⟨by with_unfolding_all rfl, by with_unfolding_all rfl, by with_unfolding_all rfl⟩

/-- C2 amended: with an absent start label, bfs_traversal and dfs_traversal
fail (NetworkXError propagates); dijkstra_shortest_path fails with
NodeNotFound for an absent source distinct from the target, but silently
returns the unreachable pair when only the target is absent;
bellman_ford_shortest_path never surfaces any failure — any absent
endpoint yields the unreachable pair. -/
theorem C2_amended (G : Graph α) (hWF : G.WF) (s t : α) :
    (s ∉ G.nodes →
      bfs_traversal G s = .error .networkXError ∧
      dfs_traversal G s = .error .networkXError ∧
      (t ≠ s → dijkstra_shortest_path G s t = .error .nodeNotFound) ∧
      bellman_ford_shortest_path G s t = (⊤, [])) ∧
    (s ∈ G.nodes → t ∉ G.nodes →
      dijkstra_shortest_path G s t = .ok (⊤, []) ∧
      bellman_ford_shortest_path G s t = (⊤, [])) := by
  constructor
  · intro hs
    refine ⟨?_, ?_, ?_, ?_⟩
    · show bfsAux G (G.verts.length + 2) [s] [s] [] = .error .networkXError
      have : G.verts.length + 2 = (G.verts.length + 1) + 1 := rfl
      rw [this, bfsAux]
      simp only [Graph.neighbors, if_neg hs]
    · show dfsAux G (G.verts.length + 2) s [] = .error .networkXError
      have : G.verts.length + 2 = (G.verts.length + 1) + 1 := rfl
      rw [this, dfsAux]
      simp only [Graph.neighbors, if_neg hs]
    · intro hts
      simp only [dijkstra_shortest_path, single_source_dijkstra, if_neg hts, if_neg hs]
    · by_cases hst : s = t
      · simp only [bellman_ford_shortest_path, single_source_bellman_ford, if_pos hst,
          if_neg hs]
      · simp only [bellman_ford_shortest_path, single_source_bellman_ford, if_neg hst,
          if_neg hs]
  · intro hs ht
    have hur : ¬ ReachTo G.adj s t := fun hr => ht (reach_mem_nodes hWF hs hr)
    exact ⟨dijkstra_unreachable hs hur, bellman_unreachable hur⟩

/-! ## Claim C5 -/

/-- C5: for nodes present in the graph with the target unreachable from the
source, both shortest-path wrappers return the sentinel distance (infinity)
together with the empty path, and for Dijkstra this is an ordinary `.ok`
result, not an error. -/
theorem C5_thm (G : Graph α) (s t : α) (hs : s ∈ G.nodes) (ht : t ∈ G.nodes)
    (h : ¬ G.Reachable s t) :
    dijkstra_shortest_path G s t = .ok (⊤, []) ∧
    bellman_ford_shortest_path G s t = (⊤, []) :=
  ⟨dijkstra_unreachable hs h, bellman_unreachable h⟩

/-- C5 witness: the theorem applied to the graph where C is isolated. -/
theorem C5_witness :
    dijkstra_shortest_path discGraph "A" "C" = .ok (⊤, []) ∧
    bellman_ford_shortest_path discGraph "A" "C" = (⊤, []) :=
  C5_thm discGraph "A" "C" (by decide) (by decide) (by
    show ¬ ReachTo discGraph.adj "A" "C"
    rw [reach_iff_reachB]
    with_unfolding_all decide)

/-! ## Claim C7 -/

set_option maxRecDepth 8192 in
/-- C7: on a well-formed connected graph with non-negative weights,
build_mst returns exactly N-1 edges; the returned total is exactly the sum
of the returned edges' weights; the selected weight is minimal among all
duplicate-free spanning edge subsets (in particular among all spanning
trees); and on the concrete disconnected graph with components of sizes 3
and 2 the operation does not fail and returns a forest of exactly
(3-1)+(2-1) = 3 edges. -/
theorem C7_thm {G : Graph α} (hWF : G.WF) (hNN : ∀ e ∈ G.adj, 0 ≤ e.2.2)
    (hconn : ∀ u ∈ G.nodes, ∀ v ∈ G.nodes, G.Reachable u v) :
    (build_mst G).1.adj.length = G.nodes.length - 1 ∧
    (build_mst G).2 = listWeight (build_mst G).1.adj ∧
    (∀ T, T ⊆ G.adj → T.Nodup → Spans G T →
      listWeight (build_mst G).1.adj ≤ listWeight T) ∧
    (¬ discon32.Reachable "P" "S") ∧
    (build_mst discon32).1.adj.length = 3 := by
  have hks := kruskal_spec hWF hNN hconn
  refine ⟨hks.1, rfl, hks.2.2, ?_, ?_⟩
  · show ¬ ReachTo discon32.adj "P" "S"
    rw [reach_iff_reachB]
    with_unfolding_all decide
  · with_unfolding_all rfl

set_option maxRecDepth 8192 in
/-- C7 witness: the theorem applied to the connected four-node demo
graph. -/
theorem C7_witness :
    (build_mst demoGraph).1.adj.length = demoGraph.nodes.length - 1 ∧
    (build_mst demoGraph).2 = listWeight (build_mst demoGraph).1.adj ∧
    (∀ T, T ⊆ demoGraph.adj → T.Nodup → Spans demoGraph T →
      listWeight (build_mst demoGraph).1.adj ≤ listWeight T) ∧
    (¬ discon32.Reachable "P" "S") ∧
    (build_mst discon32).1.adj.length = 3 :=
  C7_thm (by decide) (by with_unfolding_all decide) (by
    have h : Spans demoGraph demoGraph.adj :=
      (spans_iff_spansB demoGraph demoGraph.adj).mpr (by with_unfolding_all decide)
    exact h)

/-! ## Claim C4 -/

/-- C4: for every well-formed graph with non-negative edge weights and
every pair of present nodes `s`, `t` with `t` reachable from `s`,
`dijkstra_shortest_path` and `bellman_ford_shortest_path` return the same
distance — the exact shortest-walk distance — and for each of the two the
sum of the edge weights along the returned node sequence equals the
returned distance exactly. -/
theorem C4_thm {G : Graph α} (hWF : G.WF) (hNN : ∀ e ∈ G.adj, 0 ≤ e.2.2)
    {s t : α} (hs : s ∈ G.nodes) (ht : t ∈ G.nodes) (hr : G.Reachable s t) :
    ∃ (d : ℚ) (p q : List α),
      dijkstra_shortest_path G s t = .ok ((d : WithTop ℚ), p) ∧
      bellman_ford_shortest_path G s t = ((d : WithTop ℚ), q) ∧
      IsWalkFrom G.adj s t p ∧ walkCost G.adj p = d ∧
      IsWalkFrom G.adj s t q ∧ walkCost G.adj q = d ∧
      IsShortestDist G.adj s t d := by
  rcases dijkstra_correct hWF hNN hs hr with ⟨d1, p, hd1, hsh1, hw1, hc1⟩
  rcases bellman_correct hWF hNN hs hr with ⟨d2, q, hd2, hsh2, hw2, hc2⟩
  have hdd : d2 = d1 := by
    rcases hsh1.1 with ⟨w1, hww1, hwc1⟩
    rcases hsh2.1 with ⟨w2, hww2, hwc2⟩
    have h12 : d2 ≤ d1 := by
      have := hsh2.2 w1 hww1
      rw [hwc1] at this
      exact this
    have h21 : d1 ≤ d2 := by
      have := hsh1.2 w2 hww2
      rw [hwc2] at this
      exact this
    exact le_antisymm h12 h21
  refine ⟨d1, p, q, ?_, ?_, hw1, hc1, hw2, by rw [hc2, hdd], hsh1⟩
  · unfold dijkstra_shortest_path
    rw [hd1]
  · unfold bellman_ford_shortest_path
    rw [hd2, hdd]

set_option maxRecDepth 8192 in
/-- C4 witness: the theorem applied to the four-node demo graph. -/
theorem C4_witness :
    ∃ (d : ℚ) (p q : List String),
      dijkstra_shortest_path demoGraph "A" "D" = .ok ((d : WithTop ℚ), p) ∧
      bellman_ford_shortest_path demoGraph "A" "D" = ((d : WithTop ℚ), q) ∧
      IsWalkFrom demoGraph.adj "A" "D" p ∧ walkCost demoGraph.adj p = d ∧
      IsWalkFrom demoGraph.adj "A" "D" q ∧ walkCost demoGraph.adj q = d ∧
      IsShortestDist demoGraph.adj "A" "D" d :=
  C4_thm (by decide) (by with_unfolding_all decide) (by decide) (by decide) (by
    show ReachTo demoGraph.adj "A" "D"
    rw [reach_iff_reachB]
    with_unfolding_all decide)

/-! ## State-threaded runs agree with the plain runs and keep the graph -/

theorem bfsAuxSt_eq (G : Graph α) : ∀ (fuel : ℕ) (q seen visited : List α),
    bfsAuxSt fuel G q seen visited = (G, bfsAux G fuel q seen visited) := by
  intro fuel
  induction fuel with
  | zero => intro q seen visited; rfl
  | succ fuel ih =>
    intro q seen visited
    cases q with
    | nil => rfl
    | cons u q' =>
      cases hn : G.neighbors u with
      | error e => simp [bfsAuxSt, bfsAux, hn]
      | ok ns =>
        simp only [bfsAuxSt, bfsAux, hn]
        exact ih _ _ _

theorem dfsSt_eq (G : Graph α) : ∀ fuel : ℕ,
    (∀ u visited, dfsAuxSt fuel G u visited = (G, dfsAux G fuel u visited)) ∧
    (∀ l visited, dfsFoldSt fuel G l visited = (G, dfsFold G fuel l visited)) := by
  intro fuel
  induction fuel with
  | zero =>
    constructor
    · intro u visited
      simp [dfsAuxSt, dfsAux]
    · intro l
      induction l with
      | nil => intro visited; simp [dfsFoldSt, dfsFold]
      | cons vw rest ih =>
        intro visited
        by_cases hv : vw.1 ∈ visited
        · simp only [dfsFoldSt, dfsFold, if_pos hv]
          exact ih visited
        · simp only [dfsFoldSt, dfsFold, if_neg hv, dfsAuxSt, dfsAux]
          exact ih visited
  | succ fuel ihf =>
    have haux : ∀ u visited,
        dfsAuxSt (fuel + 1) G u visited = (G, dfsAux G (fuel + 1) u visited) := by
      intro u visited
      cases hn : G.neighbors u with
      | error e => simp [dfsAuxSt, dfsAux, hn]
      | ok ns =>
        simp only [dfsAuxSt, dfsAux, hn]
        exact ihf.2 _ _
    refine ⟨haux, ?_⟩
    intro l
    induction l with
    | nil => intro visited; simp [dfsFoldSt, dfsFold]
    | cons vw rest ih =>
      intro visited
      by_cases hv : vw.1 ∈ visited
      · simp only [dfsFoldSt, dfsFold, if_pos hv]
        exact ih visited
      · simp only [dfsFoldSt, dfsFold, if_neg hv, haux vw.1 visited]
        cases ha : dfsAux G (fuel + 1) vw.1 visited with
        | error e => simp
        | ok visited' =>
          simp only
          exact ih visited'

theorem dijkstraAuxSt_eq (G : Graph α) :
    ∀ (fuel : ℕ) (dist : List (α × ℚ)) (paths : List (α × List α)) (tent : List (α × ℚ)),
    dijkstraAuxSt fuel G dist paths tent = (G, dijkstraAux G fuel dist paths tent) := by
  intro fuel
  induction fuel with
  | zero => intro d p t; rfl
  | succ fuel ih =>
    intro d p t
    cases hp : pickMin t with
    | none => simp [dijkstraAuxSt, dijkstraAux, hp]
    | some ud =>
      simp only [dijkstraAuxSt, dijkstraAux, hp]
      exact ih _ _ _

/-! ## Claim C9 -/

/-- C9: each of the five query operations leaves the graph object exactly
as it was (same node list, edge list, and weights) and returns the same
result as the plain run — no query mutates the shared graph state. -/
theorem C9_thm (G : Graph α) (s t : α) :
    (bfs_traversal_st G s).1 = G ∧ (bfs_traversal_st G s).2 = bfs_traversal G s ∧
    (dfs_traversal_st G s).1 = G ∧ (dfs_traversal_st G s).2 = dfs_traversal G s ∧
    (dijkstra_shortest_path_st G s t).1 = G ∧
    (dijkstra_shortest_path_st G s t).2 = dijkstra_shortest_path G s t ∧
    (bellman_ford_shortest_path_st G s t).1 = G ∧
    (bellman_ford_shortest_path_st G s t).2 = bellman_ford_shortest_path G s t ∧
    (build_mst_st G).1 = G ∧ (build_mst_st G).2 = build_mst G := by
  have hbfs : bfs_traversal_st G s = (G, bfs_traversal G s) := bfsAuxSt_eq G _ _ _ _
  have hdfs : dfs_traversal_st G s = (G, dfs_traversal G s) := (dfsSt_eq G _).1 _ _
  have hdij : dijkstra_shortest_path_st G s t = (G, dijkstra_shortest_path G s t) := by
    unfold dijkstra_shortest_path_st dijkstra_shortest_path single_source_dijkstra
    by_cases hts : t = s
    · rw [if_pos hts, if_pos hts]
    · rw [if_neg hts, if_neg hts]
      by_cases hs : s ∈ G.nodes
      · rw [if_pos hs, if_pos hs]
        rw [dijkstraAuxSt_eq G]
        simp only
        cases alookup (dijkstraAux G (G.verts.length + 1) [] [(s, [s])] [(s, 0)]).1 t with
        | none =>
          cases alookup (dijkstraAux G (G.verts.length + 1) [] [(s, [s])] [(s, 0)]).2 t
            <;> rfl
        | some d =>
          cases alookup (dijkstraAux G (G.verts.length + 1) [] [(s, [s])] [(s, 0)]).2 t
            <;> rfl
      · rw [if_neg hs, if_neg hs]
  rw [hbfs, hdfs, hdij]
  exact ⟨rfl, rfl, rfl, rfl, rfl, rfl, rfl, rfl, rfl, rfl⟩

/-- C2 witness: the amended theorem applied to the single-node graph. -/
theorem C2_witness :
    bfs_traversal oneNodeGraph "X" = .error .networkXError ∧
    dijkstra_shortest_path oneNodeGraph "A" "X" = .ok (⊤, []) := by
  constructor
  · exact ((C2_amended oneNodeGraph (by decide) "X" "A").1 (by decide)).1
  · exact ((C2_amended oneNodeGraph (by decide) "A" "X").2 (by decide) (by decide)).1

end TravelRoute
